import Mathlib

/-!
Verification of the mahjong scoring core (`mahjong-rs`).

This file shallowly embeds the Rust sources (`tile.rs`, `tiles.rs`,
`tilesets.rs`, `agaritilesets.rs`, `form.rs`, `judge.rs`, `utils.rs`) as Lean
definitions and proves properties of them.  Machine integers (`u8`, `u32`,
`usize`) are modelled as `Nat`; all arithmetic performed by the embedded code
is far below `2^32`, so wrapping never occurs and plain `Nat` is faithful.
Rust `Vec<Tile>` / `Tiles` become `List Tile`; the sorting performed by
`Tiles::new` / `Tiles::push` is a stable insertion sort, matching Rust's
stable `sort`.  Rust's `==` on tiles ignores the red-dora flag; it is embedded
as the boolean `tileBeq`, distinct from Lean's structural equality.
-/

namespace Mahjong

/-! ### Tile model (`tile.rs`) -/

/-- Honor tiles (`Zipai` in `tile.rs`). -/
inductive Zipai
  | east
  | south
  | west
  | north
  | bai
  | fa
  | zhong
deriving DecidableEq, Repr

/-- Discriminant used by the derived `Ord` on the Rust `Zipai` enum. -/
def Zipai.idx : Zipai → Nat
  | .east => 0
  | .south => 1
  | .west => 2
  | .north => 3
  | .bai => 4
  | .fa => 5
  | .zhong => 6

/-- Rank of a suited tile together with the red-dora flag (`Order`). -/
structure TOrder where
  order : Nat
  isRed : Bool
deriving DecidableEq, Repr

/-- `Order::new`: fails unless the rank is in `1..=9`; never red. -/
def TOrder.new (n : Nat) : Option TOrder :=
  if n < 1 ∨ 9 < n then none else some ⟨n, false⟩

/-- `Order::next`: the next rank, `None` past 9 (`Order::new(order + 1)`). -/
def TOrder.next (o : TOrder) : Option TOrder :=
  TOrder.new (o.order + 1)

/-- `Order::prev`: the previous rank, `None` below 1 (`Order::new(order - 1)`). -/
def TOrder.prev (o : TOrder) : Option TOrder :=
  TOrder.new (o.order - 1)

/-- `Order::is_zhongzhang`: rank is neither 1 nor 9. -/
def TOrder.isZhongzhang (o : TOrder) : Bool :=
  o.order ≠ 1 && o.order ≠ 9

/-- `Order::is_green_order`: rank is one of 2, 3, 4, 6, 8. -/
def TOrder.isGreenOrder (o : TOrder) : Bool :=
  o.order == 2 || o.order == 3 || o.order == 4 || o.order == 6 || o.order == 8

/-- A tile (`Tile` in `tile.rs`): three suits of ranks plus honors. -/
inductive Tile
  | suozi (o : TOrder)
  | wanzi (o : TOrder)
  | tongzi (o : TOrder)
  | zipai (z : Zipai)
deriving DecidableEq, Repr

/-- The four tile kinds (`TileKind`). -/
inductive TileKind
  | suozi
  | wanzi
  | tongzi
  | zipai
deriving DecidableEq, Repr

/-- Rust `PartialEq` on `Tile`: structural except that the red flag on the
rank is ignored (`Order`'s manual `PartialEq` compares the rank only). -/
def tileBeq : Tile → Tile → Bool
  | .suozi a, .suozi b => a.order == b.order
  | .wanzi a, .wanzi b => a.order == b.order
  | .tongzi a, .tongzi b => a.order == b.order
  | .zipai a, .zipai b => a == b
  | _, _ => false

/-- Rust `Ord` on `Tile` (derived): variant order `Suozi < Wanzi < Tongzi <
Zipai`, then rank (red flag ignored, as in `Order`'s manual `Ord`) or honor
discriminant. -/
def Tile.cmp : Tile → Tile → Ordering
  | .suozi a, .suozi b => compare a.order b.order
  | .suozi _, _ => .lt
  | .wanzi _, .suozi _ => .gt
  | .wanzi a, .wanzi b => compare a.order b.order
  | .wanzi _, _ => .lt
  | .tongzi _, .suozi _ => .gt
  | .tongzi _, .wanzi _ => .gt
  | .tongzi a, .tongzi b => compare a.order b.order
  | .tongzi _, .zipai _ => .lt
  | .zipai a, .zipai b => compare a.idx b.idx
  | .zipai _, _ => .gt

/-- The non-strict order on tiles induced by `Tile.cmp`. -/
def tileLe (a b : Tile) : Prop := Tile.cmp a b ≠ .gt

instance : DecidableRel tileLe := fun a b => by unfold tileLe; infer_instance

/-- `Tile::next`: successor within the same suit, `None` for honors or 9s. -/
def Tile.next : Tile → Option Tile
  | .zipai _ => none
  | .suozi o => o.next.map .suozi
  | .wanzi o => o.next.map .wanzi
  | .tongzi o => o.next.map .tongzi

/-- `Tile::prev`: predecessor within the same suit, `None` for honors or 1s. -/
def Tile.prev : Tile → Option Tile
  | .zipai _ => none
  | .suozi o => o.prev.map .suozi
  | .wanzi o => o.prev.map .wanzi
  | .tongzi o => o.prev.map .tongzi

/-- `Tile::order`: the rank, `None` for honors. -/
def Tile.order : Tile → Option TOrder
  | .zipai _ => none
  | .suozi o => some o
  | .wanzi o => some o
  | .tongzi o => some o

/-- `Tile::kind`. -/
def Tile.kind : Tile → TileKind
  | .suozi _ => .suozi
  | .wanzi _ => .wanzi
  | .tongzi _ => .tongzi
  | .zipai _ => .zipai

/-- `Tile::is_red`. -/
def Tile.isRed (t : Tile) : Bool :=
  (t.order.map (·.isRed)).getD false

/-- `Tile::is_zhongzhang`: middle (2–8) suited tile. -/
def Tile.isZhongzhang (t : Tile) : Bool :=
  (t.order.map (·.isZhongzhang)).getD false

/-- `Tile::is_yaojiu`: terminal or honor. -/
def Tile.isYaojiu (t : Tile) : Bool :=
  (t.order.map (fun o => !o.isZhongzhang)).getD true

/-- `Tile::is_feng`: one of the four winds. -/
def Tile.isFeng : Tile → Bool
  | .zipai .east => true
  | .zipai .south => true
  | .zipai .west => true
  | .zipai .north => true
  | _ => false

/-- `Tile::is_sanyuan`: one of the three dragon tiles. -/
def Tile.isSanyuan : Tile → Bool
  | .zipai .bai => true
  | .zipai .fa => true
  | .zipai .zhong => true
  | _ => false

/-- `Tile::is_green`: can take part in the all-green limit hand. -/
def Tile.isGreen : Tile → Bool
  | .zipai .fa => true
  | .suozi o => o.isGreenOrder
  | _ => false

/-! ### Context (`context.rs`) -/

/-- Seat / round wind (`Direction`). -/
inductive Direction
  | east
  | south
  | west
  | north
deriving DecidableEq, Repr

/-- `PartialEq<Direction> for Zipai`: a wind honor matches its direction. -/
def zipaiEqDir : Zipai → Direction → Bool
  | .east, .east => true
  | .south, .south => true
  | .west, .west => true
  | .north, .north => true
  | _, _ => false

/-- Ready-hand declaration state (`Lizhi`). -/
inductive Lizhi
  | none
  | lizhi
  | lizhiIppatsu
  | doubleLizhi
  | doubleLizhiIppatsu
deriving DecidableEq, Repr

/-! ### Tile collections (`tiles.rs`)

A `Tiles` value is a sorted `Vec<Tile>`; here it is a `List Tile` sorted with
the stable insertion sort `sortTiles` (Rust's stable `sort` by `Tile`'s
`Ord`). -/

/-- The default tile used to model the (unreachable) panics of
`Tiles::first` / `last` / `middle` on too-short collections. -/
def dfltTile : Tile := .zipai .east

/-- `Tiles::new` / the sorting done by `Tiles::push`. -/
def sortTiles (l : List Tile) : List Tile := l.insertionSort tileLe

/-- `Tiles::first`. -/
def firstTile (l : List Tile) : Tile := l.headD dfltTile

/-- `Tiles::last`. -/
def endTile (l : List Tile) : Tile := l.getLastD dfltTile

/-- `Tiles::middle` (the collection always has three tiles at call sites). -/
def middleTile (l : List Tile) : Tile := (l.drop 1).headD dfltTile

/-- `Tiles::contains` (Rust `Vec::contains`, which uses `==` on tiles). -/
def tilesContain (l : List Tile) (t : Tile) : Bool := l.any (fun s => tileBeq s t)

/-! ### Wait classification (`agaritilesets.rs`, `MachiKind` and
`enumerate_machis`) -/

/-- The six wait kinds (`MachiKind`). -/
inductive MachiKind
  | liangmian
  | shuangpeng
  | bianzhang
  | qianzhang
  | danqi
  | yandan
deriving DecidableEq, Repr

/-- Loop body of `MachiEnumerator::is_liangmian_bianzhang`: scan the
concealed runs for the first one whose end tile equals the winning tile and
classify it as an edge wait (123 completed by the 3, or 789 by the 7) or an
open wait. -/
def liangmianBianzhangLoop (lastT : Tile) (orderLast : TOrder) :
    List (List Tile) → Option MachiKind
  | [] => none
  | shunzi :: rest =>
    if !(tileBeq lastT (firstTile shunzi)) && !(tileBeq lastT (endTile shunzi)) then
      liangmianBianzhangLoop lastT orderLast rest
    else
      match (firstTile shunzi).order with
      | none => liangmianBianzhangLoop lastT orderLast rest
      | some orderShunziFirst =>
        match (endTile shunzi).order with
        | none => liangmianBianzhangLoop lastT orderLast rest
        | some orderShunziLast =>
          if orderShunziLast.order == 3 && orderLast.order == 3 then
            some .bianzhang
          else if orderShunziFirst.order == 7 && orderLast.order == 7 then
            some .bianzhang
          else
            some .liangmian

/-- `MachiEnumerator::is_liangmian_bianzhang`. -/
def isLiangmianBianzhang (anshuns : List (List Tile)) (lastT : Tile) :
    Option MachiKind :=
  match lastT.order with
  | none => none
  | some orderLast => liangmianBianzhangLoop lastT orderLast anshuns

/-- `MachiEnumerator::is_shuangpeng`: the winning tile heads some concealed
triplet. -/
def isShuangpeng (ankes : List (List Tile)) (lastT : Tile) : Bool :=
  ankes.any (fun kezi => tileBeq (firstTile kezi) lastT)

/-- `MachiEnumerator::is_qianzhang`: the winning tile is the middle of some
concealed run. -/
def isQianzhang (anshuns : List (List Tile)) (lastT : Tile) : Bool :=
  anshuns.any (fun shunzi => tileBeq (middleTile shunzi) lastT)

/-- Loop body of `MachiEnumerator::is_danqi_yandan`: find a concealed run
adjacent (successor or predecessor) to the winning tile. -/
def danqiYandanLoop (lastT : Tile) : List (List Tile) → Option MachiKind
  | [] => some .danqi
  | shunzi :: rest =>
    if (match lastT.next with
        | some n => tileBeq (firstTile shunzi) n
        | none => false) then
      some .yandan
    else if (match lastT.prev with
        | some p => tileBeq (endTile shunzi) p
        | none => false) then
      some .yandan
    else
      danqiYandanLoop lastT rest

/-- `MachiEnumerator::is_danqi_yandan`: when the winning tile is the pair
tile, distinguish the bare pair wait from the extended (four-in-a-row) pair
wait by looking for a concealed run adjacent to the winning tile. -/
def isDanqiYandan (quetou : List Tile) (anshuns : List (List Tile))
    (lastT : Tile) : Option MachiKind :=
  if !(tileBeq (firstTile quetou) lastT) then none
  else danqiYandanLoop lastT anshuns

/-- `enumerate_machis` (via `MachiEnumerator::enumerate`): collect every wait
kind that applies, in the fixed order of the six tests. -/
def enumerateMachis (quetou : List Tile) (anshuns ankes : List (List Tile))
    (lastT : Tile) : List MachiKind :=
  (if isLiangmianBianzhang anshuns lastT == some .liangmian then
    [MachiKind.liangmian] else []) ++
  (if isShuangpeng ankes lastT then [MachiKind.shuangpeng] else []) ++
  (if isLiangmianBianzhang anshuns lastT == some .bianzhang then
    [MachiKind.bianzhang] else []) ++
  (if isQianzhang anshuns lastT then [MachiKind.qianzhang] else []) ++
  (if isDanqiYandan quetou anshuns lastT == some .danqi then
    [MachiKind.danqi] else []) ++
  (if isDanqiYandan quetou anshuns lastT == some .yandan then
    [MachiKind.yandan] else [])

/-! ### Scoring forms and points (`form.rs`) -/

/-- A scoring pattern (`Form`): its payload is the variable parameter some
variants carry (count of value-tile groups, count of dora, concealment). -/
inductive Form
  | lizhi
  | ippatsu
  | menqianqingzimohu
  | fanpai (n : Nat)
  | duanyaojiu
  | pinghe
  | yibeikou
  | haidimoyue
  | hedilaoyu
  | lingshangkaihua
  | chenggang
  | doublelizhi
  | sanshokudojun (menqian : Bool)
  | sanshokudoko
  | sananke
  | ikkitsukan (menqian : Bool)
  | qiduizi
  | duiduihe
  | hunquandaiyaojiu (menqian : Bool)
  | sangangzi
  | liangbeigou
  | chunquandaiyaojiu (menqian : Bool)
  | hungyise (menqian : Bool)
  | shousangen
  | hunlaotou
  | qingyise (menqian : Bool)
  | sianke (danqi : Bool)
  | daisangen
  | kokushimuso (genuine : Bool)
  | luyise
  | ziyise
  | qinglaotou
  | sigangzi
  | shousushi
  | daisushi
  | jiulianbaodeng (genuine : Bool)
  | dihe
  | tianhe
  | dora (n : Nat)
deriving DecidableEq, Repr

/-- Fan / fu / limit-multiplier accumulator (`Point`). -/
structure Point where
  fan : Nat
  fu : Nat
  yiman : Nat
deriving DecidableEq, Repr

/-- `Point::new`. -/
def Point.mk0 (fan : Nat) : Point := ⟨fan, 0, 0⟩

/-- `Point::with_fu`. -/
def Point.withFu (fan fu : Nat) : Point := ⟨fan, fu, 0⟩

/-- `Point::new_manguan`. -/
def Point.newManguan : Point := Point.mk0 5

/-- `Point::new_yiman`. -/
def Point.newYiman : Point := ⟨13, 0, 1⟩

/-- `Point::is_true_yiman`. -/
def Point.isTrueYiman (p : Point) : Bool := p.yiman > 0

/-- `Ord for Point`: by fan, then by fu (the limit multiplier is ignored). -/
def Point.cmp (p q : Point) : Ordering :=
  (compare p.fan q.fan).then (compare p.fu q.fu)

/-- `Sum for Point`: fan, fu and limit multiplier add componentwise. -/
def sumPoints (l : List Point) : Point :=
  l.foldl (fun acc p => ⟨acc.fan + p.fan, acc.fu + p.fu, acc.yiman + p.yiman⟩)
    ⟨0, 0, 0⟩

/-- `ceil_at` (`utils.rs`): round `x` up to the next multiple of `at`. -/
def ceilAt (x at_ : Nat) : Nat := (x + (at_ - 1)) / at_ * at_

/-- `calc_few` inside `Point::value`: the small-hand score formula.  The
recursive call `Point::new_manguan().value(is_parent)` always lands in the
`(5, _)` arm and yields 12000 (dealer) or 8000, inlined here as `manguan`. -/
def Point.calcFew (isParent : Bool) (fan fu : Nat) : Nat :=
  let mul : Nat := if isParent then 6 else 4
  let manguan : Nat := if isParent then 12000 else 8000
  let raw := fu * mul * 2 ^ (fan + 2)
  if raw > manguan then manguan else ceilAt raw 100

/-- `Point::value`: the monetary value of a point for the given seat. -/
def Point.value (p : Point) (isParent : Bool) : Nat :=
  match p.yiman with
  | 0 =>
    if p.fan ≤ 4 then
      -- 4 fan 30 fu and 3 fan 60 fu are rounded up to the limit
      if (p.fan = 4 ∧ p.fu = 30) ∨ (p.fan = 3 ∧ p.fu = 60) then
        if isParent then 12000 else 8000
      else
        Point.calcFew isParent p.fan p.fu
    else if p.fan = 5 then (if isParent then 12000 else 8000)
    else if p.fan ≤ 7 then (if isParent then 18000 else 12000)
    else if p.fan ≤ 10 then (if isParent then 24000 else 16000)
    else if p.fan ≤ 12 then (if isParent then 36000 else 24000)
    else (if isParent then 48000 else 32000)
  | n + 1 => (n + 1) * (if isParent then 48000 else 32000)

/-- `Form::point`: the intrinsic fan (or limit) value of each form. -/
def Form.point : Form → Point
  | .lizhi => Point.mk0 1
  | .ippatsu => Point.mk0 1
  | .menqianqingzimohu => Point.mk0 1
  | .fanpai n => Point.mk0 n
  | .duanyaojiu => Point.mk0 1
  | .pinghe => Point.mk0 1
  | .yibeikou => Point.mk0 1
  | .haidimoyue => Point.mk0 1
  | .hedilaoyu => Point.mk0 1
  | .lingshangkaihua => Point.mk0 1
  | .chenggang => Point.mk0 1
  | .doublelizhi => Point.mk0 2
  | .sanshokudojun menqian => Point.mk0 (if menqian then 2 else 1)
  | .sanshokudoko => Point.mk0 2
  | .sananke => Point.mk0 2
  | .ikkitsukan menqian => Point.mk0 (if menqian then 2 else 1)
  | .qiduizi => Point.withFu 2 25
  | .duiduihe => Point.mk0 2
  | .hunquandaiyaojiu menqian => Point.mk0 (if menqian then 2 else 1)
  | .sangangzi => Point.mk0 2
  | .liangbeigou => Point.mk0 3
  | .chunquandaiyaojiu menqian => Point.mk0 (if menqian then 2 else 1)
  | .hungyise menqian => Point.mk0 (if menqian then 3 else 2)
  | .shousangen => Point.mk0 4
  | .hunlaotou => Point.mk0 2
  | .qingyise menqian => Point.mk0 (if menqian then 6 else 5)
  | .sianke _ => Point.newYiman
  | .daisangen => Point.newYiman
  | .kokushimuso _ => Point.newYiman
  | .luyise => Point.newYiman
  | .ziyise => Point.newYiman
  | .qinglaotou => Point.newYiman
  | .sigangzi => Point.newYiman
  | .shousushi => Point.newYiman
  | .daisushi => Point.newYiman
  | .jiulianbaodeng _ => Point.newYiman
  | .dihe => Point.newYiman
  | .tianhe => Point.newYiman
  | .dora n => Point.mk0 n

/-- Modelled from the spec: `Form::is_dora` is called by `Judge::fix_forms`
in `judge.rs` but its definition is not among the sources under `src/`; per
the spec's "dora-count form" it recognizes exactly the `Dora` variant. -/
def Form.isDora : Form → Bool
  | .dora _ => true
  | _ => false

/-- `Tile::num_fan` (`tile.rs`): value-tile count of a tile, needing the
round (`place`) and seat (`player`) winds from the context; counts how many
of "matches round wind", "matches seat wind", "is a dragon" hold. -/
structure Context where
  lizhi : Lizhi
  luckyForms : List Form
  place : Direction
  player : Direction
deriving DecidableEq, Repr

/-- `Context::is_parent`: the seat wind East marks the dealer. -/
def Context.isParent (c : Context) : Bool := c.player == Direction.east

/-- `Tile::num_fan`: see `Context` above; 0 for every suited tile. -/
def Tile.numFan (t : Tile) (ctx : Context) : Nat :=
  match t with
  | .zipai z =>
    (if zipaiEqDir z ctx.place then 1 else 0) +
    (if zipaiEqDir z ctx.player then 1 else 0) +
    (if Tile.isSanyuan (.zipai z) then 1 else 0)
  | _ => 0

/-! ### Table state (`tilesets.rs`) -/

/-- The validated table state (`Tilesets`). -/
structure Tilesets where
  context : Context
  isZimo : Bool
  last : Tile
  hand : List Tile
  pengs : List (List Tile)
  chis : List (List Tile)
  minggangs : List (List Tile)
  angangs : List (List Tile)
  doras : List Tile
deriving DecidableEq, Repr

/-- `Tilesets::did_fulou`: a pon, chii or open kong exists. -/
def Tilesets.didFulou (ts : Tilesets) : Bool :=
  !ts.pengs.isEmpty || !ts.chis.isEmpty || !ts.minggangs.isEmpty

/-- `Tilesets::is_menqian`. -/
def Tilesets.isMenqian (ts : Tilesets) : Bool := !ts.didFulou

/-- `Tilesets::tiles_without_doras`: all tiles except the dora indicators. -/
def Tilesets.tilesWithoutDoras (ts : Tilesets) : List Tile :=
  ts.last :: (ts.hand ++ ts.pengs.flatten ++ ts.chis.flatten ++ ts.minggangs.flatten ++
    ts.angangs.flatten)

/-- `Order::wrapping_next`. -/
def TOrder.wrappingNext (o : TOrder) : TOrder :=
  (o.next).getD ⟨1, false⟩

/-- `Order::wrapping_prev`. -/
def TOrder.wrappingPrev (o : TOrder) : TOrder :=
  (o.prev).getD ⟨9, false⟩

/-- `Tile::wrapping_prev`. -/
def Tile.wrappingPrev : Tile → Tile
  | .zipai .east => .zipai .north
  | .zipai .south => .zipai .east
  | .zipai .west => .zipai .south
  | .zipai .north => .zipai .west
  | .zipai .bai => .zipai .zhong
  | .zipai .fa => .zipai .bai
  | .zipai .zhong => .zipai .fa
  | .suozi o => .suozi o.wrappingPrev
  | .wanzi o => .wanzi o.wrappingPrev
  | .tongzi o => .tongzi o.wrappingPrev

/-- `Tilesets::tiles_all`: every tile including the real dora derived from
each indicator (`wrapping_prev` of the indicated tile). -/
def Tilesets.tilesAll (ts : Tilesets) : List Tile :=
  ts.tilesWithoutDoras ++ ts.doras.map Tile.wrappingPrev

/-- `Tilesets::check_num_same_tiles`: no tile (red flag ignored, as in the
`HashMap<Tile, _>` key) occurs more than four times among `tiles_all`. -/
def Tilesets.checkNumSameTiles (ts : Tilesets) : Bool :=
  ts.tilesAll.all (fun t => ts.tilesAll.countP (fun u => tileBeq u t) ≤ 4)

/-- `Tiles::check_gang`: a declared kong is four tiles all equal (`==`) to
the first. -/
def checkGang (l : List Tile) : Bool :=
  l.length == 4 && l.all (fun t => tileBeq t (firstTile l))

/-! ### Hand decomposition (`agaritilesets.rs`) -/

/-- Remove the first element satisfying `p`, returning it and the remaining
list (Rust's `iter().position(..)` followed by `remove(pos)`). -/
def removeFirstSat {α : Type} (p : α → Bool) : List α → Option (α × List α)
  | [] => none
  | x :: xs =>
    if p x then some (x, xs)
    else (removeFirstSat p xs).map (fun yr => (yr.1, x :: yr.2))

/-- `pop_first` inside `extract_shunzi`: remove the first tile equal (`==`)
to `t`. -/
def popFirst (l : List Tile) (t : Tile) : Option (Tile × List Tile) :=
  removeFirstSat (fun s => tileBeq s t) l

theorem removeFirstSat_length {α : Type} {p : α → Bool} :
    ∀ {l : List α} {x : α} {r : List α},
      removeFirstSat p l = some (x, r) → r.length + 1 = l.length := by
  intro l
  induction l with
  | nil => intro x r h; simp [removeFirstSat] at h
  | cons a as ih =>
    intro x r h
    by_cases hp : p a
    · simp [removeFirstSat, hp] at h
      simp [← h.2]
    · simp [removeFirstSat, hp] at h
      obtain ⟨y, s, hy, hx, hr⟩ := h
      have := ih hy
      simp [← hr, ← this]

theorem popFirst_length {l : List Tile} {t x : Tile} {r : List Tile}
    (h : popFirst l t = some (x, r)) : r.length + 1 = l.length :=
  removeFirstSat_length h

/-- `extract_shunzi`, with an explicit fuel so that the recursion is
structural (the loop removes three tiles per iteration, so `tiles.length`
steps always suffice; see `extractShunzi_cons` for the loop-shaped
recursion): greedily split the remaining (sorted) tiles into runs of three
consecutive ranks; take the lowest tile, then its successor, then that
tile's successor, failing if any is absent. -/
def extractShunziAux : Nat → List Tile → Option (List (List Tile))
  | _, [] => some []
  | 0, _ :: _ => none
  | fuel + 1, first :: rest =>
    match first.next with
    | none => none
    | some n1 =>
      match popFirst rest n1 with
      | none => none
      | some (mid, rest1) =>
        match mid.next with
        | none => none
        | some n2 =>
          match popFirst rest1 n2 with
          | none => none
          | some (lst, rest2) =>
            match extractShunziAux fuel rest2 with
            | none => none
            | some ss => some (sortTiles [first, mid, lst] :: ss)

/-- `extract_shunzi`. -/
def extractShunzi (l : List Tile) : Option (List (List Tile)) :=
  extractShunziAux l.length l

/-- `range_same_tiles` helper: `i` is the index of the head of `l`, `start`
the start of the currently open range, `curr` its tile. -/
def rangeSameTilesAux : List Tile → Nat → Nat → Tile → List (Nat × Nat)
  | [], i, start, _ => [(start, i)]
  | t :: rest, i, start, curr =>
    if tileBeq curr t then rangeSameTilesAux rest (i + 1) start curr
    else (start, i) :: rangeSameTilesAux rest (i + 1) i t

/-- `range_same_tiles`: the maximal index ranges of equal (`==`) tiles (for
an empty collection the code still pushes the empty range `0..0`). -/
def rangeSameTiles : List Tile → List (Nat × Nat)
  | [] => [(0, 0)]
  | t :: rest => rangeSameTilesAux rest 1 0 t

/-- `Vec::drain(s..e)` followed by collecting: the drained segment and what
remains. -/
def drainRange (l : List Tile) (s e : Nat) : List Tile × List Tile :=
  ((l.drop s).take (e - s), l.take s ++ l.drop e)

/-- `enumerate_quetou`: each maximal range of at least two equal tiles gives
one pair candidate, draining its first two tiles. -/
def enumerateQuetou (tiles : List Tile) : List (List Tile × List Tile) :=
  ((rangeSameTiles tiles).filter (fun r => 2 ≤ r.2 - r.1)).map (fun r =>
    let d := drainRange tiles r.1 (r.1 + 2)
    (sortTiles d.1, d.2))

/-- The bit-selected drains of `enumerate_kezi`: walk the candidate ranges
in order, draining the ranges whose bit is set, shifting later ranges left by
the number of tiles already removed. -/
def keziExtract : List (Nat × Nat) → Nat → Nat → List Tile →
    List (List Tile) × List Tile
  | [], _, _, tiles => ([], tiles)
  | r :: cs, set, removed, tiles =>
    if set % 2 = 1 then
      let s := r.1 - removed
      let e := r.2 - removed
      let d := drainRange tiles s e
      let rec_ := keziExtract cs (set / 2) (removed + (e - s)) d.2
      (sortTiles d.1 :: rec_.1, rec_.2)
    else
      keziExtract cs (set / 2) removed tiles

/-- `enumerate_kezi`: candidate triplets are the first three tiles of each
maximal range of at least three equal tiles; every subset of candidates is
tried via a bitmask. -/
def enumerateKezi (tiles : List Tile) : List (List (List Tile) × List Tile) :=
  let cands :=
    ((rangeSameTiles tiles).filter (fun r => 3 ≤ r.2 - r.1)).map
      (fun r => (r.1, r.1 + 3))
  (List.range (2 ^ cands.length)).map (fun set => keziExtract cands set 0 tiles)

/-- The group completed by a claimed winning tile (`Rongming`). -/
inductive Rongming
  | mingke (t : List Tile)
  | mingshun (t : List Tile)
  | none
deriving DecidableEq, Repr

/-- `fix_rong_an_mings`: on a discard-claim win, move the one group the
claimed tile completed out of the concealed collections: first a concealed
run containing it, else a concealed triplet, else a concealed kong (taken out
of the table state's `angangs`); if none matches, the code asserts that the
winning tile is the pair tile and moves nothing.  Returns the reclassified
group and the updated table state / triplet list / run list. -/
def fixRongAnMings (ts : Tilesets) (kezis shunzis : List (List Tile)) :
    Rongming × Tilesets × List (List Tile) × List (List Tile) :=
  if ts.isZimo then (.none, ts, kezis, shunzis)
  else
    match removeFirstSat (fun jun => tilesContain jun ts.last) shunzis with
    | some (jun, shunzis') => (.mingshun jun, ts, kezis, shunzis')
    | none =>
      match removeFirstSat (fun ko => tilesContain ko ts.last) kezis with
      | some (ko, kezis') => (.mingke ko, ts, kezis', shunzis)
      | none =>
        match removeFirstSat (fun ko => tilesContain ko ts.last) ts.angangs with
        | some (ko, angangs') =>
          (.mingke ko, { ts with angangs := angangs' }, kezis, shunzis)
        | none => (.none, ts, kezis, shunzis)

/-- A finalized decomposition (`AgariTilesets`). -/
structure AgariTilesets where
  tilesets : Tilesets
  machi : MachiKind
  rongming : Rongming
  quetou : List Tile
  kezisInHand : List (List Tile)
  shunzisInHand : List (List Tile)
deriving DecidableEq, Repr

/-- `AgariTilesets::new`: reconcile the claimed tile, then store. -/
def AgariTilesets.new (ts : Tilesets) (machi : MachiKind) (quetou : List Tile)
    (kezis shunzis : List (List Tile)) : AgariTilesets :=
  let r := fixRongAnMings ts kezis shunzis
  ⟨r.2.1, machi, r.1, quetou, r.2.2.1, r.2.2.2⟩

/-- `AgariTilesets::ronghe_mingke`. -/
def Rongming.mingkes : Rongming → List (List Tile)
  | .mingke t => [t]
  | _ => []

/-- `AgariTilesets::ronghe_mingshun`. -/
def Rongming.mingshuns : Rongming → List (List Tile)
  | .mingshun t => [t]
  | _ => []

/-- The tiles a `Rongming` holds. -/
def Rongming.tiles : Rongming → List Tile
  | .mingke t => t
  | .mingshun t => t
  | .none => []

/-- `AgariTilesets::mingkes`: pons, open kongs and a triplet completed by
the claim. -/
def AgariTilesets.mingkes (a : AgariTilesets) : List (List Tile) :=
  a.tilesets.pengs ++ a.tilesets.minggangs ++ a.rongming.mingkes

/-- `AgariTilesets::ankes`: concealed triplets and concealed kongs. -/
def AgariTilesets.ankes (a : AgariTilesets) : List (List Tile) :=
  a.kezisInHand ++ a.tilesets.angangs

/-- `AgariTilesets::mingshuns`: chiis and a run completed by the claim. -/
def AgariTilesets.mingshuns (a : AgariTilesets) : List (List Tile) :=
  a.tilesets.chis ++ a.rongming.mingshuns

/-- `AgariTilesets::anshuns`. -/
def AgariTilesets.anshuns (a : AgariTilesets) : List (List Tile) :=
  a.shunzisInHand

/-- `AgariTilesets::kezis`: all triplet-like groups. -/
def AgariTilesets.kezis (a : AgariTilesets) : List (List Tile) :=
  a.mingkes ++ a.ankes

/-- `AgariTilesets::shunzis`: all runs. -/
def AgariTilesets.shunzis (a : AgariTilesets) : List (List Tile) :=
  a.mingshuns ++ a.anshuns

/-- `AgariTilesets::mianzis`: all groups. -/
def AgariTilesets.mianzis (a : AgariTilesets) : List (List Tile) :=
  a.kezis ++ a.shunzis

/-- `AgariTilesets::is_menqian`. -/
def AgariTilesets.isMenqian (a : AgariTilesets) : Bool := a.tilesets.isMenqian

/-- `AgariTilesets::is_zimo`. -/
def AgariTilesets.isZimo (a : AgariTilesets) : Bool := a.tilesets.isZimo

/-- `AgariTilesets::context`. -/
def AgariTilesets.context (a : AgariTilesets) : Context := a.tilesets.context

/-- `AgariTilesets::enumerate`: append the winning tile to the hand, try
every pair candidate, every triplet bitmask, greedy run extraction, and one
decomposition per applicable wait kind. -/
def AgariTilesets.enumerate (ts : Tilesets) : List AgariTilesets :=
  let hand := sortTiles (ts.hand ++ [ts.last])
  (enumerateQuetou hand).flatMap (fun qr =>
    (enumerateKezi qr.2).flatMap (fun kr =>
      match extractShunzi kr.2 with
      | none => []
      | some shunzis =>
        (enumerateMachis qr.1 shunzis kr.1 ts.last).map (fun machi =>
          AgariTilesets.new ts machi qr.1 kr.1 shunzis)))

/-! ### Whole-hand form checks (`form.rs`, `special_check_*`) -/

/-- `special_check_lizhi`: ready-hand forms come from the caller context. -/
def specialCheckLizhi (ts : Tilesets) : List Form :=
  match ts.context.lizhi with
  | .none => []
  | .lizhi => [.lizhi]
  | .lizhiIppatsu => [.lizhi, .ippatsu]
  | .doubleLizhi => [.doublelizhi]
  | .doubleLizhiIppatsu => [.doublelizhi, .ippatsu]

/-- `special_check_dora`: count, over all tiles, matches against each dora
(plus one per red tile); a positive count yields the dora form. -/
def specialCheckDora (ts : Tilesets) : Option Form :=
  let countDora := fun (t : Tile) =>
    ts.doras.countP (fun dora => tileBeq t dora) + (if t.isRed then 1 else 0)
  let numDora := (ts.tilesWithoutDoras.map countDora).sum
  if numDora > 0 then some (.dora numDora) else none

/-- `special_check_qiduizi`: no melds or concealed kongs, and every tile of
hand-plus-winning-tile occurs exactly twice (red flag ignored, as in the
`HashMap<Tile, u8>` key). -/
def specialCheckQiduizi (ts : Tilesets) : Option Form :=
  if ts.didFulou || !ts.angangs.isEmpty then none
  else
    let tiles := sortTiles (ts.hand ++ [ts.last])
    if tiles.all (fun t => tiles.countP (fun u => tileBeq u t) == 2) then
      some .qiduizi
    else none

/-- `special_check_menqianqingzimohu`: fully concealed self-draw. -/
def specialCheckMenqianqingzimohu (ts : Tilesets) : Option Form :=
  if !ts.isZimo then none
  else if !ts.isMenqian then none
  else some .menqianqingzimohu

/-- `special_check_duanyaojiu`: every tile is a middle tile. -/
def specialCheckDuanyaojiu (ts : Tilesets) : Option Form :=
  if ts.tilesWithoutDoras.all Tile.isZhongzhang then some .duanyaojiu else none

/-- `special_check_hungyise_qingyise`: all non-honor tiles share one suit;
full flush if no honors are present, half flush otherwise. -/
def specialCheckHungyiseQingyise (ts : Tilesets) : Option Form :=
  let kinds := ts.tilesWithoutDoras.map Tile.kind
  let hasZipai := kinds.any (· == TileKind.zipai)
  let kindsNotZipai := kinds.filter (fun k => !(k == TileKind.zipai))
  match kindsNotZipai.head? with
  | none => none
  | some target =>
    if kindsNotZipai.all (· == target) then
      if hasZipai then some (.hungyise ts.isMenqian)
      else some (.qingyise ts.isMenqian)
    else none

/-- `special_check_hunlaotou`: every tile is a terminal or honor. -/
def specialCheckHunlaotou (ts : Tilesets) : Option Form :=
  if ts.tilesWithoutDoras.all Tile.isYaojiu then some .hunlaotou else none

/-- `special_check_luyise`: every tile is green-capable. -/
def specialCheckLuyise (ts : Tilesets) : Option Form :=
  if ts.tilesWithoutDoras.all Tile.isGreen then some .luyise else none

/-- `special_check_ziyise`: every tile is an honor. -/
def specialCheckZiyise (ts : Tilesets) : Option Form :=
  if ts.tilesWithoutDoras.all (fun t => t.kind == TileKind.zipai) then
    some .ziyise
  else none

/-- `special_check_qinglaotou`: every tile is a suited terminal. -/
def specialCheckQinglaotou (ts : Tilesets) : Option Form :=
  if ts.tilesWithoutDoras.all
      (fun t => !(t.kind == TileKind.zipai) && t.isYaojiu) then
    some .qinglaotou
  else none

/-- Rust `PartialEq` on `Tiles` (`Vec<Tile>` equality: same length, tiles
equal elementwise under `==`). -/
def tilesBeq : List Tile → List Tile → Bool
  | [], [] => true
  | a :: xs, b :: ys => tileBeq a b && tilesBeq xs ys
  | _, _ => false

/-- The fixed-target-shape checker (the shared helper for the 13-orphans and
nine-gates forms): with no melds or concealed kongs, try duplicating each
tile of the target in turn and compare against hand-plus-winning-tile; the
variant is "genuine" when the duplicated tile equals the winning tile. -/
def specialCheckCertainForm (ts : Tilesets) (target : List Tile)
    (ctor : Bool → Form) : Option Form :=
  if ts.didFulou || !ts.angangs.isEmpty then none
  else
    let hand := sortTiles (ts.hand ++ [ts.last])
    let rec go : List Tile → Option Form
      | [] => none
      | add :: rest =>
        if tilesBeq (sortTiles (add :: target)) hand then
          some (ctor (tileBeq add ts.last))
        else go rest
    go target

/-- The 13-orphans target multiset. -/
def kokushiTarget : List Tile :=
  sortTiles [.suozi ⟨1, false⟩, .suozi ⟨9, false⟩, .wanzi ⟨1, false⟩,
    .wanzi ⟨9, false⟩, .tongzi ⟨1, false⟩, .tongzi ⟨9, false⟩,
    .zipai .east, .zipai .south, .zipai .west, .zipai .north,
    .zipai .bai, .zipai .fa, .zipai .zhong]

/-- `special_check_kokushimuso`. -/
def specialCheckKokushimuso (ts : Tilesets) : Option Form :=
  specialCheckCertainForm ts kokushiTarget Form.kokushimuso

/-- `special_check_jiulianbaodeng`: the nine-gates shape, tried in each of
the three suits; the first success wins. -/
def specialCheckJiulianbaodeng (ts : Tilesets) : Option Form :=
  let orders : List Nat := [1, 1, 1, 2, 3, 4, 5, 6, 7, 8, 9, 9, 9]
  let tryCtor := fun (ctor : TOrder → Tile) =>
    specialCheckCertainForm ts
      (sortTiles (orders.map (fun n => ctor ⟨n, false⟩))) Form.jiulianbaodeng
  (([Tile.suozi, Tile.wanzi, Tile.tongzi].map tryCtor).filterMap id).head?

/-! ### Decomposition-dependent form checks (`form.rs`, `check_*`) -/

/-- `check_fanpai`: total value-tile count over all triplet groups. -/
def checkFanpai (a : AgariTilesets) : Option Form :=
  let sum := (a.kezis.map (fun tiles => (firstTile tiles).numFan a.context)).sum
  if sum ≠ 0 then some (.fanpai sum) else none

/-- `check_pinghe`: concealed, four runs, non-honor pair, open wait. -/
def checkPinghe (a : AgariTilesets) : Option Form :=
  if !a.isMenqian then none
  else if a.shunzis.length ≠ 4 then none
  else if (firstTile a.quetou).kind == TileKind.zipai then none
  else if a.machi ≠ MachiKind.liangmian then none
  else some .pinghe

/-- Distinct representatives of a list under a boolean equivalence, in order
of first occurrence (the keys of the Rust `HashMap`s grouped by `==`; the
iteration order of the map does not matter at any use site, since only a sum
over the groups is taken). -/
def dedupByBeq {α : Type} (eqb : α → α → Bool) (l : List α) : List α :=
  l.foldl (fun acc x => if acc.any (fun y => eqb y x) then acc else acc ++ [x]) []

/-- `check_yibeikou_liangbeigou`: count matched-run pairs by grouping runs on
their first tile; a group of four runs yields two matches, of two or three
runs one match; one match is the single, two the double form.  (More than
two matches is the code's `panic!`, impossible with at most four runs; it is
modelled as no form.) -/
def checkYibeikouLiangbeigou (a : AgariTilesets) : Option Form :=
  if !a.isMenqian then none
  else
    let firsts := a.shunzis.map firstTile
    let cnt :=
      ((dedupByBeq tileBeq firsts).map (fun k =>
        let n := firsts.countP (fun t => tileBeq t k)
        if n == 4 then 2 else if n == 2 || n == 3 then 1 else 0)).sum
    match cnt with
    | 0 => none
    | 1 => some .yibeikou
    | 2 => some .liangbeigou
    | _ => none

/-- Rust `Option<Order> == Option<Order>` (rank compared, red ignored). -/
def ordOptBeq : Option TOrder → Option TOrder → Bool
  | none, none => true
  | some a, some b => a.order == b.order
  | _, _ => false

/-- `check_sanshoku_dojun`: some starting rank has runs in all three suits
(grouping runs' first tiles by rank). -/
def checkSanshokuDojun (a : AgariTilesets) : Option Form :=
  let firsts := a.shunzis.map firstTile
  let doesMatch := firsts.any (fun t =>
    [TileKind.suozi, TileKind.wanzi, TileKind.tongzi].all (fun k =>
      firsts.any (fun u => u.kind == k && ordOptBeq u.order t.order)))
  if doesMatch then some (.sanshokudojun a.isMenqian) else none

/-- `check_sanshoku_doko`: some rank has triplets in all three suits. -/
def checkSanshokuDoko (a : AgariTilesets) : Option Form :=
  let firsts := a.kezis.map firstTile
  let doesMatch := firsts.any (fun t =>
    [TileKind.suozi, TileKind.wanzi, TileKind.tongzi].all (fun k =>
      firsts.any (fun u => u.kind == k && ordOptBeq u.order t.order)))
  if doesMatch then some .sanshokudoko else none

/-- `check_sananke_sianke`: four concealed triplets is the limit form (with
its pair-wait variant flag), three the ordinary form. -/
def checkSanankeSianke (a : AgariTilesets) : Option Form :=
  let count := a.ankes.length
  if count == 4 then some (.sianke (a.machi == MachiKind.danqi))
  else if count == 3 then some .sananke
  else none

/-- `check_ikki_tukan`: some suit has runs starting at 1, 4 and 7. -/
def checkIkkiTukan (a : AgariTilesets) : Option Form :=
  let firsts := a.shunzis.map firstTile
  let doesMatch := firsts.any (fun t =>
    ([1, 4, 7] : List Nat).all (fun n =>
      firsts.any (fun u =>
        u.kind == t.kind && ordOptBeq u.order (some ⟨n, false⟩))))
  if doesMatch then some (.ikkitsukan a.isMenqian) else none

/-- `check_duiduihe`: four triplet groups. -/
def checkDuiduihe (a : AgariTilesets) : Option Form :=
  if a.kezis.length ≠ 4 then none else some .duiduihe

/-- `check_hunquandaiyaojiu_chunquandaiyaojiu`: every group and the pair
touches a terminal or honor; pure variant when no honors occur at all. -/
def checkHunquandaiyaojiuChun (a : AgariTilesets) : Option Form :=
  let groups := a.mianzis ++ [a.quetou]
  if groups.any (fun tiles => tiles.all Tile.isZhongzhang) then none
  else
    let hasZipai := groups.any (fun tiles =>
      tiles.any (fun t => t.kind == TileKind.zipai))
    let hasZhongzhang := groups.any (fun tiles => tiles.any Tile.isZhongzhang)
    match hasZipai, hasZhongzhang with
    | false, true => some (.chunquandaiyaojiu a.isMenqian)
    | true, true => some (.hunquandaiyaojiu a.isMenqian)
    | _, _ => none

/-- `check_sangangzi_sigangzi`: four kongs is the limit form, three the
ordinary form. -/
def checkSangangziSigangzi (a : AgariTilesets) : Option Form :=
  match a.tilesets.angangs.length + a.tilesets.minggangs.length with
  | 4 => some .sigangzi
  | 3 => some .sangangzi
  | _ => none

/-- `check_shousanyuan`: dragon pair plus at least two dragon triplets. -/
def checkShousanyuan (a : AgariTilesets) : Option Form :=
  if !(firstTile a.quetou).isSanyuan then none
  else
    let numSanyuan := a.kezis.countP (fun tiles => (firstTile tiles).isSanyuan)
    if numSanyuan ≥ 2 then some .shousangen else none

/-- `check_daisanyuan`: three dragon triplets. -/
def checkDaisanyuan (a : AgariTilesets) : Option Form :=
  let numSanyuan := a.kezis.countP (fun tiles => (firstTile tiles).isSanyuan)
  if numSanyuan == 3 then some .daisangen else none

/-- The honor category of a group's first tile, if any. -/
def extractZipaiKind (tiles : List Tile) : Option Zipai :=
  match firstTile tiles with
  | .zipai z => some z
  | _ => none

/-- `check_shousushi_daisushi`: all four winds as triplets is the big form;
three wind triplets plus a wind pair the small one. -/
def checkShousushiDaisushi (a : AgariTilesets) : Option Form :=
  let set := a.kezis.filterMap extractZipaiKind
  let checkAll := fun (s : List Zipai) =>
    [Zipai.east, Zipai.south, Zipai.west, Zipai.north].all (fun d => s.contains d)
  if checkAll set then some .daisushi
  else
    match extractZipaiKind a.quetou with
    | none => none
    | some z => if checkAll (z :: set) then some .shousushi else none

/-! ### The judge (`judge.rs`) -/

/-- The base forms every candidate gets (`forms_for_all_base`). -/
def formsForAllBase (ts : Tilesets) : List Form :=
  ts.context.luckyForms ++ specialCheckLizhi ts ++
  (specialCheckMenqianqingzimohu ts).toList ++
  (specialCheckDuanyaojiu ts).toList ++
  (specialCheckZiyise ts).toList ++
  (specialCheckLuyise ts).toList ++
  (specialCheckHungyiseQingyise ts).toList ++
  (specialCheckQinglaotou ts).toList ++
  (specialCheckHunlaotou ts).toList ++
  (specialCheckDora ts).toList

/-- The form list collected by `judge_agari` for one decomposition. -/
def judgeAgariForms (a : AgariTilesets) : List Form :=
  formsForAllBase a.tilesets ++
  (checkFanpai a).toList ++
  (checkPinghe a).toList ++
  (checkYibeikouLiangbeigou a).toList ++
  (checkSanshokuDojun a).toList ++
  (checkSanshokuDoko a).toList ++
  (checkSanankeSianke a).toList ++
  (checkIkkiTukan a).toList ++
  (checkDuiduihe a).toList ++
  (checkHunquandaiyaojiuChun a).toList ++
  (checkSangangziSigangzi a).toList ++
  (checkShousanyuan a).toList ++
  (checkDaisanyuan a).toList ++
  (checkShousushiDaisushi a).toList

/-- The order on forms used by `fix_forms`' `sort_by_key(|f| f.point())`:
`Point`'s `Ord` (fan, then fu). -/
def formPointLe (f g : Form) : Prop := Point.cmp f.point g.point ≠ .gt

instance : DecidableRel formPointLe := fun f g => by
  unfold formPointLe; infer_instance

/-- The first two steps of `Judge::fix_forms`: sort by point, then keep only
true limit forms when one is present. -/
def fixFormsRetained (forms : List Form) : List Form :=
  if (forms.insertionSort formPointLe).any (fun f => f.point.isTrueYiman) then
    (forms.insertionSort formPointLe).filter (fun f => f.point.isTrueYiman)
  else forms.insertionSort formPointLe

/-- `Judge::fix_forms`: sort by point, keep only true limit forms when one is
present, and drop everything when only dora forms remain. -/
def fixForms (forms : List Form) : List Form :=
  if (fixFormsRetained forms).all Form.isDora then [] else fixFormsRetained forms

/-- The tile collections a judgment keeps (`JudgeTilesets`). -/
inductive JudgeTilesets
  | tilesets (ts : Tilesets)
  | agariTilesets (a : AgariTilesets)
deriving DecidableEq, Repr

/-- The final output (`Judge`). -/
structure Judge where
  forms : List Form
  total : Point
  tilesets : JudgeTilesets
deriving DecidableEq, Repr

/-- `Judge::new`: a judgment with no qualifying forms is never produced. -/
def Judge.new (forms : List Form) (total : Point) (jt : JudgeTilesets) :
    Option Judge :=
  if forms.isEmpty then none else some ⟨forms, total, jt⟩

/-! #### The fu calculator (`FuCalculator`) -/

/-- `FuCalculator::is_pinghe_zimo`. -/
def isPingheZimo (a : AgariTilesets) (forms : List Form) : Bool :=
  a.isZimo && forms.any (· == Form.pinghe)

/-- `FuCalculator::calc_agari_fu`: 2 for self-draw, 10 for a concealed
discard claim. -/
def calcAgariFu (a : AgariTilesets) : Nat :=
  if a.isZimo then 2 else if a.isMenqian then 10 else 0

/-- `FuCalculator::calc_kezi_fu`: bonuses for triplets and kongs, doubled
when terminal-or-honor, doubled again when concealed, and again for kongs. -/
def calcKeziFu (a : AgariTilesets) : Nat :=
  ((a.tilesets.pengs ++ a.rongming.mingkes).map (fun tiles =>
    if (firstTile tiles).isZhongzhang then 2 else 4)).sum +
  (a.kezisInHand.map (fun tiles =>
    if (firstTile tiles).isZhongzhang then 4 else 8)).sum +
  (a.tilesets.minggangs.map (fun tiles =>
    if (firstTile tiles).isZhongzhang then 8 else 16)).sum +
  (a.tilesets.angangs.map (fun tiles =>
    if (firstTile tiles).isZhongzhang then 16 else 32)).sum

/-- `FuCalculator::calc_quetou_fu`: the pair contributes its first tile's
value-tile count. -/
def calcQuetouFu (a : AgariTilesets) : Nat :=
  (firstTile a.quetou).numFan a.context

/-- `FuCalculator::calc_machi_fu`: 2 unless the wait is open or shanpon. -/
def calcMachiFu (a : AgariTilesets) : Nat :=
  match a.machi with
  | .liangmian => 0
  | .shuangpeng => 0
  | _ => 2

/-- `FuCalculator::calculate`: 20 for an all-runs self-draw, otherwise the
rounded-up sum of the base 20 and the four bonuses, with a claimed 20 forced
to 30. -/
def fuCalculate (a : AgariTilesets) (forms : List Form) : Nat :=
  if isPingheZimo a forms then 20
  else
    let base := 20 + calcAgariFu a + calcKeziFu a + calcQuetouFu a + calcMachiFu a
    let ceiled := ceilAt base 10
    if !a.isZimo && ceiled == 20 then 30 else ceiled

/-- `Judge::from_tilesets` (used by the three whole-hand special shapes). -/
def Judge.fromTilesets (ts : Tilesets) (forms0 : List Form) : Option Judge :=
  let forms := fixForms forms0
  let total := sumPoints (forms.map Form.point)
  Judge.new forms total (.tilesets ts)

/-- `Judge::from_agaritilesets`: additionally computes fu into the total. -/
def Judge.fromAgaritilesets (a : AgariTilesets) (forms0 : List Form) :
    Option Judge :=
  let forms := fixForms forms0
  let total0 := sumPoints (forms.map Form.point)
  let total := { total0 with fu := fuCalculate a forms }
  Judge.new forms total (.agariTilesets a)

/-- `judge_agari`. -/
def judgeAgari (a : AgariTilesets) : Option Judge :=
  Judge.fromAgaritilesets a (judgeAgariForms a)

/-- `judge_qiduizi`. -/
def judgeQiduizi (ts : Tilesets) : Option Judge :=
  match specialCheckQiduizi ts with
  | none => none
  | some q => Judge.fromTilesets ts (formsForAllBase ts ++ [q])

/-- `judge_kokushimuso`. -/
def judgeKokushimuso (ts : Tilesets) : Option Judge :=
  match specialCheckKokushimuso ts with
  | none => none
  | some k => Judge.fromTilesets ts (formsForAllBase ts ++ [k])

/-- `judge_jiulianbaodeng`. -/
def judgeJiulianbaodeng (ts : Tilesets) : Option Judge :=
  match specialCheckJiulianbaodeng ts with
  | none => none
  | some j => Judge.fromTilesets ts (formsForAllBase ts ++ [j])

/-- `judge_all`: every decomposition-based judgment, then the three
whole-hand special shapes. -/
def judgeAll (ts : Tilesets) : List Judge :=
  ((AgariTilesets.enumerate ts).filterMap judgeAgari) ++
  (judgeQiduizi ts).toList ++
  (judgeKokushimuso ts).toList ++
  (judgeJiulianbaodeng ts).toList

/-- The comparison used by `judge`'s `max_by`: total points (by `Point`'s
fan-then-fu order), ties broken towards fewer forms (`.reverse()` on the
length comparison). -/
def judgeCmp (x y : Judge) : Ordering :=
  (Point.cmp x.total y.total).then
    ((compare x.forms.length y.forms.length).swap)

/-- One fold step of Rust `Iterator::max_by`: keep the accumulated element
only when it is strictly greater, so the last of equal maxima wins. -/
def maxByStep {α : Type} (cmp : α → α → Ordering) (acc : Option α) (x : α) :
    Option α :=
  match acc with
  | none => some x
  | some y => if cmp y x = .gt then some y else some x

/-- Rust `Iterator::max_by`: the greatest element, the last one on ties. -/
def maxBy {α : Type} (cmp : α → α → Ordering) (l : List α) : Option α :=
  l.foldl (maxByStep cmp) none

/-- `judge`: the single entry point. -/
def judge (ts : Tilesets) : Option Judge := maxBy judgeCmp (judgeAll ts)

/-! ### Basic facts about the tile order and tile equality -/

/-- Forget the red flag: the canonical representative of a `==`-class. -/
def Tile.strip : Tile → Tile
  | .suozi o => .suozi ⟨o.order, false⟩
  | .wanzi o => .wanzi ⟨o.order, false⟩
  | .tongzi o => .tongzi ⟨o.order, false⟩
  | .zipai z => .zipai z

theorem zipai_idx_inj {z1 z2 : Zipai} (h : z1.idx = z2.idx) : z1 = z2 := by
  cases z1 <;> cases z2 <;> simp_all [Zipai.idx]

theorem tileBeq_iff_strip {a b : Tile} : tileBeq a b = true ↔ a.strip = b.strip := by
  cases a <;> cases b <;> simp [tileBeq, Tile.strip, TOrder.mk.injEq]

theorem tileBeq_refl (a : Tile) : tileBeq a a = true := by
  rw [tileBeq_iff_strip]

theorem tileBeq_symm {a b : Tile} (h : tileBeq a b = true) : tileBeq b a = true := by
  rw [tileBeq_iff_strip] at h ⊢; exact h.symm

theorem tileBeq_trans {a b c : Tile} (h1 : tileBeq a b = true)
    (h2 : tileBeq b c = true) : tileBeq a c = true := by
  rw [tileBeq_iff_strip] at h1 h2 ⊢; exact h1.trans h2

theorem tile_cmp_strip (a b : Tile) : Tile.cmp a.strip b.strip = Tile.cmp a b := by
  cases a <;> cases b <;> simp [Tile.cmp, Tile.strip]

theorem tile_cmp_eq_iff_beq {a b : Tile} : Tile.cmp a b = .eq ↔ tileBeq a b = true := by
  cases a <;> cases b <;>
    simp_all [Tile.cmp, tileBeq, Nat.compare_eq_eq, TOrder.mk.injEq]
  case zipai.zipai z1 z2 =>
    constructor
    · exact zipai_idx_inj
    · rintro rfl; rfl

theorem tile_cmp_swap (a b : Tile) : (Tile.cmp a b).swap = Tile.cmp b a := by
  cases a <;> cases b <;>
    first
      | rfl
      | exact Nat.compare_swap _ _

theorem tileLe_total (a b : Tile) : tileLe a b ∨ tileLe b a := by
  unfold tileLe
  rw [← tile_cmp_swap a b]
  cases Tile.cmp a b <;> simp [Ordering.swap]

theorem tileLe_trans {a b c : Tile} (h1 : tileLe a b) (h2 : tileLe b c) :
    tileLe a c := by
  unfold tileLe at h1 h2 ⊢
  cases a <;> cases b <;> cases c <;>
    simp_all [Tile.cmp, Nat.compare_eq_gt] <;> omega

theorem tileLe_refl (a : Tile) : tileLe a a := by
  unfold tileLe
  cases a <;> simp [Tile.cmp, Nat.compare_eq_gt]

instance : IsTotal Tile tileLe := ⟨tileLe_total⟩

instance : IsTrans Tile tileLe := ⟨fun _ _ _ => tileLe_trans⟩

instance : IsRefl Tile tileLe := ⟨tileLe_refl⟩

/-- Mutual `tileLe` pins tiles down to `==`. -/
theorem tileBeq_of_le_le {a b : Tile} (h1 : tileLe a b) (h2 : tileLe b a) :
    tileBeq a b = true := by
  rw [← tile_cmp_eq_iff_beq]
  unfold tileLe at h1 h2
  rw [← tile_cmp_swap a b] at h2
  cases h : Tile.cmp a b <;> simp_all [Ordering.swap]

theorem tileLe_of_beq {a b : Tile} (h : tileBeq a b = true) : tileLe a b := by
  unfold tileLe
  rw [← tile_cmp_eq_iff_beq] at h
  simp [h]

/-- `Tile::next` ignores the red flag and never produces a red tile. -/
theorem tile_next_strip (a : Tile) : a.strip.next = a.next := by
  cases a <;> simp [Tile.next, Tile.strip, TOrder.next]

/-- Unfolding `Order::new` on success. -/
theorem torder_new_eq_some {n : Nat} {o : TOrder} (h : TOrder.new n = some o) :
    o.order = n ∧ o.isRed = false ∧ 1 ≤ n ∧ n ≤ 9 := by
  unfold TOrder.new at h
  split at h
  · simp at h
  · rename_i hcond
    cases h
    refine ⟨rfl, rfl, by omega, by omega⟩

theorem torder_next_lt {o p : TOrder} (h : o.next = some p) : o.order < p.order := by
  unfold TOrder.next at h
  have := torder_new_eq_some h
  omega

/-- A successor tile is strictly greater. -/
theorem tile_cmp_lt_of_next {a b : Tile} (h : a.next = some b) :
    Tile.cmp a b = .lt := by
  cases a with
  | zipai z => simp [Tile.next] at h
  | suozi o =>
    simp only [Tile.next, Option.map_eq_some'] at h
    obtain ⟨ob, hob, rfl⟩ := h
    simpa [Tile.cmp, Nat.compare_eq_lt] using torder_next_lt hob
  | wanzi o =>
    simp only [Tile.next, Option.map_eq_some'] at h
    obtain ⟨ob, hob, rfl⟩ := h
    simpa [Tile.cmp, Nat.compare_eq_lt] using torder_next_lt hob
  | tongzi o =>
    simp only [Tile.next, Option.map_eq_some'] at h
    obtain ⟨ob, hob, rfl⟩ := h
    simpa [Tile.cmp, Nat.compare_eq_lt] using torder_next_lt hob

/-- The successor is determined by the `==`-class. -/
theorem tile_next_congr {a b : Tile} (h : tileBeq a b = true) :
    a.next = b.next := by
  rw [tileBeq_iff_strip] at h
  rw [← tile_next_strip a, ← tile_next_strip b, h]

/-- A tile is never `==` to its successor. -/
theorem not_tileBeq_of_next {a b : Tile} (h : a.next = some b) :
    tileBeq a b = false := by
  have hlt := tile_cmp_lt_of_next h
  by_contra hne
  rw [Bool.not_eq_false, ← tile_cmp_eq_iff_beq] at hne
  rw [hne] at hlt
  cases hlt

/-! ### Tile shorthands used by concrete instances -/

/-- A (non-red) bamboo tile. -/
def tS (n : Nat) : Tile := .suozi ⟨n, false⟩

/-- A (non-red) character tile. -/
def tM (n : Nat) : Tile := .wanzi ⟨n, false⟩

/-- A (non-red) dot tile. -/
def tP (n : Nat) : Tile := .tongzi ⟨n, false⟩

/-! ### C5: the wait classifier on the documented vectors -/

/-- C5: with pair 4s4s, run 1s2s3s and triplets 1s1s1s, 1m1m1m, 2m2m2m, the
wait classifier yields exactly {open wait, shanpon} for winning tile 1s,
{closed wait} for 2s, {edge wait} for 3s, {shanpon} for 1m and
{extended pair wait} for 4s; with pair 2s2s instead, winning tile 2s yields
exactly {closed wait, pair wait}. -/
theorem machi_classifier_vectors :
    enumerateMachis [tS 4, tS 4] [[tS 1, tS 2, tS 3]]
        [[tS 1, tS 1, tS 1], [tM 1, tM 1, tM 1], [tM 2, tM 2, tM 2]] (tS 1) =
      [.liangmian, .shuangpeng] ∧
    enumerateMachis [tS 4, tS 4] [[tS 1, tS 2, tS 3]]
        [[tS 1, tS 1, tS 1], [tM 1, tM 1, tM 1], [tM 2, tM 2, tM 2]] (tS 2) =
      [.qianzhang] ∧
    enumerateMachis [tS 4, tS 4] [[tS 1, tS 2, tS 3]]
        [[tS 1, tS 1, tS 1], [tM 1, tM 1, tM 1], [tM 2, tM 2, tM 2]] (tS 3) =
      [.bianzhang] ∧
    enumerateMachis [tS 4, tS 4] [[tS 1, tS 2, tS 3]]
        [[tS 1, tS 1, tS 1], [tM 1, tM 1, tM 1], [tM 2, tM 2, tM 2]] (tM 1) =
      [.shuangpeng] ∧
    enumerateMachis [tS 4, tS 4] [[tS 1, tS 2, tS 3]]
        [[tS 1, tS 1, tS 1], [tM 1, tM 1, tM 1], [tM 2, tM 2, tM 2]] (tS 4) =
      [.yandan] ∧
    enumerateMachis [tS 2, tS 2] [[tS 1, tS 2, tS 3]]
        [[tS 1, tS 1, tS 1], [tM 1, tM 1, tM 1], [tM 2, tM 2, tM 2]] (tS 2) =
      [.qianzhang, .danqi] := by
  refine ⟨?_, ?_, ?_, ?_, ?_, ?_⟩ <;> decide


/-! ### C10: structural invariants of the wait list -/

theorem lbLoop_cases (t : Tile) (o : TOrder) (l : List (List Tile)) :
    liangmianBianzhangLoop t o l = none ∨
    liangmianBianzhangLoop t o l = some .liangmian ∨
    liangmianBianzhangLoop t o l = some .bianzhang := by
  induction l with
  | nil => exact .inl rfl
  | cons s rest ih =>
    rw [liangmianBianzhangLoop]
    split
    · exact ih
    · split
      · exact ih
      · split
        · exact ih
        · split
          · exact .inr (.inr rfl)
          · split
            · exact .inr (.inr rfl)
            · exact .inr (.inl rfl)

theorem isLB_cases (anshuns : List (List Tile)) (t : Tile) :
    isLiangmianBianzhang anshuns t = none ∨
    isLiangmianBianzhang anshuns t = some .liangmian ∨
    isLiangmianBianzhang anshuns t = some .bianzhang := by
  unfold isLiangmianBianzhang
  cases t.order with
  | none => exact .inl rfl
  | some o => exact lbLoop_cases t o anshuns

theorem dyLoop_cases (t : Tile) (l : List (List Tile)) :
    danqiYandanLoop t l = some .danqi ∨ danqiYandanLoop t l = some .yandan := by
  induction l with
  | nil => exact .inl rfl
  | cons s rest ih =>
    rw [danqiYandanLoop]
    split
    · exact .inr rfl
    · split
      · exact .inr rfl
      · exact ih

theorem isDY_cases (q : List Tile) (anshuns : List (List Tile)) (t : Tile) :
    isDanqiYandan q anshuns t = none ∨
    isDanqiYandan q anshuns t = some .danqi ∨
    isDanqiYandan q anshuns t = some .yandan := by
  unfold isDanqiYandan
  split
  · exact .inl rfl
  · exact .inr (dyLoop_cases t anshuns)

/-- C10: the wait classifier never repeats a wait kind, never returns both
the open wait and the edge wait, and never returns both the bare pair wait
and the extended pair wait (each of those two pairs is decided by one shared,
mutually exclusive classification). -/
theorem machi_list_invariants (q : List Tile) (anshuns ankes : List (List Tile))
    (t : Tile) :
    (enumerateMachis q anshuns ankes t).Nodup ∧
    ¬(MachiKind.liangmian ∈ enumerateMachis q anshuns ankes t ∧
      MachiKind.bianzhang ∈ enumerateMachis q anshuns ankes t) ∧
    ¬(MachiKind.danqi ∈ enumerateMachis q anshuns ankes t ∧
      MachiKind.yandan ∈ enumerateMachis q anshuns ankes t) := by
  unfold enumerateMachis
  rcases isLB_cases anshuns t with h1 | h1 | h1 <;>
    rcases isDY_cases q anshuns t with h2 | h2 | h2 <;>
      cases h3 : isShuangpeng ankes t <;>
        cases h4 : isQianzhang anshuns t <;>
          simp [h1, h2, h3, h4]

/-! ### The loop-shaped recursion of `extract_shunzi` -/

theorem extractShunziAux_congr :
    ∀ (f1 : Nat) {f2 : Nat} {l : List Tile}, l.length ≤ f1 → l.length ≤ f2 →
      extractShunziAux f1 l = extractShunziAux f2 l := by
  intro f1
  induction f1 with
  | zero =>
    intro f2 l h1 h2
    have : l = [] := List.length_eq_zero.mp (Nat.le_zero.mp h1)
    subst this
    cases f2 <;> rfl
  | succ f ih =>
    intro f2 l h1 h2
    cases l with
    | nil => cases f2 <;> rfl
    | cons first rest =>
      cases f2 with
      | zero => simp at h2
      | succ g =>
        show extractShunziAux (f + 1) (first :: rest) =
          extractShunziAux (g + 1) (first :: rest)
        rw [extractShunziAux, extractShunziAux]
        cases first.next with
        | none => rfl
        | some n1 =>
          dsimp only
          cases hp1 : popFirst rest n1 with
          | none => rfl
          | some p1 =>
            obtain ⟨mid, rest1⟩ := p1
            dsimp only
            cases mid.next with
            | none => rfl
            | some n2 =>
              dsimp only
              cases hp2 : popFirst rest1 n2 with
              | none => rfl
              | some p2 =>
                obtain ⟨lst, rest2⟩ := p2
                dsimp only
                have e1 := popFirst_length hp1
                have e2 := popFirst_length hp2
                have hlen : rest2.length ≤ f := by
                  simp only [List.length_cons] at h1
                  omega
                rw [ih hlen (by simp only [List.length_cons] at h2; omega :
                  rest2.length ≤ g)]

theorem extractShunzi_nil : extractShunzi [] = some [] := rfl

/-- The recursion `extract_shunzi` actually performs. -/
theorem extractShunzi_cons (first : Tile) (rest : List Tile) :
    extractShunzi (first :: rest) =
      (match first.next with
      | none => none
      | some n1 =>
        match popFirst rest n1 with
        | none => none
        | some (mid, rest1) =>
          match mid.next with
          | none => none
          | some n2 =>
            match popFirst rest1 n2 with
            | none => none
            | some (lst, rest2) =>
              match extractShunzi rest2 with
              | none => none
              | some ss => some (sortTiles [first, mid, lst] :: ss)) := by
  show extractShunziAux (rest.length + 1) (first :: rest) = _
  rw [extractShunziAux]
  cases first.next with
  | none => rfl
  | some n1 =>
    dsimp only
    cases hp1 : popFirst rest n1 with
    | none => rfl
    | some p1 =>
      obtain ⟨mid, rest1⟩ := p1
      dsimp only
      cases mid.next with
      | none => rfl
      | some n2 =>
        dsimp only
        cases hp2 : popFirst rest1 n2 with
        | none => rfl
        | some p2 =>
          obtain ⟨lst, rest2⟩ := p2
          dsimp only
          have e1 := popFirst_length hp1
          have e2 := popFirst_length hp2
          unfold extractShunzi
          rw [extractShunziAux_congr rest.length (by omega) (le_refl _)]

/-! ### C2 and C6: the fu calculator -/

theorem numFan_le_two (t : Tile) (ctx : Context) : t.numFan ctx ≤ 2 := by
  obtain ⟨lz, lf, pl, py⟩ := ctx
  cases t with
  | zipai z =>
    cases z <;> cases pl <;> cases py <;>
      simp [Tile.numFan, zipaiEqDir, Tile.isSanyuan]
  | suozi o => simp [Tile.numFan]
  | wanzi o => simp [Tile.numFan]
  | tongzi o => simp [Tile.numFan]

/-- C2 (amended): outside the all-runs-self-draw short circuit, the pair
contributes its first tile's value-tile count itself — 0, 1 or 2, not
doubled — as a direct addend of the fu sum. -/
theorem pair_fu_is_value_count (a : AgariTilesets) :
    calcQuetouFu a = (firstTile a.quetou).numFan a.context ∧
    (firstTile a.quetou).numFan a.context ≤ 2 ∧
    (∀ forms : List Form, isPingheZimo a forms = false →
      fuCalculate a forms =
        (let c := ceilAt (20 + calcAgariFu a + calcKeziFu a +
          (firstTile a.quetou).numFan a.context + calcMachiFu a) 10
         if !a.isZimo && c == 20 then 30 else c)) := by
  refine ⟨rfl, numFan_le_two _ _, fun forms h => ?_⟩
  unfold fuCalculate
  rw [h]
  rfl

/-- The concrete discard-claim table state used to separate the code's pair
contribution from the doubled one: pair 東東 (double East), two concealed
terminal triplets, two runs. -/
def c2ts : Tilesets :=
  ⟨⟨.none, [], .east, .east⟩, false, .zipai .east,
    [tS 1, tS 2, tS 3, tS 4, tS 5, tS 6, tM 1, tM 1, tM 1, tM 9, tM 9, tM 9,
      .zipai .east],
    [], [], [], [], []⟩

/-- The decomposition of `c2ts` found by the decomposer. -/
def c2agari : AgariTilesets :=
  AgariTilesets.new c2ts .danqi [.zipai .east, .zipai .east]
    [[tM 1, tM 1, tM 1], [tM 9, tM 9, tM 9]]
    [[tS 1, tS 2, tS 3], [tS 4, tS 5, tS 6]]

/-- C2 (counterexample): in `c2agari` — a decomposition the decomposer
really produces — the pair tile's value-tile count is 2, the code adds
exactly 2 fu for it (total 50 fu), while adding the claimed count-times-two
would round the sum up to 60 fu instead. -/
theorem pair_fu_not_doubled :
    c2agari ∈ AgariTilesets.enumerate c2ts ∧
    isPingheZimo c2agari (judgeAgariForms c2agari) = false ∧
    (firstTile c2agari.quetou).numFan c2agari.context = 2 ∧
    calcQuetouFu c2agari = 2 ∧
    fuCalculate c2agari (judgeAgariForms c2agari) = 50 ∧
    ceilAt (20 + calcAgariFu c2agari + calcKeziFu c2agari +
      (firstTile c2agari.quetou).numFan c2agari.context * 2 +
      calcMachiFu c2agari) 10 = 60 := by
  refine ⟨?_, ?_, ?_, ?_, ?_, ?_⟩ <;> decide

/-- C2 (witness): the amended statement applied to `c2agari`. -/
theorem pair_fu_is_value_count_witness :
    calcQuetouFu c2agari = (firstTile c2agari.quetou).numFan c2agari.context ∧
    fuCalculate c2agari (judgeAgariForms c2agari) =
      (let c := ceilAt (20 + calcAgariFu c2agari + calcKeziFu c2agari +
        (firstTile c2agari.quetou).numFan c2agari.context +
        calcMachiFu c2agari) 10
       if !c2agari.isZimo && c == 20 then 30 else c) :=
  ⟨(pair_fu_is_value_count c2agari).1,
   (pair_fu_is_value_count c2agari).2.2 (judgeAgariForms c2agari) (by decide)⟩

theorem ceilAt_ten_dvd (x : Nat) : 10 ∣ ceilAt x 10 :=
  Dvd.intro_left _ rfl

theorem le_ceilAt_ten (x : Nat) : x ≤ ceilAt x 10 := by
  unfold ceilAt
  have h1 := Nat.div_add_mod (x + 9) 10
  have h2 : (x + 9) % 10 < 10 := Nat.mod_lt _ (by norm_num)
  omega

/-- C6: the fu value is always a multiple of 10 (the fixed-20 all-runs
self-draw included), and on a discard-claim win it is at least 30 (a rounded
sum of exactly 20 is forced up to 30). -/
theorem fu_multiple_of_ten_and_ron_floor (a : AgariTilesets) (forms : List Form) :
    10 ∣ fuCalculate a forms ∧
    (a.isZimo = false → 30 ≤ fuCalculate a forms) := by
  unfold fuCalculate
  cases hpz : isPingheZimo a forms with
  | true =>
    refine ⟨by norm_num, fun hz => ?_⟩
    unfold isPingheZimo at hpz
    rw [hz] at hpz
    simp at hpz
  | false =>
    simp only [Bool.false_eq_true, if_false]
    constructor
    · split
      · norm_num
      · exact ceilAt_ten_dvd _
    · intro hz
      rw [hz]
      split
      · norm_num
      · rename_i hcond
        simp only [hz, Bool.not_false, Bool.true_and, beq_iff_eq] at hcond
        have hle : 20 ≤ ceilAt (20 + calcAgariFu a + calcKeziFu a +
            calcQuetouFu a + calcMachiFu a) 10 := by
          have := le_ceilAt_ten (20 + calcAgariFu a + calcKeziFu a +
            calcQuetouFu a + calcMachiFu a)
          omega
        obtain ⟨k, hk⟩ := ceilAt_ten_dvd (20 + calcAgariFu a + calcKeziFu a +
          calcQuetouFu a + calcMachiFu a)
        omega

/-- C6 (witness): the fu bound at the concrete claimed decomposition. -/
theorem fu_multiple_of_ten_witness :
    10 ∣ fuCalculate c2agari (judgeAgariForms c2agari) ∧
    30 ≤ fuCalculate c2agari (judgeAgariForms c2agari) :=
  ⟨(fu_multiple_of_ten_and_ron_floor c2agari (judgeAgariForms c2agari)).1,
   (fu_multiple_of_ten_and_ron_floor c2agari (judgeAgariForms c2agari)).2
     (by decide)⟩

/-! ### C7: form-list normalization and true-limit aggregation -/

theorem pointCmp_ne_gt_iff {p q : Point} :
    Point.cmp p q ≠ .gt ↔ (p.fan < q.fan ∨ (p.fan = q.fan ∧ p.fu ≤ q.fu)) := by
  unfold Point.cmp
  rcases h : compare p.fan q.fan with _ | _ | _
  · have := Nat.compare_eq_lt.mp h
    simp [Ordering.then, this]
  · have := Nat.compare_eq_eq.mp h
    simp [Ordering.then, Nat.compare_ne_gt, this]
  · have := Nat.compare_eq_gt.mp h
    simp [Ordering.then]
    omega

theorem formPointLe_iff {f g : Form} :
    formPointLe f g ↔ (f.point.fan < g.point.fan ∨
      (f.point.fan = g.point.fan ∧ f.point.fu ≤ g.point.fu)) :=
  pointCmp_ne_gt_iff

instance : IsTotal Form formPointLe :=
  ⟨fun f g => by rw [formPointLe_iff, formPointLe_iff]; omega⟩

instance : IsTrans Form formPointLe :=
  ⟨fun f g h h1 h2 => by
    rw [formPointLe_iff] at h1 h2 ⊢; omega⟩

theorem isDora_not_trueYiman {f : Form} (h : f.isDora = true) :
    f.point.isTrueYiman = false := by
  cases f <;> simp_all [Form.isDora, Form.point, Point.isTrueYiman, Point.mk0]

theorem sumPoints_go (l : List Point) :
    ∀ acc : Point,
      l.foldl (fun acc p => ⟨acc.fan + p.fan, acc.fu + p.fu, acc.yiman + p.yiman⟩)
          acc =
        ⟨acc.fan + (l.map Point.fan).sum, acc.fu + (l.map Point.fu).sum,
          acc.yiman + (l.map Point.yiman).sum⟩ := by
  induction l with
  | nil => intro acc; simp
  | cons p rest ih =>
    intro acc
    simp only [List.foldl_cons, List.map_cons, List.sum_cons]
    rw [ih]
    simp only [Point.mk.injEq]
    omega

theorem sumPoints_eq (l : List Point) :
    sumPoints l = ⟨(l.map Point.fan).sum, (l.map Point.fu).sum,
      (l.map Point.yiman).sum⟩ := by
  unfold sumPoints
  rw [sumPoints_go]
  simp

theorem point_value_yiman {p : Point} (h : 0 < p.yiman) (isParent : Bool) :
    p.value isParent = p.yiman * (if isParent then 48000 else 32000) := by
  obtain ⟨k, hk⟩ : ∃ k, p.yiman = k + 1 := ⟨p.yiman - 1, by omega⟩
  simp only [Point.value, hk]

/-- C7: `fix_forms` sorts ascending by fan; when a true-limit form is
present, the surviving list is exactly the true-limit forms; the summed
point of a nonempty all-true-limit list has a limit multiplier equal to the
sum of the multipliers and a monetary value of multiplier times 48000 for
the dealer, 32000 otherwise. -/
theorem fix_forms_normalization (forms : List Form) :
    (fixForms forms).Pairwise (fun f g => f.point.fan ≤ g.point.fan) ∧
    ((∃ f ∈ forms, f.point.isTrueYiman = true) →
      (fixForms forms).Perm
        (forms.filter (fun f => f.point.isTrueYiman)) ∧
      ∀ f ∈ fixForms forms, f.point.isTrueYiman = true) ∧
    ((sumPoints (forms.map Form.point)).yiman =
      (forms.map (fun f => f.point.yiman)).sum) ∧
    (∀ isParent : Bool, forms ≠ [] →
      (∀ f ∈ forms, f.point.isTrueYiman = true) →
      (sumPoints (forms.map Form.point)).value isParent =
        (forms.map (fun f => f.point.yiman)).sum *
          (if isParent then 48000 else 32000)) := by
  have hperm : (forms.insertionSort formPointLe).Perm forms :=
    List.perm_insertionSort formPointLe forms
  have hsorted : List.Sorted formPointLe (forms.insertionSort formPointLe) :=
    List.sorted_insertionSort formPointLe forms
  have hfan : forall l : List Form, List.Sorted formPointLe l ->
      l.Pairwise (fun f g => f.point.fan <= g.point.fan) := by
    intro l hl
    exact hl.imp (fun h => by rw [formPointLe_iff] at h; omega)
  have hret : List.Sorted formPointLe (fixFormsRetained forms) := by
    unfold fixFormsRetained
    split
    . exact hsorted.sublist (List.filter_sublist _)
    . exact hsorted
  refine ⟨?_, ?_, ?_, ?_⟩
  . unfold fixForms
    split
    . exact List.Pairwise.nil
    . exact hfan _ hret
  . intro ⟨f, hf, hfy⟩
    have hany : (forms.insertionSort formPointLe).any
        (fun f => f.point.isTrueYiman) = true := by
      rw [List.any_eq_true]
      exact ⟨f, hperm.mem_iff.mpr hf, hfy⟩
    have hretf : fixFormsRetained forms = (forms.insertionSort formPointLe).filter
        (fun f => f.point.isTrueYiman) := by
      unfold fixFormsRetained
      rw [if_pos hany]
    have hnotall : ((fixFormsRetained forms).all Form.isDora) = false := by
      rw [List.all_eq_false]
      refine ⟨f, ?_, ?_⟩
      . rw [hretf, List.mem_filter]
        exact ⟨hperm.mem_iff.mpr hf, hfy⟩
      . intro hd
        rw [isDora_not_trueYiman hd] at hfy
        cases hfy
    have hfix : fixForms forms = (forms.insertionSort formPointLe).filter
        (fun f => f.point.isTrueYiman) := by
      unfold fixForms
      rw [hnotall, ← hretf]
      simp
    rw [hfix]
    exact ⟨hperm.filter _, fun g hg => (List.mem_filter.mp hg).2⟩
  . rw [sumPoints_eq]
    simp [Function.comp_def]
  . intro isParent hne hall
    rw [sumPoints_eq]
    rw [point_value_yiman]
    . simp [Function.comp_def]
    . obtain ⟨f, fs⟩ := List.exists_cons_of_ne_nil hne
      obtain ⟨rest, rfl⟩ := fs
      have := hall f (List.mem_cons_self f rest)
      simp only [List.map_cons, List.sum_cons, List.map_map, Function.comp_def]
      have hy : 0 < f.point.yiman := by
        unfold Point.isTrueYiman at this
        simpa using this
      omega

/-- C7 (witness): normalization applied to a concrete mixed list and the
aggregation applied to a concrete double-limit list. -/
theorem fix_forms_normalization_witness :
    (fixForms [Form.daisangen, Form.sianke true, Form.dora 3]).Perm
      ([Form.daisangen, Form.sianke true, Form.dora 3].filter
        (fun f => f.point.isTrueYiman)) ∧
    (sumPoints ([Form.daisangen, Form.sianke true].map Form.point)).value true =
      ([Form.daisangen, Form.sianke true].map (fun f => f.point.yiman)).sum *
        48000 := by
  constructor
  · exact ((fix_forms_normalization [Form.daisangen, Form.sianke true,
      Form.dora 3]).2.1 ⟨Form.daisangen, by decide, by decide⟩).1
  · have h := (fix_forms_normalization [Form.daisangen, Form.sianke true]).2.2.2
      true (by decide) (by decide)
    simpa using h

/-! ### C1: the judge's selection rule -/

theorem ordering_then_swap (a b : Ordering) : (a.then b).swap = a.swap.then b.swap := by
  cases a <;> rfl

theorem pointCmp_lt_iff {p q : Point} :
    Point.cmp p q = .lt ↔ (p.fan < q.fan ∨ (p.fan = q.fan ∧ p.fu < q.fu)) := by
  unfold Point.cmp
  rcases h : compare p.fan q.fan with _ | _ | _
  · have := Nat.compare_eq_lt.mp h
    simp [Ordering.then, this]
  · have := Nat.compare_eq_eq.mp h
    simp [Ordering.then, Nat.compare_eq_lt, this]
  · have := Nat.compare_eq_gt.mp h
    simp [Ordering.then]
    omega

theorem pointCmp_eq_iff {p q : Point} :
    Point.cmp p q = .eq ↔ (p.fan = q.fan ∧ p.fu = q.fu) := by
  unfold Point.cmp
  rcases h : compare p.fan q.fan with _ | _ | _
  · have := Nat.compare_eq_lt.mp h
    simp [Ordering.then]
    omega
  · have := Nat.compare_eq_eq.mp h
    simp [Ordering.then, Nat.compare_eq_eq, this]
  · have := Nat.compare_eq_gt.mp h
    simp [Ordering.then]
    omega

theorem judgeCmp_ne_gt_iff {x y : Judge} :
    judgeCmp x y ≠ .gt ↔
      (Point.cmp x.total y.total = .lt ∨
        (Point.cmp x.total y.total = .eq ∧
          y.forms.length ≤ x.forms.length)) := by
  unfold judgeCmp
  rcases h : Point.cmp x.total y.total with _ | _ | _
  · simp [Ordering.then]
  · rcases h2 : compare x.forms.length y.forms.length with _ | _ | _ <;>
      simp_all [Ordering.then, Ordering.swap, Nat.compare_eq_lt,
        Nat.compare_eq_eq, Nat.compare_eq_gt] <;> omega
  · simp [Ordering.then]

theorem judgeCmp_swap (x y : Judge) : (judgeCmp x y).swap = judgeCmp y x := by
  unfold judgeCmp
  rw [ordering_then_swap]
  unfold Point.cmp
  rw [ordering_then_swap]
  rw [Nat.compare_swap, Nat.compare_swap, Ordering.swap_swap, Nat.compare_swap]

theorem judgeCmp_refl (x : Judge) : judgeCmp x x ≠ .gt := by
  rw [judgeCmp_ne_gt_iff, pointCmp_eq_iff]
  exact .inr ⟨⟨rfl, rfl⟩, le_refl _⟩

theorem judgeCmp_le_trans {x y z : Judge} (h1 : judgeCmp x y ≠ .gt)
    (h2 : judgeCmp y z ≠ .gt) : judgeCmp x z ≠ .gt := by
  rw [judgeCmp_ne_gt_iff, pointCmp_eq_iff, pointCmp_lt_iff] at h1 h2 ⊢
  omega

theorem maxByStep_none {α : Type} (cmp : α → α → Ordering) (x : α) :
    maxByStep cmp none x = some x := rfl

theorem maxByStep_some {α : Type} (cmp : α → α → Ordering) (y x : α) :
    maxByStep cmp (some y) x = if cmp y x = .gt then some y else some x := rfl

/-- The behaviour of `max_by`'s fold once an element has been seen. -/
theorem maxBy_fold_spec (l : List Judge) :
    ∀ y : Judge, ∃ j,
      l.foldl (maxByStep judgeCmp) (some y) = some j ∧
      (j = y ∨ j ∈ l) ∧ judgeCmp y j ≠ .gt ∧ ∀ k ∈ l, judgeCmp k j ≠ .gt := by
  induction l with
  | nil =>
    intro y
    exact ⟨y, rfl, .inl rfl, judgeCmp_refl y, by simp⟩
  | cons x xs ih =>
    intro y
    by_cases hc : judgeCmp y x = .gt
    · obtain ⟨j, hfold, hmem, hyj, hall⟩ := ih y
      have hxy : judgeCmp x y ≠ .gt := by
        intro hgt
        have := judgeCmp_swap x y
        rw [hgt, hc] at this
        cases this
      refine ⟨j, ?_, ?_, hyj, ?_⟩
      · simpa [maxByStep_some, hc] using hfold
      · rcases hmem with rfl | h
        · exact .inl rfl
        · exact .inr (List.mem_cons_of_mem _ h)
      · intro k hk
        rcases List.mem_cons.mp hk with rfl | h
        · exact judgeCmp_le_trans hxy hyj
        · exact hall k h
    · obtain ⟨j, hfold, hmem, hxj, hall⟩ := ih x
      refine ⟨j, ?_, ?_, judgeCmp_le_trans hc hxj, ?_⟩
      · simpa [maxByStep_some, hc] using hfold
      · rcases hmem with rfl | h
        · exact .inr (List.mem_cons_self _ _)
        · exact .inr (List.mem_cons_of_mem _ h)
      · intro k hk
        rcases List.mem_cons.mp hk with rfl | h
        · exact hxj
        · exact hall k h

/-- C1 (amended): whenever at least one candidate judgment survives, `judge`
returns a judgment from the candidate list that is maximal for the selection
comparison — `Point`'s fan-then-fu order on the totals (not the monetary
value), ties broken towards fewer qualifying forms. -/
theorem judge_selects_maximum (ts : Tilesets) :
    (judgeAll ts ≠ [] → ∃ j, judge ts = some j) ∧
    (∀ j, judge ts = some j →
      j ∈ judgeAll ts ∧
      (∀ k ∈ judgeAll ts, judgeCmp k j ≠ .gt) ∧
      (∀ k ∈ judgeAll ts, Point.cmp k.total j.total ≠ .gt) ∧
      (∀ k ∈ judgeAll ts, Point.cmp k.total j.total = .eq →
        j.forms.length ≤ k.forms.length)) := by
  constructor
  · intro hne
    obtain ⟨x, xs, hx⟩ := List.exists_cons_of_ne_nil hne
    obtain ⟨j, hfold, _, _, _⟩ := maxBy_fold_spec xs x
    refine ⟨j, ?_⟩
    unfold judge maxBy
    rw [hx, List.foldl_cons, maxByStep_none]
    exact hfold
  · intro j hj
    unfold judge maxBy at hj
    rcases hl : judgeAll ts with _ | ⟨x, xs⟩
    · rw [hl] at hj; cases hj
    · rw [hl, List.foldl_cons, maxByStep_none] at hj
      obtain ⟨j2, hfold, hmem, _, hall⟩ := maxBy_fold_spec xs x
      have hj2 : j2 = j := by
        rw [hfold] at hj
        exact Option.some.inj hj
      rw [hj2] at hmem hall hfold
      have hmem2 : j ∈ x :: xs := by
        rcases hmem with rfl | h
        · exact List.mem_cons_self _ _
        · exact List.mem_cons_of_mem _ h
      have hallc : ∀ k ∈ x :: xs, judgeCmp k j ≠ .gt := by
        intro k hk
        rcases List.mem_cons.mp hk with rfl | h
        · obtain ⟨j2, hfold2, _, hxj2, _⟩ := maxBy_fold_spec xs k
          rw [hfold] at hfold2
          cases hfold2
          exact hxj2
        · exact hall k h
      refine ⟨hmem2, hallc, ?_, ?_⟩
      · intro k hk
        have := (judgeCmp_ne_gt_iff).mp (hallc k hk)
        rcases this with h | h
        · rw [h]; intro hc; cases hc
        · rw [h.1]; intro hc; cases hc
      · intro k hk heq
        have := (judgeCmp_ne_gt_iff).mp (hallc k hk)
        rcases this with h | h
        · rw [pointCmp_lt_iff] at h
          rw [pointCmp_eq_iff] at heq
          omega
        · exact h.2

/-- C1 (counterexample): the `Point` comparison used for selection does not
agree with monetary value: 3 fan 70 fu compares strictly below 4 fan 20 fu,
yet is worth strictly more money for both seats (12000 vs 7700 as dealer,
8000 vs 5200 otherwise). -/
theorem point_order_disagrees_with_value :
    Point.cmp ⟨3, 70, 0⟩ ⟨4, 20, 0⟩ = .lt ∧
    Point.value ⟨3, 70, 0⟩ true = 12000 ∧ Point.value ⟨4, 20, 0⟩ true = 7700 ∧
    Point.value ⟨3, 70, 0⟩ false = 8000 ∧ Point.value ⟨4, 20, 0⟩ false = 5200 := by
  refine ⟨?_, ?_, ?_, ?_, ?_⟩ <;> decide

/-- The all-honours self-draw table state used as a concrete witness. -/
def c1ts : Tilesets :=
  ⟨⟨.none, [], .east, .east⟩, true, .zipai .west,
    [.zipai .east, .zipai .east, .zipai .east, .zipai .west,
     .zipai .bai, .zipai .bai, .zipai .bai, .zipai .fa, .zipai .fa, .zipai .fa,
     .zipai .zhong, .zipai .zhong, .zipai .zhong],
    [], [], [], [], []⟩

/-- C1 (witness): on a concrete winning hand the judge returns a maximal
candidate. -/
theorem judge_selects_maximum_witness :
    ∃ j, judge c1ts = some j ∧ j ∈ judgeAll c1ts ∧
      ∀ k ∈ judgeAll c1ts, judgeCmp k j ≠ .gt := by
  obtain ⟨j, hj⟩ := (judge_selects_maximum c1ts).1 (by decide)
  have h2 := (judge_selects_maximum c1ts).2 j hj
  exact ⟨j, hj, h2.1, h2.2.1⟩

/-! ### C8: no empty-form judgments, and dora alone cannot win -/

theorem judgeNew_forms_ne_nil {forms : List Form} {total : Point}
    {jt : JudgeTilesets} {j : Judge} (h : Judge.new forms total jt = some j) :
    j.forms ≠ [] := by
  unfold Judge.new at h
  split at h
  · cases h
  · rename_i hne
    cases h
    simpa using hne

theorem fromTilesets_forms_ne_nil {ts : Tilesets} {forms : List Form}
    {j : Judge} (h : Judge.fromTilesets ts forms = some j) : j.forms ≠ [] :=
  judgeNew_forms_ne_nil h

theorem fromAgaritilesets_forms_ne_nil {a : AgariTilesets} {forms : List Form}
    {j : Judge} (h : Judge.fromAgaritilesets a forms = some j) : j.forms ≠ [] :=
  judgeNew_forms_ne_nil h

theorem judgeAll_forms_ne_nil {ts : Tilesets} {j : Judge}
    (h : j ∈ judgeAll ts) : j.forms ≠ [] := by
  unfold judgeAll at h
  rw [List.mem_append] at h
  rcases h with h | h
  · rw [List.mem_append] at h
    rcases h with h | h
    · rw [List.mem_append] at h
      rcases h with h | h
      · obtain ⟨a, _, ha⟩ := List.mem_filterMap.mp h
        exact fromAgaritilesets_forms_ne_nil ha
      · unfold judgeQiduizi at h
        split at h
        · cases h
        · rw [Option.mem_toList, Option.mem_def] at h
          exact fromTilesets_forms_ne_nil h
    · unfold judgeKokushimuso at h
      split at h
      · cases h
      · rw [Option.mem_toList, Option.mem_def] at h
        exact fromTilesets_forms_ne_nil h
  · unfold judgeJiulianbaodeng at h
    split at h
    · cases h
    · rw [Option.mem_toList, Option.mem_def] at h
      exact fromTilesets_forms_ne_nil h

theorem fixForms_all_dora {forms : List Form}
    (h : ∀ f ∈ forms, f.isDora = true) : fixForms forms = [] := by
  have hsub : ∀ f ∈ fixFormsRetained forms, f ∈ forms := by
    intro f hf
    unfold fixFormsRetained at hf
    have hperm := List.perm_insertionSort formPointLe forms
    split at hf
    · exact hperm.mem_iff.mp (List.mem_filter.mp hf).1
    · exact hperm.mem_iff.mp hf
  unfold fixForms
  rw [if_pos]
  rw [List.all_eq_true]
  intro f hf
  exact h f (hsub f hf)

/-- C8: the judge never returns a judgment with an empty form list, and when
the three whole-hand shapes fail and every decomposition's collected forms
consist of dora alone, the judge returns nothing at all. -/
theorem judge_discards_empty_forms (ts : Tilesets) :
    (∀ j, judge ts = some j → j.forms ≠ []) ∧
    ((∀ a ∈ AgariTilesets.enumerate ts, ∀ f ∈ judgeAgariForms a,
        f.isDora = true) →
      specialCheckQiduizi ts = none →
      specialCheckKokushimuso ts = none →
      specialCheckJiulianbaodeng ts = none →
      judge ts = none) := by
  constructor
  · intro j hj
    unfold judge maxBy at hj
    rcases hl : judgeAll ts with _ | ⟨x, xs⟩
    · rw [hl] at hj; cases hj
    · rw [hl, List.foldl_cons, maxByStep_none] at hj
      obtain ⟨j2, hfold, hmem, _, _⟩ := maxBy_fold_spec xs x
      rw [hfold] at hj
      obtain rfl := Option.some.inj hj
      have : j2 ∈ judgeAll ts := by
        rw [hl]
        rcases hmem with rfl | h
        · exact List.mem_cons_self _ _
        · exact List.mem_cons_of_mem _ h
      exact judgeAll_forms_ne_nil this
  · intro hdora hq hk hjl
    have hall : judgeAll ts = [] := by
      unfold judgeAll judgeQiduizi judgeKokushimuso judgeJiulianbaodeng
      rw [hq, hk, hjl]
      simp only [Option.toList_none, List.append_nil]
      rw [List.filterMap_eq_nil_iff]
      intro a ha
      unfold judgeAgari Judge.fromAgaritilesets
      rw [fixForms_all_dora (hdora a ha)]
      rfl
    unfold judge
    rw [hall]
    rfl

/-- The dora-only table state: chii 1m2m3m, dora indicator showing two 2m
matches, no other applicable form. -/
def c8ts : Tilesets :=
  ⟨⟨.none, [], .east, .east⟩, true, tS 6,
    [tS 2, tS 2, tS 4, tS 5, tM 2, tM 3, tM 4, tP 6, tP 7, tP 8],
    [], [[tM 1, tM 2, tM 3]], [], [], [tM 2]⟩

/-- C8 (witness): a concrete winning judgment has a nonempty form list, and
the concrete dora-only table state yields no judgment. -/
theorem judge_discards_empty_forms_witness :
    (∃ j, judge c1ts = some j ∧ j.forms ≠ []) ∧ judge c8ts = none := by
  constructor
  · have hs : (judge c1ts).isSome := by decide
    obtain ⟨j, hj⟩ := Option.isSome_iff_exists.mp hs
    exact ⟨j, hj, (judge_discards_empty_forms c1ts).1 j hj⟩
  · exact (judge_discards_empty_forms c8ts).2 (by decide) (by decide)
      (by decide) (by decide)

/-! ### Soundness of the decomposer: no tile created or destroyed -/

theorem sortTiles_perm (l : List Tile) : (sortTiles l).Perm l :=
  List.perm_insertionSort tileLe l

theorem removeFirstSat_perm {α : Type} {p : α → Bool} :
    ∀ {l : List α} {x : α} {r : List α},
      removeFirstSat p l = some (x, r) → l.Perm (x :: r) := by
  intro l
  induction l with
  | nil => intro x r h; simp [removeFirstSat] at h
  | cons a as ih =>
    intro x r h
    by_cases hp : p a
    · simp [removeFirstSat, hp] at h
      rw [h.1, h.2]
    · simp [removeFirstSat, hp] at h
      obtain ⟨y, s, hy, hx, hr⟩ := h
      subst hx
      rw [← hr]
      exact ((ih hy).cons a).trans (List.Perm.swap _ _ _)

theorem removeFirstSat_found {α : Type} {p : α → Bool} :
    ∀ {l : List α} {x : α} {r : List α},
      removeFirstSat p l = some (x, r) → p x = true ∧ x ∈ l := by
  intro l
  induction l with
  | nil => intro x r h; simp [removeFirstSat] at h
  | cons a as ih =>
    intro x r h
    by_cases hp : p a
    · simp [removeFirstSat, hp] at h
      rw [← h.1]
      exact ⟨hp, List.mem_cons_self _ _⟩
    · simp [removeFirstSat, hp] at h
      obtain ⟨y, s, hy, hx, hr⟩ := h
      subst hx
      exact ⟨(ih hy).1, List.mem_cons_of_mem _ (ih hy).2⟩

theorem removeFirstSat_none {α : Type} {p : α → Bool} :
    ∀ {l : List α}, removeFirstSat p l = none → ∀ x ∈ l, p x = false := by
  intro l
  induction l with
  | nil => intro _ x hx; cases hx
  | cons a as ih =>
    intro h x hx
    by_cases hp : p a
    · simp [removeFirstSat, hp] at h
    · simp only [removeFirstSat, if_neg hp, Option.map_eq_none'] at h
      rcases List.mem_cons.mp hx with rfl | hmem
      · simpa using hp
      · exact ih h x hmem

theorem popFirst_perm {l : List Tile} {t x : Tile} {r : List Tile}
    (h : popFirst l t = some (x, r)) : l.Perm (x :: r) :=
  removeFirstSat_perm h

theorem popFirst_found {l : List Tile} {t x : Tile} {r : List Tile}
    (h : popFirst l t = some (x, r)) : tileBeq x t = true ∧ x ∈ l :=
  removeFirstSat_found h

theorem drainRange_perm (l : List Tile) (s e : Nat) (hse : s ≤ e) :
    l.Perm ((drainRange l s e).1 ++ (drainRange l s e).2) := by
  unfold drainRange
  have h3 : (l.drop s).drop (e - s) = l.drop e := by
    rw [List.drop_drop]
    congr 1
    omega
  have key : l = l.take s ++ ((l.drop s).take (e - s) ++ l.drop e) := by
    conv_lhs => rw [← List.take_append_drop s l]
    congr 1
    rw [← h3, List.take_append_drop]
  conv_lhs => rw [key]
  simpa [← List.append_assoc] using
    (@List.perm_append_comm _ (l.take s)
      ((l.drop s).take (e - s))).append_right (l.drop e)

theorem enumerateQuetou_perm {L : List Tile} {q rest : List Tile}
    (h : (q, rest) ∈ enumerateQuetou L) : L.Perm (q ++ rest) := by
  unfold enumerateQuetou at h
  rw [List.mem_map] at h
  obtain ⟨r, _, hr⟩ := h
  have hq : q = sortTiles (drainRange L r.1 (r.1 + 2)).1 := by
    have := congrArg Prod.fst hr
    simpa using this.symm
  have hrest : rest = (drainRange L r.1 (r.1 + 2)).2 := by
    have := congrArg Prod.snd hr
    simpa using this.symm
  subst hq
  subst hrest
  exact (drainRange_perm L r.1 (r.1 + 2) (by omega)).trans
    (List.Perm.append_right _ (sortTiles_perm _).symm)

theorem keziExtract_perm :
    ∀ (cands : List (Nat × Nat)) (set removed : Nat) (tiles : List Tile),
      (∀ r ∈ cands, r.1 ≤ r.2) →
      tiles.Perm ((keziExtract cands set removed tiles).1.flatten ++
        (keziExtract cands set removed tiles).2) := by
  intro cands
  induction cands with
  | nil => intro set removed tiles _; simp [keziExtract]
  | cons r cs ih =>
    intro set removed tiles hr
    rw [keziExtract]
    split
    · have hse : r.1 - removed ≤ r.2 - removed :=
        Nat.sub_le_sub_right (hr r (List.mem_cons_self _ _)) removed
      have hdr := drainRange_perm tiles (r.1 - removed) (r.2 - removed) hse
      have hrec := ih (set / 2) (removed + (r.2 - removed - (r.1 - removed)))
        (drainRange tiles (r.1 - removed) (r.2 - removed)).2
        (fun x hx => hr x (List.mem_cons_of_mem _ hx))
      refine hdr.trans ?_
      refine (List.Perm.append_left _ hrec).trans ?_
      simp only [List.flatten_cons, List.append_assoc]
      exact (sortTiles_perm _).symm.append_right _
    · exact ih (set / 2) removed tiles (fun x hx => hr x (List.mem_cons_of_mem _ hx))

theorem enumerateKezi_perm {L : List Tile} {ks : List (List Tile)}
    {rest : List Tile} (h : (ks, rest) ∈ enumerateKezi L) :
    L.Perm (ks.flatten ++ rest) := by
  unfold enumerateKezi at h
  rw [List.mem_map] at h
  obtain ⟨set, _, hset⟩ := h
  have hr : ∀ r ∈ ((rangeSameTiles L).filter (fun r => 3 ≤ r.2 - r.1)).map
      (fun r => (r.1, r.1 + 3)), r.1 ≤ r.2 := by
    intro r hmem
    rw [List.mem_map] at hmem
    obtain ⟨x, _, hx⟩ := hmem
    rw [← hx]
    omega
  have := keziExtract_perm _ set 0 L hr
  rw [hset] at this
  exact this

theorem extractShunzi_perm :
    ∀ (n : Nat) (L : List Tile), L.length ≤ n →
      ∀ {ss : List (List Tile)}, extractShunzi L = some ss →
        L.Perm ss.flatten := by
  intro n
  induction n with
  | zero =>
    intro L hlen ss h
    have : L = [] := List.length_eq_zero.mp (Nat.le_zero.mp hlen)
    subst this
    rw [extractShunzi_nil] at h
    cases h
    simp
  | succ n ih =>
    intro L hlen ss h
    cases L with
    | nil =>
      rw [extractShunzi_nil] at h
      cases h
      simp
    | cons first rest =>
      rw [extractShunzi_cons] at h
      cases hn1 : first.next with
      | none => rw [hn1] at h; cases h
      | some n1 =>
        rw [hn1] at h
        dsimp only at h
        cases hp1 : popFirst rest n1 with
        | none => rw [hp1] at h; cases h
        | some p1 =>
          obtain ⟨mid, rest1⟩ := p1
          rw [hp1] at h
          dsimp only at h
          cases hn2 : mid.next with
          | none => rw [hn2] at h; cases h
          | some n2 =>
            rw [hn2] at h
            dsimp only at h
            cases hp2 : popFirst rest1 n2 with
            | none => rw [hp2] at h; cases h
            | some p2 =>
              obtain ⟨lst, rest2⟩ := p2
              rw [hp2] at h
              dsimp only at h
              cases hrec : extractShunzi rest2 with
              | none => rw [hrec] at h; cases h
              | some ss2 =>
                rw [hrec] at h
                cases h
                have e1 := popFirst_length hp1
                have e2 := popFirst_length hp2
                have hr : rest2.length ≤ n := by
                  simp only [List.length_cons] at hlen
                  omega
                have hperm2 := ih rest2 hr hrec
                simp only [List.flatten_cons]
                have t1 : (first :: rest).Perm (first :: mid :: rest1) :=
                  (popFirst_perm hp1).cons first
                have t2 : (first :: mid :: rest1).Perm
                    (first :: mid :: lst :: rest2) :=
                  ((popFirst_perm hp2).cons mid).cons first
                have t3 : (first :: mid :: lst :: rest2).Perm
                    (first :: mid :: lst :: ss2.flatten) :=
                  ((hperm2.cons lst).cons mid).cons first
                have t4 : (first :: mid :: lst :: ss2.flatten).Perm
                    (sortTiles [first, mid, lst] ++ ss2.flatten) := by
                  have he : first :: mid :: lst :: ss2.flatten =
                      [first, mid, lst] ++ ss2.flatten := rfl
                  rw [he]
                  exact (sortTiles_perm _).symm.append_right _
                exact ((t1.trans t2).trans t3).trans t4

/-- Elimination form for membership in `AgariTilesets.enumerate`. -/
theorem enumerate_elim {ts : Tilesets} {a : AgariTilesets}
    (h : a ∈ AgariTilesets.enumerate ts) :
    ∃ q rest ks rest2 ss machi,
      (q, rest) ∈ enumerateQuetou (sortTiles (ts.hand ++ [ts.last])) ∧
      (ks, rest2) ∈ enumerateKezi rest ∧
      extractShunzi rest2 = some ss ∧
      machi ∈ enumerateMachis q ss ks ts.last ∧
      a = AgariTilesets.new ts machi q ks ss := by
  unfold AgariTilesets.enumerate at h
  rw [List.mem_flatMap] at h
  obtain ⟨qr, hqr, h⟩ := h
  rw [List.mem_flatMap] at h
  obtain ⟨kr, hkr, h⟩ := h
  cases hex : extractShunzi kr.2 with
  | none => rw [hex] at h; cases h
  | some ss =>
    rw [hex] at h
    rw [List.mem_map] at h
    obtain ⟨machi, hmachi, ha⟩ := h
    exact ⟨qr.1, qr.2, kr.1, kr.2, ss, machi, hqr, hkr, hex, hmachi, ha.symm⟩

/-- Counting tiles `==`-equal to `t`. -/
def cntBeq (t : Tile) (l : List Tile) : Nat :=
  l.countP (fun u => tileBeq u t)

theorem cntBeq_append (t : Tile) (l1 l2 : List Tile) :
    cntBeq t (l1 ++ l2) = cntBeq t l1 + cntBeq t l2 :=
  List.countP_append _ _ _

theorem cntBeq_flatten_ge {t : Tile} {g : List Tile} {l : List (List Tile)}
    (h : g ∈ l) : cntBeq t g ≤ cntBeq t l.flatten := by
  obtain ⟨l1, l2, rfl⟩ := List.append_of_mem h
  rw [List.flatten_append, List.flatten_cons, cntBeq_append, cntBeq_append]
  omega

/-! ### C9: the decomposition round trip -/

/-- The combined soundness permutation of the three enumeration stages. -/
theorem enumerate_stages_perm {ts : Tilesets} {q rest : List Tile}
    {ks : List (List Tile)} {rest2 : List Tile} {ss : List (List Tile)}
    (hq : (q, rest) ∈ enumerateQuetou (sortTiles (ts.hand ++ [ts.last])))
    (hk : (ks, rest2) ∈ enumerateKezi rest)
    (hs : extractShunzi rest2 = some ss) :
    (q ++ (ks.flatten ++ ss.flatten)).Perm (ts.hand ++ [ts.last]) := by
  have h0 : (sortTiles (ts.hand ++ [ts.last])).Perm (ts.hand ++ [ts.last]) :=
    sortTiles_perm _
  have h1 := enumerateQuetou_perm hq
  have h2 := enumerateKezi_perm hk
  have h3 := extractShunzi_perm rest2.length rest2 (le_refl _) hs
  refine List.Perm.trans ?_ (h1.symm.trans h0)
  exact List.Perm.append_left q ((List.Perm.append_left _ h3.symm).trans h2.symm)

/-- `ts.last` occurs at least five times in `tiles_all` when a well-formed
concealed kong contains a tile equal to it, contradicting the table-state
validation; used to rule out reclassifying a concealed kong. -/
theorem angang_case_impossible {ts : Tilesets} {g : List Tile}
    (hgmem : g ∈ ts.angangs) (hgang : checkGang g = true)
    (hcont : tilesContain g ts.last = true)
    (hnum : ts.checkNumSameTiles = true) : False := by
  unfold checkGang at hgang
  rw [Bool.and_eq_true, beq_iff_eq, List.all_eq_true] at hgang
  obtain ⟨hlen, hall⟩ := hgang
  unfold tilesContain at hcont
  rw [List.any_eq_true] at hcont
  obtain ⟨x, hx, hxb⟩ := hcont
  -- every tile of the kong is `==` the winning tile
  have hgl : ∀ y ∈ g, tileBeq y ts.last = true := by
    intro y hy
    exact tileBeq_trans (tileBeq_trans (hall y hy) (tileBeq_symm (hall x hx))) hxb
  have hcnt_g : cntBeq ts.last g = 4 := by
    unfold cntBeq
    rw [List.countP_eq_length.mpr (fun y hy => hgl y hy)]
    simpa using hlen
  have hcnt_flat : 4 ≤ cntBeq ts.last ts.angangs.flatten := by
    rw [← hcnt_g]
    exact cntBeq_flatten_ge hgmem
  -- instantiate the validation at the winning tile
  unfold Tilesets.checkNumSameTiles at hnum
  rw [List.all_eq_true] at hnum
  have hmem : ts.last ∈ ts.tilesAll := by
    unfold Tilesets.tilesAll Tilesets.tilesWithoutDoras
    exact List.mem_cons_self _ _
  have hle := hnum ts.last hmem
  rw [decide_eq_true_iff] at hle
  have hbig : 5 ≤ ts.tilesAll.countP (fun u => tileBeq u ts.last) := by
    have e : ts.tilesAll = ts.last ::
        (((ts.hand ++ ts.pengs.flatten ++ ts.chis.flatten ++
          ts.minggangs.flatten) ++ ts.angangs.flatten) ++
          ts.doras.map Tile.wrappingPrev) := by
      unfold Tilesets.tilesAll Tilesets.tilesWithoutDoras
      simp [List.append_assoc]
    rw [e, List.countP_cons, List.countP_append, List.countP_append]
    have hc := hcnt_flat
    unfold cntBeq at hc
    simp only [tileBeq_refl, if_true]
    omega
  omega

/-- C9: for every decomposition the decomposer produces from a validated
table state (well-formed concealed kongs; no tile occurring more than four
times), the pair, the in-hand triplets, the in-hand runs and the
reclassified group together are exactly the concealed hand plus the winning
tile — no tile is created, destroyed or duplicated. -/
theorem decomposition_round_trip (ts : Tilesets)
    (hgang : ∀ g ∈ ts.angangs, checkGang g = true)
    (hnum : ts.checkNumSameTiles = true) :
    ∀ a ∈ AgariTilesets.enumerate ts,
      (a.quetou ++ a.kezisInHand.flatten ++ a.shunzisInHand.flatten ++
        a.rongming.tiles).Perm (ts.hand ++ [ts.last]) := by
  intro a ha
  obtain ⟨q, rest, ks, rest2, ss, machi, hq, hk, hs, _, rfl⟩ := enumerate_elim ha
  have hperm := enumerate_stages_perm hq hk hs
  unfold AgariTilesets.new fixRongAnMings
  cases hz : ts.isZimo with
  | true =>
    simpa [Rongming.tiles, List.append_assoc] using hperm
  | false =>
    simp only [Bool.false_eq_true, if_false]
    cases hrs : removeFirstSat (fun jun => tilesContain jun ts.last) ss with
    | some p =>
      obtain ⟨jun, ss'⟩ := p
      dsimp only [Rongming.tiles]
      have hpf : (jun ++ ss'.flatten).Perm ss.flatten := by
        simpa using (removeFirstSat_perm hrs).flatten.symm
      simp only [List.append_assoc]
      refine List.Perm.trans (List.Perm.append_left q ?_) hperm
      have s1 : (ss'.flatten ++ jun).Perm (jun ++ ss'.flatten) :=
        List.perm_append_comm
      exact List.Perm.append_left ks.flatten (s1.trans hpf)
    | none =>
      cases hrk : removeFirstSat (fun ko => tilesContain ko ts.last) ks with
      | some p =>
        obtain ⟨ko, ks'⟩ := p
        dsimp only [Rongming.tiles]
        have hpf : (ko ++ ks'.flatten).Perm ks.flatten := by
          simpa using (removeFirstSat_perm hrk).flatten.symm
        simp only [List.append_assoc]
        refine List.Perm.trans (List.Perm.append_left q ?_) hperm
        have s1 : (ks'.flatten ++ (ss.flatten ++ ko)).Perm
            (ks'.flatten ++ (ko ++ ss.flatten)) :=
          List.Perm.append_left _ List.perm_append_comm
        have s2 : ks'.flatten ++ (ko ++ ss.flatten) =
            (ks'.flatten ++ ko) ++ ss.flatten := by
          rw [List.append_assoc]
        have s3 : ((ks'.flatten ++ ko) ++ ss.flatten).Perm
            ((ko ++ ks'.flatten) ++ ss.flatten) :=
          List.Perm.append_right _ List.perm_append_comm
        have s4 : ((ko ++ ks'.flatten) ++ ss.flatten).Perm
            (ks.flatten ++ ss.flatten) :=
          List.Perm.append_right _ hpf
        exact ((s2 ▸ s1).trans s3).trans s4
      | none =>
        cases hra : removeFirstSat (fun ko => tilesContain ko ts.last)
            ts.angangs with
        | some p =>
          obtain ⟨g, ang'⟩ := p
          have hfound := removeFirstSat_found hra
          exact (angang_case_impossible hfound.2 (hgang g hfound.2)
            hfound.1 hnum).elim
        | none =>
          dsimp only [Rongming.tiles]
          simpa [List.append_assoc] using hperm

/-- C9 (witness): the round trip at the concrete claimed decomposition. -/
theorem decomposition_round_trip_witness :
    (c2agari.quetou ++ c2agari.kezisInHand.flatten ++
      c2agari.shunzisInHand.flatten ++ c2agari.rongming.tiles).Perm
      (c2ts.hand ++ [c2ts.last]) :=
  decomposition_round_trip c2ts (by decide) (by decide) c2agari (by decide)

/-! ### Maximal blocks of equal tiles: the structure behind
`range_same_tiles` -/

/-- The maximal runs of adjacent `==`-equal tiles. -/
def groupBlocks : List Tile → List (List Tile)
  | [] => []
  | t :: rest =>
    (t :: rest.takeWhile (fun u => tileBeq t u)) ::
      groupBlocks (rest.dropWhile (fun u => tileBeq t u))
termination_by l => l.length
decreasing_by
  exact Nat.lt_succ_of_le (List.dropWhile_sublist _).length_le

/-- The index ranges of a block decomposition, starting at `pos`. -/
def blockRanges (pos : Nat) : List (List Tile) → List (Nat × Nat)
  | [] => []
  | b :: bs => (pos, pos + b.length) :: blockRanges (pos + b.length) bs

theorem groupBlocks_flatten :
    ∀ (n : Nat) (l : List Tile), l.length ≤ n → (groupBlocks l).flatten = l := by
  intro n
  induction n with
  | zero =>
    intro l h
    have : l = [] := List.length_eq_zero.mp (Nat.le_zero.mp h)
    subst this
    rw [groupBlocks]
    rfl
  | succ n ih =>
    intro l h
    cases l with
    | nil =>
      rw [groupBlocks]
      rfl
    | cons t rest =>
      rw [groupBlocks]
      simp only [List.flatten_cons, List.cons_append]
      rw [ih _ (by
        have := (show List.Sublist (rest.dropWhile (fun u => tileBeq t u)) rest from List.dropWhile_sublist _).length_le
        simp only [List.length_cons] at h
        omega)]
      rw [List.cons_inj_right]
      exact List.takeWhile_append_dropWhile _ _

theorem groupBlocks_nonempty :
    ∀ (n : Nat) (l : List Tile), l.length ≤ n →
      ∀ b ∈ groupBlocks l, b ≠ [] := by
  intro n
  induction n with
  | zero =>
    intro l h b hb
    have : l = [] := List.length_eq_zero.mp (Nat.le_zero.mp h)
    subst this
    rw [groupBlocks] at hb
    exact absurd hb (List.not_mem_nil b)
  | succ n ih =>
    intro l h b hb
    cases l with
    | nil =>
      rw [groupBlocks] at hb
      exact absurd hb (List.not_mem_nil b)
    | cons t rest =>
      rw [groupBlocks] at hb
      rcases List.mem_cons.mp hb with rfl | hmem
      · simp
      · refine ih _ ?_ b hmem
        have := (show List.Sublist (rest.dropWhile (fun u => tileBeq t u)) rest from List.dropWhile_sublist _).length_le
        simp only [List.length_cons] at h
        omega

/-- Inside one block every tile equals (`==`) every other. -/
theorem groupBlocks_eq_within :
    ∀ (n : Nat) (l : List Tile), l.length ≤ n →
      ∀ b ∈ groupBlocks l, ∀ x ∈ b, ∀ y ∈ b, tileBeq x y = true := by
  intro n
  induction n with
  | zero =>
    intro l h b hb
    have : l = [] := List.length_eq_zero.mp (Nat.le_zero.mp h)
    subst this
    rw [groupBlocks] at hb
    exact absurd hb (List.not_mem_nil b)
  | succ n ih =>
    intro l h b hb x hx y hy
    cases l with
    | nil =>
      rw [groupBlocks] at hb
      exact absurd hb (List.not_mem_nil b)
    | cons t rest =>
      rw [groupBlocks] at hb
      rcases List.mem_cons.mp hb with rfl | hmem
      · have hall : ∀ z ∈ t :: rest.takeWhile (fun u => tileBeq t u),
            tileBeq t z = true := by
          intro z hz
          rcases List.mem_cons.mp hz with rfl | hz
          · exact tileBeq_refl _
          · exact List.mem_takeWhile_imp hz
        exact tileBeq_trans (tileBeq_symm (hall x hx)) (hall y hy)
      · refine ih _ ?_ b hmem x hx y hy
        have := (show List.Sublist (rest.dropWhile (fun u => tileBeq t u)) rest from List.dropWhile_sublist _).length_le
        simp only [List.length_cons] at h
        omega

theorem rangeSameTilesAux_spec :
    ∀ (l : List Tile) (i start : Nat) (curr : Tile),
      rangeSameTilesAux l i start curr =
        (start, i + (l.takeWhile (fun u => tileBeq curr u)).length) ::
          blockRanges (i + (l.takeWhile (fun u => tileBeq curr u)).length)
            (groupBlocks (l.dropWhile (fun u => tileBeq curr u))) := by
  intro l
  induction l with
  | nil =>
    intro i start curr
    simp only [List.dropWhile_nil, List.takeWhile_nil, List.length_nil,
      Nat.add_zero]
    rw [rangeSameTilesAux, groupBlocks, blockRanges]
  | cons t rest ih =>
    intro i start curr
    rw [rangeSameTilesAux]
    by_cases hbeq : tileBeq curr t = true
    · rw [if_pos hbeq, ih]
      rw [List.takeWhile_cons_of_pos hbeq, List.dropWhile_cons_of_pos hbeq]
      simp only [List.length_cons]
      have e : i + 1 + (rest.takeWhile (fun u => tileBeq curr u)).length =
          i + ((rest.takeWhile (fun u => tileBeq curr u)).length + 1) := by
        omega
      rw [e]
    · rw [if_neg hbeq, ih]
      rw [List.takeWhile_cons_of_neg (by simpa using hbeq),
        List.dropWhile_cons_of_neg (by simpa using hbeq)]
      simp only [List.length_nil, Nat.add_zero]
      rw [groupBlocks]
      rw [blockRanges]
      simp only [List.length_cons]
      have e : i + ((rest.takeWhile (fun u => tileBeq t u)).length + 1) =
          i + 1 + (rest.takeWhile (fun u => tileBeq t u)).length := by
        omega
      rw [e]

/-- `range_same_tiles` computes exactly the index ranges of the maximal
blocks of `==`-equal tiles. -/
theorem rangeSameTiles_eq_blockRanges (t : Tile) (rest : List Tile) :
    rangeSameTiles (t :: rest) = blockRanges 0 (groupBlocks (t :: rest)) := by
  rw [rangeSameTiles, rangeSameTilesAux_spec, groupBlocks, blockRanges]
  simp only [List.length_cons]
  have e : 1 + (rest.takeWhile (fun u => tileBeq t u)).length =
      0 + ((rest.takeWhile (fun u => tileBeq t u)).length + 1) := by omega
  rw [e]

/-- Membership in `blockRanges` locates a block. -/
theorem blockRanges_elim :
    ∀ (bs : List (List Tile)) (pos : Nat) {s e : Nat},
      (s, e) ∈ blockRanges pos bs →
      ∃ pre b post, bs = pre ++ b :: post ∧
        s = pos + pre.flatten.length ∧ e = s + b.length := by
  intro bs
  induction bs with
  | nil => intro pos s e h; cases h
  | cons b bs ih =>
    intro pos s e h
    rw [blockRanges] at h
    rcases List.mem_cons.mp h with heq | hmem
    · have h1 : s = pos := congrArg Prod.fst heq
      have h2 : e = pos + b.length := congrArg Prod.snd heq
      exact ⟨[], b, bs, rfl, by simp [h1], by rw [h1, h2]⟩
    · obtain ⟨pre, b2, post, hbs, hs, he⟩ := ih (pos + b.length) hmem
      exact ⟨b :: pre, b2, post, by rw [hbs]; rfl, by
        rw [hs]
        simp only [List.flatten_cons, List.length_append]
        omega, he⟩

/-! ### C4: exposure reconciliation -/

theorem removeFirstSat_first {α : Type} {p : α → Bool} :
    ∀ (l1 : List α) (x : α) (l2 : List α),
      (∀ y ∈ l1, p y = false) → p x = true →
      removeFirstSat p (l1 ++ x :: l2) = some (x, l1 ++ l2) := by
  intro l1
  induction l1 with
  | nil =>
    intro x l2 _ hx
    simp [removeFirstSat, hx]
  | cons a as ih =>
    intro x l2 hall hx
    have ha : p a = false := hall a (List.mem_cons_self _ _)
    rw [List.cons_append, removeFirstSat, if_neg (by simp [ha]),
      ih x l2 (fun y hy => hall y (List.mem_cons_of_mem _ hy)) hx]
    rfl

theorem removeFirstSat_none_of_all {α : Type} {p : α → Bool} :
    ∀ {l : List α}, (∀ x ∈ l, p x = false) → removeFirstSat p l = none := by
  intro l
  induction l with
  | nil => intro _; rfl
  | cons a as ih =>
    intro hall
    rw [removeFirstSat,
      if_neg (by simp [hall a (List.mem_cons_self _ _)]),
      ih (fun y hy => hall y (List.mem_cons_of_mem _ hy))]
    rfl

/-- Any pair candidate produced by `enumerate_quetou` has exactly two tiles
and they are `==`-equal to each other. -/
theorem enumerateQuetou_shape :
    ∀ {L q rest : List Tile}, (q, rest) ∈ enumerateQuetou L →
      q.length = 2 ∧ ∀ x ∈ q, ∀ y ∈ q, tileBeq x y = true := by
  intro L q rest h
  cases L with
  | nil =>
    simp [enumerateQuetou, rangeSameTiles] at h
  | cons t0 rest0 =>
    unfold enumerateQuetou at h
    rw [List.mem_map] at h
    obtain ⟨r, hrmem, hr⟩ := h
    obtain ⟨s, e⟩ := r
    rw [List.mem_filter] at hrmem
    obtain ⟨hrin, hr2⟩ := hrmem
    rw [decide_eq_true_iff] at hr2
    dsimp only at hr2
    rw [rangeSameTiles_eq_blockRanges] at hrin
    obtain ⟨pre, b, post, hbs, hs, he⟩ := blockRanges_elim _ 0 hrin
    simp only [Nat.zero_add] at hs
    have hblen : 2 ≤ b.length := by omega
    have hL : t0 :: rest0 = pre.flatten ++ (b ++ post.flatten) := by
      conv_lhs => rw [← groupBlocks_flatten (t0 :: rest0).length
        (t0 :: rest0) (le_refl _)]
    
      rw [hbs]
      simp [List.flatten_append]
    have hq1 : q = sortTiles (drainRange (t0 :: rest0) s (s + 2)).1 := by
      have := congrArg Prod.fst hr
      simpa using this.symm
    have hd : (drainRange (t0 :: rest0) s (s + 2)).1 = b.take 2 := by
      unfold drainRange
      dsimp only
      have h2 : s + 2 - s = 2 := by omega
      rw [h2, hL, hs, List.drop_left,
        List.take_append_of_le_length hblen]
    have hbmem : b ∈ groupBlocks (t0 :: rest0) := by
      rw [hbs]
      exact List.mem_append_right _ (List.mem_cons_self _ _)
    refine ⟨?_, ?_⟩
    · rw [hq1, hd, (sortTiles_perm _).length_eq, List.length_take]
      omega
    · intro x hx y hy
      have hmem : ∀ z ∈ q, z ∈ b := by
        intro z hz
        rw [hq1, hd] at hz
        exact List.mem_of_mem_take (((sortTiles_perm _).mem_iff).mp hz)
      exact groupBlocks_eq_within (t0 :: rest0).length (t0 :: rest0)
        (le_refl _) b hbmem x (hmem x hx) y (hmem y hy)

theorem firstTile_mem {l : List Tile} (h : l ≠ []) : firstTile l ∈ l := by
  cases l with
  | nil => exact absurd rfl h
  | cons a as => exact List.mem_cons_self _ _

/-- C4: exposure reconciliation applies only to discard-claim wins (a
self-drawn win reclassifies nothing), reclassifies exactly one group with
strict priority — the first concealed run containing the winning tile, only
otherwise the first concealed triplet, only otherwise the first concealed
kong (removed from the table state) — and if no run, triplet or kong
contains the winning tile it moves nothing; moreover in that residual case
any decomposition produced by the decomposer has the winning tile equal
(`==`) to the pair tile, so the assertion guarding it never fires. -/
theorem exposure_reconciliation (ts : Tilesets)
    (kezis shunzis : List (List Tile)) :
    (ts.isZimo = true →
      fixRongAnMings ts kezis shunzis = (.none, ts, kezis, shunzis)) ∧
    (ts.isZimo = false →
      ∀ l1 jun l2, shunzis = l1 ++ jun :: l2 →
        (∀ s ∈ l1, tilesContain s ts.last = false) →
        tilesContain jun ts.last = true →
        fixRongAnMings ts kezis shunzis =
          (.mingshun jun, ts, kezis, l1 ++ l2)) ∧
    (ts.isZimo = false →
      (∀ s ∈ shunzis, tilesContain s ts.last = false) →
      ∀ l1 ko l2, kezis = l1 ++ ko :: l2 →
        (∀ k ∈ l1, tilesContain k ts.last = false) →
        tilesContain ko ts.last = true →
        fixRongAnMings ts kezis shunzis =
          (.mingke ko, ts, l1 ++ l2, shunzis)) ∧
    (ts.isZimo = false →
      (∀ s ∈ shunzis, tilesContain s ts.last = false) →
      (∀ k ∈ kezis, tilesContain k ts.last = false) →
      ∀ l1 g l2, ts.angangs = l1 ++ g :: l2 →
        (∀ k ∈ l1, tilesContain k ts.last = false) →
        tilesContain g ts.last = true →
        fixRongAnMings ts kezis shunzis =
          (.mingke g, { ts with angangs := l1 ++ l2 }, kezis, shunzis)) ∧
    (ts.isZimo = false →
      (∀ s ∈ shunzis, tilesContain s ts.last = false) →
      (∀ k ∈ kezis, tilesContain k ts.last = false) →
      (∀ g ∈ ts.angangs, tilesContain g ts.last = false) →
      fixRongAnMings ts kezis shunzis = (.none, ts, kezis, shunzis)) ∧
    (∀ q rest ks rest2 ss,
      (q, rest) ∈ enumerateQuetou (sortTiles (ts.hand ++ [ts.last])) →
      (ks, rest2) ∈ enumerateKezi rest →
      extractShunzi rest2 = some ss →
      (∀ s ∈ ss, tilesContain s ts.last = false) →
      (∀ k ∈ ks, tilesContain k ts.last = false) →
      tileBeq ts.last (firstTile q) = true) := by
  refine ⟨?_, ?_, ?_, ?_, ?_, ?_⟩
  · intro hz
    rw [fixRongAnMings, if_pos hz]
  · intro hz l1 jun l2 hsh hl1 hjun
    rw [fixRongAnMings, if_neg (by simp [hz]), hsh,
      removeFirstSat_first l1 jun l2 hl1 hjun]
  · intro hz hsh l1 ko l2 hke hl1 hko
    rw [fixRongAnMings, if_neg (by simp [hz]),
      removeFirstSat_none_of_all hsh, hke,
      removeFirstSat_first l1 ko l2 hl1 hko]
  · intro hz hsh hke l1 g l2 hag hl1 hg
    rw [fixRongAnMings, if_neg (by simp [hz]),
      removeFirstSat_none_of_all hsh,
      removeFirstSat_none_of_all hke, hag,
      removeFirstSat_first l1 g l2 hl1 hg]
  · intro hz hsh hke hag
    rw [fixRongAnMings, if_neg (by simp [hz]),
      removeFirstSat_none_of_all hsh,
      removeFirstSat_none_of_all hke,
      removeFirstSat_none_of_all hag]
  · intro q rest ks rest2 ss hq hk hs hss hks
    have hperm := enumerate_stages_perm hq hk hs
    have hlast : ts.last ∈ q ++ (ks.flatten ++ ss.flatten) := by
      rw [hperm.mem_iff]
      exact List.mem_append_right _ (List.mem_cons_self _ _)
    have hnotk : ts.last ∉ ks.flatten := by
      intro hmem
      rw [List.mem_flatten] at hmem
      obtain ⟨k, hkmem, hlk⟩ := hmem
      have htrue : tilesContain k ts.last = true := by
        rw [tilesContain, List.any_eq_true]
        exact ⟨ts.last, hlk, tileBeq_refl _⟩
      rw [hks k hkmem] at htrue
      cases htrue
    have hnots : ts.last ∉ ss.flatten := by
      intro hmem
      rw [List.mem_flatten] at hmem
      obtain ⟨k, hkmem, hlk⟩ := hmem
      have htrue : tilesContain k ts.last = true := by
        rw [tilesContain, List.any_eq_true]
        exact ⟨ts.last, hlk, tileBeq_refl _⟩
      rw [hss k hkmem] at htrue
      cases htrue
    have hmemq : ts.last ∈ q := by
      rcases List.mem_append.mp hlast with h1 | h2
      · exact h1
      · rcases List.mem_append.mp h2 with h3 | h4
        · exact absurd h3 hnotk
        · exact absurd h4 hnots
    obtain ⟨hlen, hall⟩ := enumerateQuetou_shape hq
    have hne : q ≠ [] := by
      intro he
      rw [he] at hlen
      cases hlen
    exact hall ts.last hmemq (firstTile q) (firstTile_mem hne)

/-- A discard-claim win whose winning tile `3s` completes the second
concealed run but not the first. -/
def c4wts : Tilesets :=
  ⟨⟨.none, [], .east, .east⟩, false, tS 3,
    [tS 1, tS 2, tM 1, tM 1, tM 1, tM 9, tM 9, tM 9, tS 4, tS 5, tS 6,
      .zipai .east, .zipai .east],
    [], [], [], [], []⟩

theorem exposure_reconciliation_witness :
    c4wts.isZimo = false ∧
    tilesContain [tS 4, tS 5, tS 6] c4wts.last = false ∧
    tilesContain [tS 1, tS 2, tS 3] c4wts.last = true ∧
    fixRongAnMings c4wts [[tM 1, tM 1, tM 1]]
      [[tS 4, tS 5, tS 6], [tS 1, tS 2, tS 3]] =
      (.mingshun [tS 1, tS 2, tS 3], c4wts, [[tM 1, tM 1, tM 1]],
        [[tS 4, tS 5, tS 6]]) := by
  refine ⟨by decide, by decide, by decide, ?_⟩
  exact (exposure_reconciliation c4wts [[tM 1, tM 1, tM 1]]
      [[tS 4, tS 5, tS 6], [tS 1, tS 2, tS 3]]).2.1 (by decide)
    [[tS 4, tS 5, tS 6]] [tS 1, tS 2, tS 3] [] rfl
    (by decide) (by decide)

/-! ### Blocks of a sorted list are exactly the `==`-classes -/

theorem dropWhile_head_false {α : Type} {p : α → Bool} :
    ∀ {l : List α} {u : α} {tail : List α},
      l.dropWhile p = u :: tail → p u = false := by
  intro l
  induction l with
  | nil => intro u tail h; cases h
  | cons a as ih =>
    intro u tail h
    by_cases hp : p a
    · rw [List.dropWhile_cons_of_pos hp] at h
      exact ih h
    · rw [List.dropWhile_cons_of_neg hp] at h
      cases h
      simpa using hp

/-- In a sorted list, no element left after `dropWhile (t ==)` is still
`==`-equal to `t`. -/
theorem key_not_beq_dropWhile {t : Tile} {rest : List Tile}
    (hsort : List.Sorted tileLe (t :: rest)) {k : Tile}
    (hk : k ∈ rest.dropWhile (fun u => tileBeq t u)) :
    tileBeq t k = false := by
  obtain ⟨hall, hrest⟩ := List.sorted_cons.mp hsort
  cases hdw : rest.dropWhile (fun u => tileBeq t u) with
  | nil => rw [hdw] at hk; cases hk
  | cons u tail =>
    rw [hdw] at hk
    have hu : tileBeq t u = false := dropWhile_head_false hdw
    have hsub : List.Sublist (u :: tail) rest := by
      rw [← hdw]
      exact List.dropWhile_sublist _
    have hdwsort : List.Sorted tileLe (u :: tail) := hrest.sublist hsub
    have htu : tileLe t u := hall u (hsub.subset (List.mem_cons_self _ _))
    by_contra hne
    rw [Bool.not_eq_false] at hne
    have hkt : tileLe k t := tileLe_of_beq (tileBeq_symm hne)
    rcases List.mem_cons.mp hk with rfl | hmem
    · rw [hne] at hu; cases hu
    · have huk : tileLe u k := (List.sorted_cons.mp hdwsort).1 k hmem
      have : tileBeq t u = true :=
        tileBeq_of_le_le htu (tileLe_trans huk hkt)
      rw [this] at hu; cases hu

/-- In a sorted list each block collects the whole `==`-class: the class
count equals the block length. -/
theorem groupBlocks_count :
    ∀ (n : Nat) (l : List Tile), l.length ≤ n → List.Sorted tileLe l →
      ∀ b ∈ groupBlocks l, cntBeq (firstTile b) l = b.length := by
  intro n
  induction n with
  | zero =>
    intro l h _ b hb
    have : l = [] := List.length_eq_zero.mp (Nat.le_zero.mp h)
    subst this
    rw [groupBlocks] at hb
    exact absurd hb (List.not_mem_nil b)
  | succ n ih =>
    intro l h hsort b hb
    cases l with
    | nil =>
      rw [groupBlocks] at hb
      exact absurd hb (List.not_mem_nil b)
    | cons t rest =>
      obtain ⟨hall, hrest⟩ := List.sorted_cons.mp hsort
      have hlen : (rest.dropWhile (fun u => tileBeq t u)).length ≤ n := by
        have := (show List.Sublist (rest.dropWhile (fun u => tileBeq t u))
          rest from List.dropWhile_sublist _).length_le
        simp only [List.length_cons] at h
        omega
      rw [groupBlocks] at hb
      rcases List.mem_cons.mp hb with rfl | hmem
      · show cntBeq t (t :: rest) = _
        unfold cntBeq
        rw [List.countP_cons]
        conv_lhs => rw [show rest = rest.takeWhile (fun u => tileBeq t u) ++
          rest.dropWhile (fun u => tileBeq t u) from
          (List.takeWhile_append_dropWhile _ _).symm]
        rw [List.countP_append]
        rw [List.countP_eq_length.mpr (fun x hx =>
          tileBeq_symm (List.mem_takeWhile_imp hx))]
        rw [List.countP_eq_zero.mpr (fun x hx hc => by
          have := key_not_beq_dropWhile hsort hx
          rw [tileBeq_symm hc] at this
          cases this)]
        simp [tileBeq_refl]
      · have hb0 := groupBlocks_nonempty _ _ (le_refl _) b hmem
        have hkmem : firstTile b ∈ rest.dropWhile (fun u => tileBeq t u) := by
          rw [← groupBlocks_flatten _ _ (le_refl
            (rest.dropWhile (fun u => tileBeq t u)).length)]
          exact List.mem_flatten.mpr ⟨b, hmem, firstTile_mem hb0⟩
        have hkn : tileBeq t (firstTile b) = false :=
          key_not_beq_dropWhile hsort hkmem
        have hdws : List.Sorted tileLe (rest.dropWhile (fun u => tileBeq t u)) :=
          hrest.sublist (List.dropWhile_sublist _)
        have hih := ih _ hlen hdws b hmem
        show cntBeq (firstTile b) (t :: rest) = _
        unfold cntBeq at hih ⊢
        rw [List.countP_cons]
        conv_lhs => rw [show rest = rest.takeWhile (fun u => tileBeq t u) ++
          rest.dropWhile (fun u => tileBeq t u) from
          (List.takeWhile_append_dropWhile _ _).symm]
        rw [List.countP_append]
        rw [List.countP_eq_zero.mpr (fun x hx hc => by
          have h1 : tileBeq t x = true := List.mem_takeWhile_imp hx
          have h2 : tileBeq t (firstTile b) = true := tileBeq_trans h1 hc
          rw [h2] at hkn
          cases hkn)]
        rw [hih]
        simp [hkn]
      
/-- In a sorted list the block keys are pairwise `==`-distinct. -/
theorem groupBlocks_keys_distinct :
    ∀ (n : Nat) (l : List Tile), l.length ≤ n → List.Sorted tileLe l →
      (groupBlocks l).Pairwise
        (fun b1 b2 => tileBeq (firstTile b1) (firstTile b2) = false) := by
  intro n
  induction n with
  | zero =>
    intro l h _
    have : l = [] := List.length_eq_zero.mp (Nat.le_zero.mp h)
    subst this
    rw [groupBlocks]
    exact List.Pairwise.nil
  | succ n ih =>
    intro l h hsort
    cases l with
    | nil =>
      rw [groupBlocks]
      exact List.Pairwise.nil
    | cons t rest =>
      obtain ⟨hall, hrest⟩ := List.sorted_cons.mp hsort
      have hlen : (rest.dropWhile (fun u => tileBeq t u)).length ≤ n := by
        have := (show List.Sublist (rest.dropWhile (fun u => tileBeq t u))
          rest from List.dropWhile_sublist _).length_le
        simp only [List.length_cons] at h
        omega
      have hdws : List.Sorted tileLe (rest.dropWhile (fun u => tileBeq t u)) :=
        hrest.sublist (List.dropWhile_sublist _)
      rw [groupBlocks]
      refine List.Pairwise.cons ?_ (ih _ hlen hdws)
      intro b2 hb2
      have hb0 := groupBlocks_nonempty _ _ (le_refl _) b2 hb2
      have hkmem : firstTile b2 ∈ rest.dropWhile (fun u => tileBeq t u) := by
        rw [← groupBlocks_flatten _ _ (le_refl
          (rest.dropWhile (fun u => tileBeq t u)).length)]
        exact List.mem_flatten.mpr ⟨b2, hb2, firstTile_mem hb0⟩
      exact key_not_beq_dropWhile hsort hkmem

/-! ### The triplet-stage bitmask, block by block -/

/-- Whether a block's key belongs to the chosen triplet keys. -/
def blockSel (tk : List Tile) (b : List Tile) : Bool :=
  tk.any (fun t => tileBeq (firstTile b) t)

/-- The candidate ranges of `enumerate_kezi`, computed from the blocks. -/
def candsOf (pos : Nat) : List (List Tile) → List (Nat × Nat)
  | [] => []
  | b :: bs =>
    if 3 ≤ b.length then (pos, pos + 3) :: candsOf (pos + b.length) bs
    else candsOf (pos + b.length) bs

/-- The bitmask selecting exactly the candidate blocks whose key is a chosen
triplet key. -/
def selSet (tk : List Tile) : List (List Tile) → Nat
  | [] => 0
  | b :: bs =>
    if 3 ≤ b.length then
      (if blockSel tk b then 1 else 0) + 2 * selSet tk bs
    else selSet tk bs

/-- The triplets drained by the bitmask `selSet`. -/
def picked (tk : List Tile) : List (List Tile) → List (List Tile)
  | [] => []
  | b :: bs =>
    if 3 ≤ b.length then
      (if blockSel tk b then sortTiles (b.take 3) :: picked tk bs
       else picked tk bs)
    else picked tk bs

/-- What remains of the blocks after draining the selected triplets. -/
def residue (tk : List Tile) : List (List Tile) → List Tile
  | [] => []
  | b :: bs =>
    (if 3 ≤ b.length then (if blockSel tk b then b.drop 3 else b) else b) ++
      residue tk bs

/-- The stripped keys of the selected blocks. -/
def selKeys (tk : List Tile) : List (List Tile) → List Tile
  | [] => []
  | b :: bs =>
    if 3 ≤ b.length then
      (if blockSel tk b then Tile.strip (firstTile b) :: selKeys tk bs
       else selKeys tk bs)
    else selKeys tk bs

theorem candsOf_eq_filter :
    ∀ (bs : List (List Tile)) (pos : Nat),
      ((blockRanges pos bs).filter (fun r => 3 ≤ r.2 - r.1)).map
        (fun r => (r.1, r.1 + 3)) = candsOf pos bs := by
  intro bs
  induction bs with
  | nil => intro pos; rfl
  | cons b bs ih =>
    intro pos
    rw [blockRanges, candsOf]
    by_cases hc : 3 ≤ b.length
    · rw [if_pos hc, List.filter_cons, if_pos (by
        simpa using hc), List.map_cons, ih]
    · rw [if_neg hc, List.filter_cons, if_neg (by
        simpa using hc), ih]

/-- The candidates computed by `enumerate_kezi` are exactly `candsOf` over
the blocks. -/
theorem enumerateKezi_cands (L : List Tile) :
    ((rangeSameTiles L).filter (fun r => 3 ≤ r.2 - r.1)).map
      (fun r => (r.1, r.1 + 3)) = candsOf 0 (groupBlocks L) := by
  cases L with
  | nil =>
    rw [groupBlocks]
    rfl
  | cons t rest =>
    rw [rangeSameTiles_eq_blockRanges, candsOf_eq_filter]

theorem candsOf_le :
    ∀ (bs : List (List Tile)) (pos : Nat), ∀ r ∈ candsOf pos bs, r.1 ≤ r.2 := by
  intro bs
  induction bs with
  | nil => intro pos r hr; cases hr
  | cons b bs ih =>
    intro pos r hr
    rw [candsOf] at hr
    by_cases hc : 3 ≤ b.length
    · rw [if_pos hc] at hr
      rcases List.mem_cons.mp hr with rfl | hmem
      · simp
      · exact ih _ r hmem
    · rw [if_neg hc] at hr
      exact ih _ r hr

theorem selSet_lt :
    ∀ (bs : List (List Tile)) (tk : List Tile) (pos : Nat),
      selSet tk bs < 2 ^ (candsOf pos bs).length := by
  intro bs
  induction bs with
  | nil => intro tk pos; simp [selSet, candsOf]
  | cons b bs ih =>
    intro tk pos
    rw [selSet, candsOf]
    by_cases hc : 3 ≤ b.length
    · rw [if_pos hc, if_pos hc]
      have := ih tk (pos + b.length)
      simp only [List.length_cons, Nat.pow_succ]
      by_cases hsel : blockSel tk b = true <;> simp [hsel] <;> omega
    · rw [if_neg hc, if_neg hc]
      exact ih tk _

/-- The heart of the triplet stage: running `kezi_extract` with the bitmask
`selSet` drains exactly the first three tiles of each selected block. -/
theorem keziExtract_blocks :
    ∀ (bs : List (List Tile)) (tk : List Tile) (pre : List Tile)
      (removed : Nat),
      keziExtract (candsOf (removed + pre.length) bs) (selSet tk bs) removed
        (pre ++ bs.flatten) =
      (picked tk bs, pre ++ residue tk bs) := by
  intro bs
  induction bs with
  | nil =>
    intro tk pre removed
    simp [candsOf, selSet, picked, residue, keziExtract]
  | cons b bs ih =>
    intro tk pre removed
    rw [candsOf, selSet, picked, residue]
    by_cases hc : 3 ≤ b.length
    · rw [if_pos hc, if_pos hc, if_pos hc, if_pos hc]
      by_cases hsel : blockSel tk b = true
      · rw [if_pos hsel, if_pos hsel, if_pos hsel]
        rw [keziExtract]
        rw [if_pos (by omega : (1 + 2 * selSet tk bs) % 2 = 1)]
        have hs : removed + pre.length - removed = pre.length := by omega
        have he : removed + pre.length + 3 - removed = pre.length + 3 := by
          omega
        rw [hs, he]
        unfold drainRange
        dsimp only
        rw [show pre.length + 3 - pre.length = 3 from by omega]
        rw [List.flatten_cons, ← List.append_assoc pre b bs.flatten]
        rw [show ((pre ++ b) ++ bs.flatten).drop pre.length =
            b ++ bs.flatten from by
          rw [List.append_assoc, List.drop_left]]
        rw [List.take_append_of_le_length hc]
        rw [show ((pre ++ b) ++ bs.flatten).take pre.length = pre from by
          rw [List.append_assoc, List.take_left pre (b ++ bs.flatten)]]
        rw [show ((pre ++ b) ++ bs.flatten).drop (pre.length + 3) =
            b.drop 3 ++ bs.flatten from by
          rw [List.append_assoc, ← List.drop_drop, List.drop_left,
            List.drop_append_of_le_length hc]]
        rw [show (1 + 2 * selSet tk bs) / 2 = selSet tk bs from by omega]
        have harg : removed + pre.length + b.length =
            removed + 3 + (pre ++ b.drop 3).length := by
          simp only [List.length_append, List.length_drop]
          omega
        rw [harg]
        rw [show pre ++ (b.drop 3 ++ bs.flatten) =
            (pre ++ b.drop 3) ++ bs.flatten from by
          rw [List.append_assoc]]
        rw [ih tk (pre ++ b.drop 3) (removed + 3)]
        rw [List.append_assoc]
      · rw [if_neg hsel, if_neg hsel, if_neg hsel]
        rw [keziExtract]
        rw [if_neg (by omega : ¬(0 + 2 * selSet tk bs) % 2 = 1)]
        rw [show (0 + 2 * selSet tk bs) / 2 = selSet tk bs from by omega]
        have harg : removed + pre.length + b.length =
            removed + (pre ++ b).length := by
          simp only [List.length_append]
          omega
        rw [harg]
        rw [List.flatten_cons, ← List.append_assoc pre b bs.flatten]
        rw [ih tk (pre ++ b) removed]
        rw [List.append_assoc]
    · rw [if_neg hc, if_neg hc, if_neg hc, if_neg hc]
      have harg : removed + pre.length + b.length =
          removed + (pre ++ b).length := by
        simp only [List.length_append]
        omega
      rw [harg]
      rw [List.flatten_cons, ← List.append_assoc pre b bs.flatten]
      rw [ih tk (pre ++ b) removed]
      rw [List.append_assoc]

/-- The residue is a sublist of the flattened blocks. -/
theorem residue_sublist :
    ∀ (bs : List (List Tile)) (tk : List Tile),
      List.Sublist (residue tk bs) bs.flatten := by
  intro bs
  induction bs with
  | nil => intro tk; simp [residue]
  | cons b bs ih =>
    intro tk
    rw [residue, List.flatten_cons]
    refine List.Sublist.append ?_ (ih tk)
    by_cases hc : 3 ≤ b.length
    · rw [if_pos hc]
      by_cases hsel : blockSel tk b = true
      · rw [if_pos hsel]
        exact List.drop_sublist _ _
      · rw [if_neg hsel]
    · rw [if_neg hc]

/-! ### Pairs, triplets and runs of the spec's partition, and stripped
multiset bookkeeping -/

/-- A pair: two equal (`==`) tiles. -/
def isPairB : List Tile → Bool
  | [a, b] => tileBeq a b
  | _ => false

/-- A triplet: three equal (`==`) tiles. -/
def isTripletB : List Tile → Bool
  | [a, b, c] => tileBeq a b && tileBeq a c
  | _ => false

/-- A run: three tiles of consecutive ranks in one suit. -/
def isRunB : List Tile → Bool
  | [a, b, c] =>
    (match a.next with
     | some n => tileBeq n b
     | none => false) &&
    (match b.next with
     | some n => tileBeq n c
     | none => false)
  | _ => false

/-- The spec's standard-form winning condition on a tile multiset: it splits
into one pair plus groups, each a triplet or a run (tile identity taken up to
`==`, i.e. ignoring the red-dora flag, as the code does throughout). -/
def hasWinningDecomposition (L : List Tile) : Prop :=
  ∃ pair gs, List.Perm L (pair ++ List.flatten gs) ∧ isPairB pair = true ∧
    ∀ g ∈ gs, isTripletB g = true ∨ isRunB g = true

/-- Three copies of each key. -/
def keysRep (K : List Tile) : List Tile :=
  (K.map (fun k => [k, k, k])).flatten

theorem cnt_strip :
    ∀ (l : List Tile) (t : Tile),
      cntBeq t l = (l.map Tile.strip).count t.strip := by
  intro l
  induction l with
  | nil => intro t; rfl
  | cons x xs ih =>
    intro t
    unfold cntBeq at ih ⊢
    rw [List.countP_cons, List.map_cons, List.count_cons, ih]
    by_cases hx : tileBeq x t = true
    · have hs : Tile.strip x = Tile.strip t := tileBeq_iff_strip.mp hx
      simp [hx, hs]
    · have hs : ¬Tile.strip x = Tile.strip t :=
        fun e => hx (tileBeq_iff_strip.mpr e)
      simp [hx, hs]

theorem keysRep_cons (k : Tile) (K : List Tile) :
    keysRep (k :: K) = [k, k, k] ++ keysRep K := rfl

theorem count_keysRep :
    ∀ (K : List Tile) (s : Tile),
      (keysRep K).count s = 3 * K.count s := by
  intro K
  induction K with
  | nil => intro s; rfl
  | cons k K ih =>
    intro s
    rw [keysRep_cons, List.count_append, ih]
    by_cases hk : k = s
    · subst hk
      rw [List.count_cons_self, List.count_cons_self, List.count_cons_self,
        List.count_nil, List.count_cons_self]
      omega
    · have hne : s ≠ k := fun e => hk e.symm
      rw [List.count_cons_of_ne hne, List.count_cons_of_ne hne,
        List.count_cons_of_ne hne, List.count_nil, List.count_cons_of_ne hne]
      omega

theorem isTripletB_shape {g : List Tile} (h : isTripletB g = true) :
    ∃ a b c, g = [a, b, c] ∧ tileBeq a b = true ∧ tileBeq a c = true := by
  rcases g with _ | ⟨a, _ | ⟨b, _ | ⟨c, _ | d⟩⟩⟩ <;>
    simp [isTripletB] at h
  exact ⟨a, b, c, rfl, h.1, h.2⟩

theorem isRunB_shape {g : List Tile} (h : isRunB g = true) :
    ∃ a b c n1 n2, g = [a, b, c] ∧ a.next = some n1 ∧ tileBeq n1 b = true ∧
      b.next = some n2 ∧ tileBeq n2 c = true := by
  rcases g with _ | ⟨a, _ | ⟨b, _ | ⟨c, _ | d⟩⟩⟩ <;>
    simp [isRunB] at h
  obtain ⟨h1, h2⟩ := h
  cases hn1 : a.next with
  | none => rw [hn1] at h1; cases h1
  | some n1 =>
    rw [hn1] at h1
    cases hn2 : b.next with
    | none => rw [hn2] at h2; cases h2
    | some n2 =>
      rw [hn2] at h2
      exact ⟨a, b, c, n1, n2, rfl, hn1, h1, hn2, h2⟩

theorem picked_flatten_strip :
    ∀ (bs : List (List Tile)) (tk : List Tile),
      (∀ b ∈ bs, ∀ x ∈ b, tileBeq x (firstTile b) = true) →
      ((picked tk bs).flatten).map Tile.strip = keysRep (selKeys tk bs) := by
  intro bs
  induction bs with
  | nil => intro tk _; rfl
  | cons b bs ih =>
    intro tk hhom
    have hrest := fun b2 hb2 => hhom b2 (List.mem_cons_of_mem _ hb2)
    rw [picked, selKeys]
    by_cases hc : 3 ≤ b.length
    · rw [if_pos hc, if_pos hc]
      by_cases hsel : blockSel tk b = true
      · rw [if_pos hsel, if_pos hsel]
        rw [List.flatten_cons, List.map_append, ih tk hrest]
        have hhd : (sortTiles (b.take 3)).map Tile.strip =
            List.replicate 3 (Tile.strip (firstTile b)) := by
          refine List.eq_replicate_iff.mpr ⟨?_, ?_⟩
          · rw [List.length_map, (sortTiles_perm _).length_eq,
              List.length_take]
            omega
          · intro y hy
            obtain ⟨x, hx, rfl⟩ := List.mem_map.mp hy
            have hxb : x ∈ b := List.mem_of_mem_take
              ((sortTiles_perm _).mem_iff.mp hx)
            exact tileBeq_iff_strip.mp (hhom b (List.mem_cons_self _ _) x hxb)
        rw [hhd]
        rfl
      · rw [if_neg hsel, if_neg hsel]
        exact ih tk hrest
    · rw [if_neg hc, if_neg hc]
      exact ih tk hrest

theorem triplets_flatten_strip :
    ∀ (T : List (List Tile)),
      (∀ g ∈ T, isTripletB g = true) →
      ((T.flatten).map Tile.strip) =
        keysRep (T.map (fun g => Tile.strip (firstTile g))) := by
  intro T
  induction T with
  | nil => intro _; rfl
  | cons g T ih =>
    intro hT
    obtain ⟨a, b, c, rfl, hab, hac⟩ :=
      isTripletB_shape (hT g (List.mem_cons_self _ _))
    rw [List.flatten_cons, List.map_append,
      ih (fun g2 hg2 => hT g2 (List.mem_cons_of_mem _ hg2))]
    have hrhs : keysRep (List.map (fun g => (firstTile g).strip)
        ([a, b, c] :: T)) =
        [Tile.strip a, Tile.strip a, Tile.strip a] ++
          keysRep (List.map (fun g => (firstTile g).strip) T) := rfl
    rw [hrhs]
    have h1 : Tile.strip b = Tile.strip a := (tileBeq_iff_strip.mp hab).symm
    have h2 : Tile.strip c = Tile.strip a := (tileBeq_iff_strip.mp hac).symm
    simp [h1, h2]

theorem mem_selKeys :
    ∀ (bs : List (List Tile)) (tk : List Tile) (s : Tile),
      s ∈ selKeys tk bs ↔
        ∃ b ∈ bs, 3 ≤ b.length ∧ blockSel tk b = true ∧
          s = Tile.strip (firstTile b) := by
  intro bs
  induction bs with
  | nil =>
    intro tk s
    simp [selKeys]
  | cons b bs ih =>
    intro tk s
    rw [selKeys]
    by_cases hc : 3 ≤ b.length
    · rw [if_pos hc]
      by_cases hsel : blockSel tk b = true
      · rw [if_pos hsel]
        constructor
        · intro hs
          rcases List.mem_cons.mp hs with rfl | hmem
          · exact ⟨b, List.mem_cons_self _ _, hc, hsel, rfl⟩
          · obtain ⟨b2, hb2, h3, h4, h5⟩ := (ih tk s).mp hmem
            exact ⟨b2, List.mem_cons_of_mem _ hb2, h3, h4, h5⟩
        · rintro ⟨b2, hb2, h3, h4, rfl⟩
          rcases List.mem_cons.mp hb2 with rfl | hmem
          · exact List.mem_cons_self _ _
          · exact List.mem_cons_of_mem _ ((ih tk _).mpr ⟨b2, hmem, h3, h4, rfl⟩)
      · rw [if_neg hsel]
        rw [ih tk s]
        constructor
        · rintro ⟨b2, hb2, h3, h4, h5⟩
          exact ⟨b2, List.mem_cons_of_mem _ hb2, h3, h4, h5⟩
        · rintro ⟨b2, hb2, h3, h4, rfl⟩
          rcases List.mem_cons.mp hb2 with rfl | hmem
          · rw [h4] at hsel
            exact absurd rfl hsel
          · exact ⟨b2, hmem, h3, h4, rfl⟩
    · rw [if_neg hc]
      rw [ih tk s]
      constructor
      · rintro ⟨b2, hb2, h3, h4, h5⟩
        exact ⟨b2, List.mem_cons_of_mem _ hb2, h3, h4, h5⟩
      · rintro ⟨b2, hb2, h3, h4, rfl⟩
        rcases List.mem_cons.mp hb2 with rfl | hmem
        · exact absurd h3 hc
        · exact ⟨b2, hmem, h3, h4, rfl⟩

theorem selKeys_nodup :
    ∀ (bs : List (List Tile)) (tk : List Tile),
      bs.Pairwise
        (fun b1 b2 => tileBeq (firstTile b1) (firstTile b2) = false) →
      (selKeys tk bs).Nodup := by
  intro bs
  induction bs with
  | nil => intro tk _; exact List.Pairwise.nil
  | cons b bs ih =>
    intro tk hpw
    obtain ⟨hhd, htl⟩ := List.pairwise_cons.mp hpw
    rw [selKeys]
    by_cases hc : 3 ≤ b.length
    · rw [if_pos hc]
      by_cases hsel : blockSel tk b = true
      · rw [if_pos hsel]
        refine List.Pairwise.cons ?_ (ih tk htl)
        intro s hs
        obtain ⟨b2, hb2, _, _, rfl⟩ := (mem_selKeys bs tk s).mp hs
        intro heq
        have : tileBeq (firstTile b) (firstTile b2) = true :=
          tileBeq_iff_strip.mpr heq
        rw [hhd b2 hb2] at this
        cases this
      · rw [if_neg hsel]
        exact ih tk htl
    · rw [if_neg hc]
      exact ih tk htl

theorem picked_shape :
    ∀ (bs : List (List Tile)) (tk : List Tile),
      (∀ b ∈ bs, ∀ x ∈ b, tileBeq x (firstTile b) = true) →
      ∀ k ∈ picked tk bs,
        k.length = 3 ∧ ∀ x ∈ k, ∀ y ∈ k, tileBeq x y = true := by
  intro bs
  induction bs with
  | nil => intro tk _ k hk; cases hk
  | cons b bs ih =>
    intro tk hhom k hk
    have hrest := fun b2 hb2 => hhom b2 (List.mem_cons_of_mem _ hb2)
    rw [picked] at hk
    by_cases hc : 3 ≤ b.length
    · rw [if_pos hc] at hk
      by_cases hsel : blockSel tk b = true
      · rw [if_pos hsel] at hk
        rcases List.mem_cons.mp hk with rfl | hmem
        · constructor
          · rw [(sortTiles_perm _).length_eq, List.length_take]
            omega
          · intro x hx y hy
            have hxb : x ∈ b := List.mem_of_mem_take
              ((sortTiles_perm _).mem_iff.mp hx)
            have hyb : y ∈ b := List.mem_of_mem_take
              ((sortTiles_perm _).mem_iff.mp hy)
            exact tileBeq_trans (hhom b (List.mem_cons_self _ _) x hxb)
              (tileBeq_symm (hhom b (List.mem_cons_self _ _) y hyb))
        · exact ih tk hrest k hmem
      · rw [if_neg hsel] at hk
        exact ih tk hrest k hk
    · rw [if_neg hc] at hk
      exact ih tk hrest k hk

/-- Completeness of the triplet stage: whenever the (sorted, legal) tiles
left after the pair split into chosen triplets `T` plus a remainder `R` up to
`==`, some bitmask of `enumerate_kezi` drains exactly the `T`-classes. -/
theorem kezi_stage_complete (rest0 : List Tile) (T R : List (List Tile))
    (hsort : List.Sorted tileLe rest0)
    (hT : ∀ g ∈ T, isTripletB g = true)
    (hleg : ∀ s : Tile, (rest0.map Tile.strip).count s ≤ 4)
    (hperm : List.Perm (rest0.map Tile.strip)
      ((T.flatten).map Tile.strip ++ (R.flatten).map Tile.strip)) :
    ∃ ks rest2, (ks, rest2) ∈ enumerateKezi rest0 ∧
      List.Sorted tileLe rest2 ∧
      List.Perm (rest2.map Tile.strip) ((R.flatten).map Tile.strip) ∧
      ∀ k ∈ ks, k.length = 3 ∧ ∀ x ∈ k, ∀ y ∈ k, tileBeq x y = true := by
  have hflat : (groupBlocks rest0).flatten = rest0 :=
    groupBlocks_flatten _ _ (le_refl _)
  have hhom : ∀ b ∈ groupBlocks rest0, ∀ x ∈ b,
      tileBeq x (firstTile b) = true := by
    intro b hb x hx
    exact groupBlocks_eq_within _ _ (le_refl _) b hb x hx (firstTile b)
      (firstTile_mem (groupBlocks_nonempty _ _ (le_refl _) b hb))
  have hdist := groupBlocks_keys_distinct _ _ (le_refl _) hsort
  have hcount := groupBlocks_count _ _ (le_refl _) hsort
  have hext : keziExtract (candsOf 0 (groupBlocks rest0))
      (selSet (T.map firstTile) (groupBlocks rest0)) 0 rest0 =
      (picked (T.map firstTile) (groupBlocks rest0),
        residue (T.map firstTile) (groupBlocks rest0)) := by
    have h := keziExtract_blocks (groupBlocks rest0) (T.map firstTile) [] 0
    simp only [List.length_nil, Nat.add_zero, List.nil_append] at h
    rw [hflat] at h
    exact h
  have hmem : (picked (T.map firstTile) (groupBlocks rest0),
      residue (T.map firstTile) (groupBlocks rest0)) ∈
      enumerateKezi rest0 := by
    simp only [enumerateKezi]
    rw [enumerateKezi_cands]
    exact List.mem_map.mpr ⟨selSet (T.map firstTile) (groupBlocks rest0),
      List.mem_range.mpr (selSet_lt _ _ 0), hext⟩
  have hres_sub : List.Sublist
      (residue (T.map firstTile) (groupBlocks rest0)) rest0 := by
    have h := residue_sublist (groupBlocks rest0) (T.map firstTile)
    rw [hflat] at h
    exact h
  have hsort2 : List.Sorted tileLe
      (residue (T.map firstTile) (groupBlocks rest0)) :=
    hsort.sublist hres_sub
  have hperm1 : List.Perm rest0
      ((picked (T.map firstTile) (groupBlocks rest0)).flatten ++
        residue (T.map firstTile) (groupBlocks rest0)) := by
    have h := keziExtract_perm (candsOf 0 (groupBlocks rest0))
      (selSet (T.map firstTile) (groupBlocks rest0)) 0 rest0
      (candsOf_le (groupBlocks rest0) 0)
    rw [hext] at h
    exact h
  have hX : List.Perm (rest0.map Tile.strip)
      (((picked (T.map firstTile) (groupBlocks rest0)).flatten).map
          Tile.strip ++
        (residue (T.map firstTile) (groupBlocks rest0)).map Tile.strip) := by
    have h := hperm1.map Tile.strip
    rw [List.map_append] at h
    exact h
  have hpick := picked_flatten_strip (groupBlocks rest0) (T.map firstTile) hhom
  have htrip := triplets_flatten_strip T hT
  have hTnodup : (T.map (fun g => Tile.strip (firstTile g))).Nodup := by
    rw [List.nodup_iff_count_le_one]
    intro s
    by_contra hgt
    push_neg at hgt
    have h6 : 6 ≤ ((T.flatten).map Tile.strip).count s := by
      rw [htrip, count_keysRep]
      omega
    have h7 : 6 ≤ (rest0.map Tile.strip).count s := by
      rw [hperm.count_eq s, List.count_append]
      omega
    have h8 := hleg s
    omega
  have hsel_nodup := selKeys_nodup (groupBlocks rest0) (T.map firstTile) hdist
  have hmem_iff : ∀ s : Tile,
      s ∈ selKeys (T.map firstTile) (groupBlocks rest0) ↔
      s ∈ T.map (fun g => Tile.strip (firstTile g)) := by
    intro s
    constructor
    · intro hs
      obtain ⟨b, hb, h3, h4, rfl⟩ := (mem_selKeys _ _ _).mp hs
      unfold blockSel at h4
      rw [List.any_eq_true] at h4
      obtain ⟨t, ht, hbeq⟩ := h4
      obtain ⟨g, hg, rfl⟩ := List.mem_map.mp ht
      exact List.mem_map.mpr ⟨g, hg, (tileBeq_iff_strip.mp hbeq).symm⟩
    · intro hs
      obtain ⟨g, hg, rfl⟩ := List.mem_map.mp hs
      have hsk : Tile.strip (firstTile g) ∈
          T.map (fun g => Tile.strip (firstTile g)) :=
        List.mem_map.mpr ⟨g, hg, rfl⟩
      have hc1 : 0 < (T.map (fun g => Tile.strip (firstTile g))).count
          (Tile.strip (firstTile g)) := List.count_pos_iff.mpr hsk
      have hc3 : 3 ≤ ((T.flatten).map Tile.strip).count
          (Tile.strip (firstTile g)) := by
        rw [htrip, count_keysRep]
        omega
      have hc4 : 3 ≤ (rest0.map Tile.strip).count
          (Tile.strip (firstTile g)) := by
        rw [hperm.count_eq, List.count_append]
        omega
      have hx : Tile.strip (firstTile g) ∈ rest0.map Tile.strip :=
        List.count_pos_iff.mp (by omega)
      obtain ⟨x, hxmem, hxs⟩ := List.mem_map.mp hx
      have hxf : x ∈ (groupBlocks rest0).flatten := by
        rw [hflat]
        exact hxmem
      obtain ⟨b, hb, hxb⟩ := List.mem_flatten.mp hxf
      have hkey : tileBeq x (firstTile b) = true := hhom b hb x hxb
      have hks : Tile.strip (firstTile b) = Tile.strip (firstTile g) := by
        rw [← tileBeq_iff_strip.mp hkey, hxs]
      have hblen : 3 ≤ b.length := by
        have e1 := hcount b hb
        have e2 := cnt_strip rest0 (firstTile b)
        rw [e1] at e2
        rw [e2, hks]
        omega
      have hselb : blockSel (T.map firstTile) b = true := by
        unfold blockSel
        rw [List.any_eq_true]
        exact ⟨firstTile g, List.mem_map.mpr ⟨g, hg, rfl⟩,
          tileBeq_iff_strip.mpr hks⟩
      exact (mem_selKeys _ _ _).mpr ⟨b, hb, hblen, hselb, hks.symm⟩
  have hkeysperm : List.Perm (selKeys (T.map firstTile) (groupBlocks rest0))
      (T.map (fun g => Tile.strip (firstTile g))) := by
    rw [List.perm_iff_count]
    intro a
    have h1 := List.nodup_iff_count_le_one.mp hsel_nodup a
    have h2 := List.nodup_iff_count_le_one.mp hTnodup a
    by_cases hm : a ∈ selKeys (T.map firstTile) (groupBlocks rest0)
    · have hm2 := (hmem_iff a).mp hm
      have h3 := List.count_pos_iff.mpr hm
      have h4 := List.count_pos_iff.mpr hm2
      omega
    · have hm2 : a ∉ T.map (fun g => Tile.strip (firstTile g)) :=
        fun h => hm ((hmem_iff a).mpr h)
      rw [List.count_eq_zero.mpr hm, List.count_eq_zero.mpr hm2]
  have hkr : List.Perm
      (keysRep (selKeys (T.map firstTile) (groupBlocks rest0)))
      (keysRep (T.map (fun g => Tile.strip (firstTile g)))) :=
    (hkeysperm.map (fun k => [k, k, k])).flatten
  have hbig : List.Perm
      ((T.flatten).map Tile.strip ++
        (residue (T.map firstTile) (groupBlocks rest0)).map Tile.strip)
      ((T.flatten).map Tile.strip ++ (R.flatten).map Tile.strip) := by
    refine List.Perm.trans ?_ hperm
    refine List.Perm.trans ?_ hX.symm
    refine List.Perm.append_right _ ?_
    rw [htrip, hpick]
    exact hkr.symm
  exact ⟨picked (T.map firstTile) (groupBlocks rest0),
    residue (T.map firstTile) (groupBlocks rest0), hmem, hsort2,
    (List.perm_append_left_iff _).mp hbig,
    picked_shape (groupBlocks rest0) (T.map firstTile) hhom⟩

/-! ### Completeness of the greedy run extraction -/

theorem removeFirstSat_sublist {α : Type} {p : α → Bool} :
    ∀ {l : List α} {x : α} {r : List α},
      removeFirstSat p l = some (x, r) → List.Sublist r l := by
  intro l
  induction l with
  | nil => intro x r h; simp [removeFirstSat] at h
  | cons a as ih =>
    intro x r h
    by_cases hp : p a
    · simp [removeFirstSat, hp] at h
      rw [← h.2]
      exact List.sublist_cons_self a as
    · simp [removeFirstSat, hp] at h
      obtain ⟨y, s, hy, hx, hr⟩ := h
      rw [← hr]
      exact (ih hy).cons₂ a

theorem popFirst_sublist {l : List Tile} {t x : Tile} {r : List Tile}
    (h : popFirst l t = some (x, r)) : List.Sublist r l :=
  removeFirstSat_sublist h

/-- If a sorted multiset is, up to `==`, a disjoint union of runs, the
greedy extraction succeeds: the minimal tile must start some run, and
removing that run leaves a smaller instance. -/
theorem extractShunzi_complete :
    ∀ (n : Nat) (M : List Tile), M.length ≤ n → List.Sorted tileLe M →
      ∀ (rs : List (List Tile)), (∀ r ∈ rs, isRunB r = true) →
      List.Perm (M.map Tile.strip) ((rs.flatten).map Tile.strip) →
      ∃ ss, extractShunzi M = some ss := by
  intro n
  induction n with
  | zero =>
    intro M hlen _ rs _ _
    have : M = [] := List.length_eq_zero.mp (Nat.le_zero.mp hlen)
    subst this
    exact ⟨[], extractShunzi_nil⟩
  | succ n ih =>
    intro M hlen hsort rs hrs hperm
    cases M with
    | nil => exact ⟨[], extractShunzi_nil⟩
    | cons t M2 =>
      have hmin : ∀ w ∈ M2, tileLe t w := (List.sorted_cons.mp hsort).1
      have hmem : Tile.strip t ∈ (rs.flatten).map Tile.strip := by
        refine hperm.mem_iff.mp ?_
        rw [List.map_cons]
        exact List.mem_cons_self _ _
      obtain ⟨x, hxf, hxs⟩ := List.mem_map.mp hmem
      obtain ⟨r, hr, hxr⟩ := List.mem_flatten.mp hxf
      obtain ⟨a, b, c, n1, n2, rfl, han, hn1b, hbn, hn2c⟩ :=
        isRunB_shape (hrs r hr)
      have hab : Tile.cmp a b = .lt := by
        have h2 : Tile.strip n1 = Tile.strip b := tileBeq_iff_strip.mp hn1b
        rw [← tile_cmp_strip a b, ← h2, tile_cmp_strip]
        exact tile_cmp_lt_of_next han
      have hbc : Tile.cmp b c = .lt := by
        have h2 : Tile.strip n2 = Tile.strip c := tileBeq_iff_strip.mp hn2c
        rw [← tile_cmp_strip b c, ← h2, tile_cmp_strip]
        exact tile_cmp_lt_of_next hbn
      have hta : Tile.strip t = Tile.strip a := by
        rcases (show x = a ∨ x = b ∨ x = c by simpa using hxr) with
          rfl | rfl | rfl
      
        · exact hxs.symm
        · exfalso
          have hts : Tile.strip t = Tile.strip x := hxs.symm
          have h1 : Tile.strip a ∈ (rs.flatten).map Tile.strip :=
            List.mem_map.mpr ⟨a, List.mem_flatten.mpr ⟨_, hr, by simp⟩, rfl⟩
          obtain ⟨w, hw, hws⟩ := List.mem_map.mp (hperm.mem_iff.mpr h1)
          have hcmp : Tile.cmp w t = .lt := by
            rw [← tile_cmp_strip w t, hws, hts, tile_cmp_strip]
            exact hab
          rcases List.mem_cons.mp hw with rfl | hw2
          · rw [tile_cmp_eq_iff_beq.mpr (tileBeq_refl w)] at hcmp
            cases hcmp
          · have hle := hmin w hw2
            have hgt : Tile.cmp t w = .gt := by
              rw [← tile_cmp_swap w t, hcmp]
              rfl
            exact hle hgt
        · exfalso
          have hts : Tile.strip t = Tile.strip x := hxs.symm
          have h1 : Tile.strip b ∈ (rs.flatten).map Tile.strip :=
            List.mem_map.mpr ⟨b, List.mem_flatten.mpr ⟨_, hr, by simp⟩, rfl⟩
          obtain ⟨w, hw, hws⟩ := List.mem_map.mp (hperm.mem_iff.mpr h1)
          have hcmp : Tile.cmp w t = .lt := by
            rw [← tile_cmp_strip w t, hws, hts, tile_cmp_strip]
            exact hbc
          rcases List.mem_cons.mp hw with rfl | hw2
          · rw [tile_cmp_eq_iff_beq.mpr (tileBeq_refl w)] at hcmp
            cases hcmp
          · have hle := hmin w hw2
            have hgt : Tile.cmp t w = .gt := by
              rw [← tile_cmp_swap w t, hcmp]
              rfl
            exact hle hgt
      have htnext : t.next = some n1 := by
        rw [tile_next_congr (tileBeq_iff_strip.mpr hta)]
        exact han
      have hbwit : ∃ w ∈ M2, Tile.strip w = Tile.strip b := by
        have h1 : Tile.strip b ∈ (rs.flatten).map Tile.strip :=
          List.mem_map.mpr ⟨b, List.mem_flatten.mpr ⟨_, hr, by simp⟩, rfl⟩
        obtain ⟨w, hw, hws⟩ := List.mem_map.mp (hperm.mem_iff.mpr h1)
        rcases List.mem_cons.mp hw with rfl | hw2
        · exfalso
          have he : Tile.strip a = Tile.strip b := by rw [← hta, hws]
          have h3 := tile_cmp_eq_iff_beq.mpr (tileBeq_iff_strip.mpr he)
          rw [hab] at h3
          cases h3
        · exact ⟨w, hw2, hws⟩
      obtain ⟨w1, hw1, hw1s⟩ := hbwit
      cases hp1 : popFirst M2 n1 with
      | none =>
        exfalso
        have h0 := removeFirstSat_none hp1 w1 hw1
        have hbeq : tileBeq w1 n1 = true := tileBeq_iff_strip.mpr (by
          rw [hw1s, ← tileBeq_iff_strip.mp hn1b])
        rw [hbeq] at h0
        cases h0
      | some p1 =>
        obtain ⟨mid, rest1⟩ := p1
        have hmidb : Tile.strip mid = Tile.strip b := by
          have h0 := (popFirst_found hp1).1
          rw [tileBeq_iff_strip] at h0
          rw [h0, ← tileBeq_iff_strip.mp hn1b]
        have hmidnext : mid.next = some n2 := by
          rw [tile_next_congr (tileBeq_iff_strip.mpr hmidb)]
          exact hbn
        have hcwit : ∃ w ∈ rest1, Tile.strip w = Tile.strip c := by
          have h1 : Tile.strip c ∈ (rs.flatten).map Tile.strip :=
            List.mem_map.mpr ⟨c, List.mem_flatten.mpr ⟨_, hr, by simp⟩, rfl⟩
          obtain ⟨w, hw, hws⟩ := List.mem_map.mp (hperm.mem_iff.mpr h1)
          rcases List.mem_cons.mp hw with rfl | hw2
          · exfalso
            have he : Tile.strip a = Tile.strip c := by rw [← hta, hws]
            have h3 : Tile.cmp b c = Tile.cmp b a := by
              rw [← tile_cmp_strip b c, ← he, tile_cmp_strip]
            have h4 : Tile.cmp b a = .gt := by
              rw [← tile_cmp_swap a b, hab]
              rfl
            rw [hbc, h4] at h3
            cases h3
          · have hwm : w ∈ mid :: rest1 := (popFirst_perm hp1).mem_iff.mp hw2
            rcases List.mem_cons.mp hwm with rfl | hw3
            · exfalso
              have he : Tile.strip b = Tile.strip c := by rw [← hmidb, hws]
              have h3 := tile_cmp_eq_iff_beq.mpr (tileBeq_iff_strip.mpr he)
              rw [hbc] at h3
              cases h3
            · exact ⟨w, hw3, hws⟩
        obtain ⟨w2, hw2, hw2s⟩ := hcwit
        cases hp2 : popFirst rest1 n2 with
        | none =>
          exfalso
          have h0 := removeFirstSat_none hp2 w2 hw2
          have hbeq : tileBeq w2 n2 = true := tileBeq_iff_strip.mpr (by
            rw [hw2s, ← tileBeq_iff_strip.mp hn2c])
          rw [hbeq] at h0
          cases h0
        | some p2 =>
          obtain ⟨lst, rest2⟩ := p2
          have hl1 := popFirst_length hp1
          have hl2 := popFirst_length hp2
          have hlen2 : rest2.length ≤ n := by
            simp only [List.length_cons] at hlen
            omega
          have hsort1 : List.Sorted tileLe rest1 :=
            (List.sorted_cons.mp hsort).2.sublist (popFirst_sublist hp1)
          have hsort2 : List.Sorted tileLe rest2 :=
            hsort1.sublist (popFirst_sublist hp2)
          have hlstc : Tile.strip lst = Tile.strip c := by
            have h0 := (popFirst_found hp2).1
            rw [tileBeq_iff_strip] at h0
            rw [h0, ← tileBeq_iff_strip.mp hn2c]
          obtain ⟨pre, post, hrs_eq⟩ := List.append_of_mem hr
          have hruns2 : ∀ r2 ∈ pre ++ post, isRunB r2 = true := by
            intro r2 hr2
            apply hrs
            rw [hrs_eq]
            rcases List.mem_append.mp hr2 with h | h
            · exact List.mem_append_left _ h
            · exact List.mem_append_right _ (List.mem_cons_of_mem _ h)
          have e0 : List.Perm ((rs.flatten).map Tile.strip)
              (Tile.strip a :: Tile.strip b :: Tile.strip c ::
                (((pre ++ post).flatten).map Tile.strip)) := by
            rw [hrs_eq, List.flatten_append, List.flatten_cons,
              List.map_append, List.map_append, List.flatten_append,
              List.map_append]
            have t3 : List.Perm
                ((pre.flatten.map Tile.strip) ++ Tile.strip c ::
                  (post.flatten.map Tile.strip))
                (Tile.strip c :: ((pre.flatten.map Tile.strip) ++
                  (post.flatten.map Tile.strip))) := List.perm_middle
            have t2 : List.Perm
                ((pre.flatten.map Tile.strip) ++ Tile.strip b ::
                  Tile.strip c :: (post.flatten.map Tile.strip))
                (Tile.strip b :: Tile.strip c ::
                  ((pre.flatten.map Tile.strip) ++
                    (post.flatten.map Tile.strip))) :=
              List.Perm.trans List.perm_middle (t3.cons (Tile.strip b))
            exact List.Perm.trans List.perm_middle (t2.cons (Tile.strip a))
          have l1 : List.Perm (M2.map Tile.strip)
              (Tile.strip mid :: rest1.map Tile.strip) := by
            have h0 := (popFirst_perm hp1).map Tile.strip
            simpa using h0
          have l2 : List.Perm (rest1.map Tile.strip)
              (Tile.strip lst :: rest2.map Tile.strip) := by
            have h0 := (popFirst_perm hp2).map Tile.strip
            simpa using h0
          have c1 : List.Perm
              (Tile.strip a :: (M2.map Tile.strip))
              (Tile.strip a :: Tile.strip b :: Tile.strip c ::
                (((pre ++ post).flatten).map Tile.strip)) := by
            have h0 := hperm.trans e0
            rw [List.map_cons, hta] at h0
            exact h0
          have c2 := c1.cons_inv
          have c3 : List.Perm (Tile.strip b :: rest1.map Tile.strip)
              (Tile.strip b :: Tile.strip c ::
                (((pre ++ post).flatten).map Tile.strip)) := by
            have h0 := l1.symm.trans c2
            rw [hmidb] at h0
            exact h0
          have c4 := c3.cons_inv
          have c5 : List.Perm (Tile.strip c :: rest2.map Tile.strip)
              (Tile.strip c :: (((pre ++ post).flatten).map Tile.strip)) := by
            have h0 := l2.symm.trans c4
            rw [hlstc] at h0
            exact h0
          obtain ⟨ss2, hss2⟩ :=
            ih rest2 hlen2 hsort2 (pre ++ post) hruns2 c5.cons_inv
          refine ⟨sortTiles [t, mid, lst] :: ss2, ?_⟩
          rw [extractShunzi_cons, htnext]
          dsimp only
          rw [hp1]
          dsimp only
          rw [hmidnext]
          dsimp only
          rw [hp2]
          dsimp only
          rw [hss2]

/-! ### The extracted runs' shape, and the wait list is never empty -/

theorem order_ne_none_of_next {a b : Tile} (h : a.next = some b) :
    a.order ≠ none := by
  cases a <;> simp [Tile.next, Tile.order] at h ⊢

theorem next_order_ne_none {a b : Tile} (h : a.next = some b) :
    b.order ≠ none := by
  cases a with
  | zipai z => simp [Tile.next] at h
  | suozi o =>
    simp only [Tile.next, Option.map_eq_some'] at h
    obtain ⟨ob, _, rfl⟩ := h
    simp [Tile.order]
  | wanzi o =>
    simp only [Tile.next, Option.map_eq_some'] at h
    obtain ⟨ob, _, rfl⟩ := h
    simp [Tile.order]
  | tongzi o =>
    simp only [Tile.next, Option.map_eq_some'] at h
    obtain ⟨ob, _, rfl⟩ := h
    simp [Tile.order]

theorem order_ne_none_of_beq {a b : Tile} (h : tileBeq a b = true)
    (ha : a.order ≠ none) : b.order ≠ none := by
  rw [tileBeq_iff_strip] at h
  cases a <;> cases b <;> simp_all [Tile.strip, Tile.order]

/-- A strictly increasing triple is already sorted, so `sortTiles` keeps
it. -/
theorem run_sorted_eq {a b c : Tile} (hab : Tile.cmp a b = .lt)
    (hbc : Tile.cmp b c = .lt) : sortTiles [a, b, c] = [a, b, c] := by
  have le1 : tileLe a b := by
    unfold tileLe
    rw [hab]
    decide
  have le2 : tileLe b c := by
    unfold tileLe
    rw [hbc]
    decide
  have le3 : tileLe a c := tileLe_trans le1 le2
  have hs : List.Sorted tileLe [a, b, c] := by
    rw [List.sorted_cons]
    refine ⟨?_, ?_⟩
    · intro z hz
      rcases List.mem_cons.mp hz with rfl | hz2
      · exact le1
      · rcases List.mem_cons.mp hz2 with rfl | hz3
        · exact le3
        · cases hz3
    · rw [List.sorted_cons]
      refine ⟨?_, List.sorted_singleton c⟩
      intro z hz
      rcases List.mem_cons.mp hz with rfl | hz2
      · exact le2
      · cases hz2

  unfold sortTiles
  exact List.Sorted.insertionSort_eq hs

/-- Every run the greedy extraction produces is a concrete increasing
triple whose first and last tiles are suited. -/
theorem extractShunzi_shape :
    ∀ (n : Nat) (M : List Tile), M.length ≤ n →
      ∀ {ss : List (List Tile)}, extractShunzi M = some ss →
      ∀ s ∈ ss, ∃ a b c, s = [a, b, c] ∧ a.order ≠ none ∧
        c.order ≠ none := by
  intro n
  induction n with
  | zero =>
    intro M hlen ss h s hs
    have : M = [] := List.length_eq_zero.mp (Nat.le_zero.mp hlen)
    subst this
    rw [extractShunzi_nil] at h
    cases h
    cases hs
  | succ n ih =>
    intro M hlen ss h s hs
    cases M with
    | nil =>
      rw [extractShunzi_nil] at h
      cases h
      cases hs
    | cons first rest =>
      rw [extractShunzi_cons] at h
      cases hn1 : first.next with
      | none => rw [hn1] at h; cases h
      | some n1 =>
        rw [hn1] at h
        dsimp only at h
        cases hp1 : popFirst rest n1 with
        | none => rw [hp1] at h; cases h
        | some p1 =>
          obtain ⟨mid, rest1⟩ := p1
          rw [hp1] at h
          dsimp only at h
          cases hn2 : mid.next with
          | none => rw [hn2] at h; cases h
          | some n2 =>
            rw [hn2] at h
            dsimp only at h
            cases hp2 : popFirst rest1 n2 with
            | none => rw [hp2] at h; cases h
            | some p2 =>
              obtain ⟨lst, rest2⟩ := p2
              rw [hp2] at h
              dsimp only at h
              cases hrec : extractShunzi rest2 with
              | none => rw [hrec] at h; cases h
              | some ss2 =>
                rw [hrec] at h
                cases h
                rcases List.mem_cons.mp hs with rfl | hmem
                · have hfm : Tile.cmp first mid = .lt := by
                    have h2 : Tile.strip mid = Tile.strip n1 :=
                      tileBeq_iff_strip.mp (popFirst_found hp1).1
                    rw [← tile_cmp_strip, h2, tile_cmp_strip]
                    exact tile_cmp_lt_of_next hn1
                  have hml : Tile.cmp mid lst = .lt := by
                    have h2 : Tile.strip lst = Tile.strip n2 :=
                      tileBeq_iff_strip.mp (popFirst_found hp2).1
                    rw [← tile_cmp_strip, h2, tile_cmp_strip]
                    exact tile_cmp_lt_of_next hn2
                  refine ⟨first, mid, lst, run_sorted_eq hfm hml, ?_, ?_⟩
                  · exact order_ne_none_of_next hn1
                  · exact order_ne_none_of_beq
                      (tileBeq_symm (popFirst_found hp2).1)
                      (next_order_ne_none hn2)
                · have e1 := popFirst_length hp1
                  have e2 := popFirst_length hp2
                  refine ih rest2 ?_ hrec s hmem
                  simp only [List.length_cons] at hlen
                  omega

/-- If a scanned run has the winning tile at its first or last position
(with suited first and last tiles), the open/edge-wait scan classifies
something. -/
theorem lbLoop_some_of_mem (lastT : Tile) (o : TOrder) :
    ∀ (l : List (List Tile)) (s : List Tile), s ∈ l →
      (tileBeq lastT (firstTile s) = true ∨
        tileBeq lastT (endTile s) = true) →
      (firstTile s).order ≠ none → (endTile s).order ≠ none →
      liangmianBianzhangLoop lastT o l ≠ none := by
  intro l
  induction l with
  | nil => intro s hs _ _ _; cases hs
  | cons s0 rest ih =>
    intro s hs hcond hfo heo
    rw [liangmianBianzhangLoop]
    split
    · rename_i hskip
      rcases List.mem_cons.mp hs with rfl | hmem
      · exfalso
        rw [Bool.and_eq_true, Bool.not_eq_true', Bool.not_eq_true'] at hskip
        obtain ⟨h1, h2⟩ := hskip
        rcases hcond with hc | hc
        · rw [hc] at h1; cases h1
        · rw [hc] at h2; cases h2
      · exact ih s hmem hcond hfo heo
    · split
      · rename_i heq
        rcases List.mem_cons.mp hs with rfl | hmem
        · exact absurd heq hfo
        · exact ih s hmem hcond hfo heo
      · split
        · rename_i heq
          rcases List.mem_cons.mp hs with rfl | hmem
          · exact absurd heq heo
          · exact ih s hmem hcond hfo heo
        · split
          · intro hc; cases hc
          · split
            · intro hc; cases hc
            · intro hc; cases hc

/-- Whenever the winning tile sits in the pair, a triplet or a run of the
decomposition, at least one wait kind applies. -/
theorem enumerateMachis_complete (q : List Tile) (ss ks : List (List Tile))
    (lastT : Tile)
    (hq : ∀ x ∈ q, ∀ y ∈ q, tileBeq x y = true)
    (hks : ∀ k ∈ ks, k ≠ [] ∧ ∀ x ∈ k, ∀ y ∈ k, tileBeq x y = true)
    (hss : ∀ s ∈ ss, ∃ a b c, s = [a, b, c] ∧ a.order ≠ none ∧
      c.order ≠ none)
    (hlast : lastT ∈ q ∨ (∃ k ∈ ks, lastT ∈ k) ∨ (∃ s ∈ ss, lastT ∈ s)) :
    enumerateMachis q ss ks lastT ≠ [] := by
  rcases hlast with hq1 | ⟨k, hk, hlk⟩ | ⟨s, hs, hls⟩
  · have hbeq : tileBeq (firstTile q) lastT = true :=
      hq (firstTile q) (firstTile_mem (List.ne_nil_of_mem hq1)) lastT hq1
    have hdy : isDanqiYandan q ss lastT = danqiYandanLoop lastT ss := by
      unfold isDanqiYandan
      simp [hbeq]
    rcases dyLoop_cases lastT ss with hd | hd
    · refine List.ne_nil_of_mem (show MachiKind.danqi ∈ enumerateMachis q ss ks lastT from ?_)
      simp [enumerateMachis, hdy.trans hd]
    · refine List.ne_nil_of_mem (show MachiKind.yandan ∈ enumerateMachis q ss ks lastT from ?_)
      simp [enumerateMachis, hdy.trans hd]
  · have hne : k ≠ [] := (hks k hk).1
    have hbeq : tileBeq (firstTile k) lastT = true :=
      (hks k hk).2 (firstTile k) (firstTile_mem hne) lastT hlk
    have hsp : isShuangpeng ks lastT = true := by
      unfold isShuangpeng
      rw [List.any_eq_true]
      exact ⟨k, hk, hbeq⟩
    refine List.ne_nil_of_mem (show MachiKind.shuangpeng ∈ enumerateMachis q ss ks lastT from ?_)
    simp [enumerateMachis, hsp]
  · obtain ⟨a, b, c, rfl, hao, hco⟩ := hss s hs
    rcases (show lastT = a ∨ lastT = b ∨ lastT = c by simpa using hls) with
      rfl | rfl | rfl
    · have hlb : isLiangmianBianzhang ss lastT ≠ none := by
        unfold isLiangmianBianzhang
        cases ho : lastT.order with
        | none => exact absurd ho hao
        | some o =>
          exact lbLoop_some_of_mem lastT o ss [lastT, b, c] hs
            (.inl (tileBeq_refl lastT)) hao hco
      rcases isLB_cases ss lastT with hl | hl | hl
      · exact absurd hl hlb
      · refine List.ne_nil_of_mem (show MachiKind.liangmian ∈ enumerateMachis q ss ks lastT from ?_)
        simp [enumerateMachis, hl]
      · refine List.ne_nil_of_mem (show MachiKind.bianzhang ∈ enumerateMachis q ss ks lastT from ?_)
        simp [enumerateMachis, hl]
    · have hqz : isQianzhang ss lastT = true := by
        unfold isQianzhang
        rw [List.any_eq_true]
        exact ⟨[a, lastT, c], hs, tileBeq_refl lastT⟩
      refine List.ne_nil_of_mem (show MachiKind.qianzhang ∈ enumerateMachis q ss ks lastT from ?_)
      simp [enumerateMachis, hqz]
    · have hlb : isLiangmianBianzhang ss lastT ≠ none := by
        unfold isLiangmianBianzhang
        cases ho : lastT.order with
        | none => exact absurd ho hco
        | some o =>
          exact lbLoop_some_of_mem lastT o ss [a, b, lastT] hs
            (.inr (tileBeq_refl lastT)) hao hco
      rcases isLB_cases ss lastT with hl | hl | hl
      · exact absurd hl hlb
      · refine List.ne_nil_of_mem (show MachiKind.liangmian ∈ enumerateMachis q ss ks lastT from ?_)
        simp [enumerateMachis, hl]
      · refine List.ne_nil_of_mem (show MachiKind.bianzhang ∈ enumerateMachis q ss ks lastT from ?_)
        simp [enumerateMachis, hl]

/-! ### Completeness of the pair stage -/

theorem blockRanges_intro :
    ∀ (pre : List (List Tile)) (b : List Tile) (post : List (List Tile))
      (pos : Nat),
      (pos + pre.flatten.length, pos + pre.flatten.length + b.length) ∈
        blockRanges pos (pre ++ b :: post) := by
  intro pre
  induction pre with
  | nil =>
    intro b post pos
    rw [List.nil_append, blockRanges]
    simpa using List.mem_cons_self _ _
  | cons p pre ih =>
    intro b post pos
    rw [List.cons_append, blockRanges]
    refine List.mem_cons_of_mem _ ?_
    have h := ih b post (pos + p.length)
    have e : pos + p.length + pre.flatten.length =
        pos + ((p :: pre).flatten).length := by
      simp only [List.flatten_cons, List.length_append]
      omega
    rw [e] at h
    exact h

/-- Completeness of the pair stage: any `==`-class with at least two copies
in the sorted tiles yields an enumerated pair candidate whose removal is
exactly two copies of that class. -/
theorem quetou_stage_complete (L : List Tile) (p1 : Tile)
    (hsort : List.Sorted tileLe L)
    (hcnt : 2 ≤ (L.map Tile.strip).count (Tile.strip p1)) :
    ∃ q rest0, (q, rest0) ∈ enumerateQuetou L ∧
      List.Sorted tileLe rest0 ∧
      List.Perm (L.map Tile.strip)
        (Tile.strip p1 :: Tile.strip p1 :: rest0.map Tile.strip) := by
  have hne : L ≠ [] := by
    intro he
    rw [he] at hcnt
    simp at hcnt
  have hrangeEq : rangeSameTiles L = blockRanges 0 (groupBlocks L) := by
    cases L with
    | nil => exact absurd rfl hne
    | cons t0 L0 => exact rangeSameTiles_eq_blockRanges t0 L0
  have hmem0 : Tile.strip p1 ∈ L.map Tile.strip :=
    List.count_pos_iff.mp (by omega)
  obtain ⟨x, hx, hxs⟩ := List.mem_map.mp hmem0
  have hflat : (groupBlocks L).flatten = L :=
    groupBlocks_flatten _ _ (le_refl _)
  have hhom : ∀ b ∈ groupBlocks L, ∀ y ∈ b,
      tileBeq y (firstTile b) = true := by
    intro b hb y hy
    exact groupBlocks_eq_within _ _ (le_refl _) b hb y hy (firstTile b)
      (firstTile_mem (groupBlocks_nonempty _ _ (le_refl _) b hb))
  have hcountb := groupBlocks_count _ _ (le_refl _) hsort
  have hxf : x ∈ (groupBlocks L).flatten := by
    rw [hflat]
    exact hx
  obtain ⟨b, hb, hxb⟩ := List.mem_flatten.mp hxf
  have hkeq : Tile.strip (firstTile b) = Tile.strip p1 := by
    rw [← tileBeq_iff_strip.mp (hhom b hb x hxb), hxs]
  have hblen : 2 ≤ b.length := by
    have e1 := hcountb b hb
    have e2 := cnt_strip L (firstTile b)
    rw [e1] at e2
    rw [e2, hkeq]
    omega
  obtain ⟨pre, post, hbs⟩ := List.append_of_mem hb
  have hL : L = pre.flatten ++ (b ++ post.flatten) := by
    rw [← hflat, hbs, List.flatten_append, List.flatten_cons]
  have hrange : (pre.flatten.length, pre.flatten.length + b.length) ∈
      rangeSameTiles L := by
    rw [hrangeEq, hbs]
    have h := blockRanges_intro pre b post 0
    simpa using h
  have hfilter : (pre.flatten.length, pre.flatten.length + b.length) ∈
      (rangeSameTiles L).filter (fun r => 2 ≤ r.2 - r.1) := by
    rw [List.mem_filter]
    refine ⟨hrange, ?_⟩
    simp only [decide_eq_true_eq]
    omega
  have hd1 : (drainRange L pre.flatten.length (pre.flatten.length + 2)).1 =
      b.take 2 := by
    unfold drainRange
    dsimp only
    rw [show pre.flatten.length + 2 - pre.flatten.length = 2 from by omega]
    rw [hL, List.drop_left, List.take_append_of_le_length hblen]
  have hd2 : (drainRange L pre.flatten.length (pre.flatten.length + 2)).2 =
      pre.flatten ++ (b.drop 2 ++ post.flatten) := by
    unfold drainRange
    dsimp only
    rw [hL, List.take_left pre.flatten (b ++ post.flatten)]
    rw [← List.drop_drop, List.drop_left,
      List.drop_append_of_le_length hblen]
  have hqmem : (sortTiles (b.take 2),
      pre.flatten ++ (b.drop 2 ++ post.flatten)) ∈ enumerateQuetou L := by
    unfold enumerateQuetou
    refine List.mem_map.mpr ⟨(pre.flatten.length,
      pre.flatten.length + b.length), hfilter, ?_⟩
    dsimp only
    rw [hd1, hd2]
  have hsub : List.Sublist (pre.flatten ++ (b.drop 2 ++ post.flatten)) L := by
    rw [hL]
    exact ((List.drop_sublist 2 b).append
      (List.Sublist.refl post.flatten)).append_left pre.flatten
  have hsort0 : List.Sorted tileLe
      (pre.flatten ++ (b.drop 2 ++ post.flatten)) := hsort.sublist hsub
  have hqs : (sortTiles (b.take 2)).map Tile.strip =
      List.replicate 2 (Tile.strip p1) := by
    refine List.eq_replicate_iff.mpr ⟨?_, ?_⟩
    · rw [List.length_map, (sortTiles_perm _).length_eq, List.length_take]
      omega
    · intro y hy
      obtain ⟨z, hz, rfl⟩ := List.mem_map.mp hy
      have hzb : z ∈ b := List.mem_of_mem_take
        ((sortTiles_perm _).mem_iff.mp hz)
      rw [tileBeq_iff_strip.mp (hhom b hb z hzb), hkeq]
  have hQperm := enumerateQuetou_perm hqmem
  refine ⟨sortTiles (b.take 2), pre.flatten ++ (b.drop 2 ++ post.flatten),
    hqmem, hsort0, ?_⟩
  have h := hQperm.map Tile.strip
  rw [List.map_append, hqs] at h
  exact h

/-! ### The decomposer finds every legal winning hand -/

/-- The four-copies validation bounds the class counts of the concealed hand
plus winning tile. -/
theorem hand_count_le_four (ts : Tilesets)
    (hnum : ts.checkNumSameTiles = true) :
    ∀ s : Tile,
      ((sortTiles (ts.hand ++ [ts.last])).map Tile.strip).count s ≤ 4 := by
  intro s
  by_cases hmem : s ∈ (sortTiles (ts.hand ++ [ts.last])).map Tile.strip
  · obtain ⟨x, hx, hxs⟩ := List.mem_map.mp hmem
    have hx2 : x ∈ ts.hand ++ [ts.last] := (sortTiles_perm _).mem_iff.mp hx
    have e : ts.tilesAll = ts.last ::
        (((ts.hand ++ ts.pengs.flatten ++ ts.chis.flatten ++
          ts.minggangs.flatten) ++ ts.angangs.flatten) ++
          ts.doras.map Tile.wrappingPrev) := by
      unfold Tilesets.tilesAll Tilesets.tilesWithoutDoras
      simp [List.append_assoc]
    have hmemAll : x ∈ ts.tilesAll := by
      rw [e]
      rcases List.mem_append.mp hx2 with h | h
      · refine List.mem_cons_of_mem _ ?_
        refine List.mem_append_left _ ?_
        refine List.mem_append_left _ ?_
        exact List.mem_append_left _ (List.mem_append_left _
          (List.mem_append_left _ h))
      · rw [List.mem_singleton] at h
        rw [h]
        exact List.mem_cons_self _ _
    have hnum2 := hnum
    unfold Tilesets.checkNumSameTiles at hnum2
    rw [List.all_eq_true] at hnum2
    have hle := hnum2 x hmemAll
    rw [decide_eq_true_iff] at hle
    have e1 : ((sortTiles (ts.hand ++ [ts.last])).map Tile.strip).count s =
        cntBeq x (sortTiles (ts.hand ++ [ts.last])) := by
      rw [cnt_strip, hxs]
    have e2 : cntBeq x (sortTiles (ts.hand ++ [ts.last])) =
        cntBeq x (ts.hand ++ [ts.last]) := by
      unfold cntBeq
      exact (sortTiles_perm _).countP_eq _
    have e3 : cntBeq x (ts.hand ++ [ts.last]) ≤
        ts.tilesAll.countP (fun u => tileBeq u x) := by
      rw [e]
      unfold cntBeq
      simp only [List.countP_append, List.countP_cons, List.countP_nil]
      omega
    rw [e1, e2]
    omega
  · rw [List.count_eq_zero.mpr hmem]
    omega

/-- Completeness of the whole decomposer on validated table states: every
concealed hand (plus winning tile) that admits a standard pair/triplet/run
partition yields at least one enumerated decomposition. -/
theorem enumerate_complete (ts : Tilesets)
    (hnum : ts.checkNumSameTiles = true)
    (hdec : hasWinningDecomposition (ts.hand ++ [ts.last])) :
    AgariTilesets.enumerate ts ≠ [] := by
  obtain ⟨pair, gs, hperm0, hpair, hgs⟩ := hdec
  obtain ⟨p1, p2, rfl, hp⟩ : ∃ a b, pair = [a, b] ∧ tileBeq a b = true := by
    rcases pair with _ | ⟨a, _ | ⟨b, _ | c⟩⟩ <;> simp [isPairB] at hpair
    exact ⟨a, b, rfl, hpair⟩
  have hsortL : List.Sorted tileLe (sortTiles (ts.hand ++ [ts.last])) := by
    unfold sortTiles
    exact List.sorted_insertionSort _ _
  have hL2 : List.Perm (sortTiles (ts.hand ++ [ts.last]))
      ([p1, p2] ++ gs.flatten) := (sortTiles_perm _).trans hperm0
  have hsp2 : Tile.strip p2 = Tile.strip p1 := (tileBeq_iff_strip.mp hp).symm
  have hgs2 : List.Perm ((sortTiles (ts.hand ++ [ts.last])).map Tile.strip)
      (Tile.strip p1 :: Tile.strip p1 :: (gs.flatten.map Tile.strip)) := by
    have h := hL2.map Tile.strip
    rw [List.map_append, List.map_cons, List.map_cons, List.map_nil,
      hsp2] at h
    exact h
  have hcnt2 : 2 ≤ ((sortTiles (ts.hand ++ [ts.last])).map
      Tile.strip).count (Tile.strip p1) := by
    rw [hgs2.count_eq, List.count_cons_self, List.count_cons_self]
    omega
  obtain ⟨q, rest0, hqmem, hsort0, hqperm⟩ := quetou_stage_complete
    (sortTiles (ts.hand ++ [ts.last])) p1 hsortL hcnt2
  have hrem : List.Perm (rest0.map Tile.strip)
      (gs.flatten.map Tile.strip) :=
    ((hqperm.symm.trans hgs2).cons_inv).cons_inv
  have hleg0 : ∀ s : Tile, (rest0.map Tile.strip).count s ≤ 4 := by
    intro s
    have h1 := hand_count_le_four ts hnum s
    have h2 := hqperm.count_eq s
    rw [List.count_cons, List.count_cons] at h2
    omega
  have hT : ∀ g ∈ gs.filter isTripletB, isTripletB g = true :=
    fun g hg => (List.mem_filter.mp hg).2
  have hR : ∀ g ∈ gs.filter (fun g => !isTripletB g), isRunB g = true := by
    intro g hg
    obtain ⟨hgm, hneg⟩ := List.mem_filter.mp hg
    rw [Bool.not_eq_true'] at hneg
    rcases hgs g hgm with ht | hr
    · rw [ht] at hneg
      cases hneg
    · exact hr
  have hgsTR : List.Perm gs
      (gs.filter isTripletB ++ gs.filter (fun g => !isTripletB g)) :=
    (List.filter_append_perm _ _).symm
  have hremTR : List.Perm (rest0.map Tile.strip)
      (((gs.filter isTripletB).flatten).map Tile.strip ++
        ((gs.filter (fun g => !isTripletB g)).flatten).map Tile.strip) := by
    have h := (hgsTR.flatten).map Tile.strip
    rw [List.flatten_append, List.map_append] at h
    exact hrem.trans h
  obtain ⟨ks, rest2, hksmem, hsort2, hresperm, hksshape⟩ :=
    kezi_stage_complete rest0 (gs.filter isTripletB)
      (gs.filter (fun g => !isTripletB g)) hsort0 hT hleg0 hremTR
  obtain ⟨ss, hss⟩ := extractShunzi_complete rest2.length rest2 (le_refl _)
    hsort2 (gs.filter (fun g => !isTripletB g)) hR hresperm
  have hqshape := enumerateQuetou_shape hqmem
  have hssshape := extractShunzi_shape rest2.length rest2 (le_refl _) hss
  have hstages := enumerate_stages_perm hqmem hksmem hss
  have hlastmem : ts.last ∈ q ++ (ks.flatten ++ ss.flatten) :=
    hstages.mem_iff.mpr
      (List.mem_append_right _ (List.mem_cons_self _ _))
  have htriple : ts.last ∈ q ∨ (∃ k ∈ ks, ts.last ∈ k) ∨
      (∃ s ∈ ss, ts.last ∈ s) := by
    rcases List.mem_append.mp hlastmem with h | h
    · exact Or.inl h
    · rcases List.mem_append.mp h with h2 | h2
      · exact Or.inr (Or.inl (List.mem_flatten.mp h2))
      · exact Or.inr (Or.inr (List.mem_flatten.mp h2))
  have hks2 : ∀ k ∈ ks, k ≠ [] ∧ ∀ x ∈ k, ∀ y ∈ k, tileBeq x y = true := by
    intro k hk
    obtain ⟨hlen3, hmut⟩ := hksshape k hk
    refine ⟨?_, hmut⟩
    intro he
    rw [he] at hlen3
    simp at hlen3
  have hmachis := enumerateMachis_complete q ss ks ts.last hqshape.2 hks2
    hssshape htriple
  obtain ⟨m, hm⟩ := List.exists_mem_of_ne_nil _ hmachis
  have hfinal : AgariTilesets.new ts m q ks ss ∈
      AgariTilesets.enumerate ts := by
    unfold AgariTilesets.enumerate
    rw [List.mem_flatMap]
    refine ⟨(q, rest0), hqmem, ?_⟩
    dsimp only
    rw [List.mem_flatMap]
    refine ⟨(ks, rest2), hksmem, ?_⟩
    dsimp only
    rw [hss]
    exact List.mem_map.mpr ⟨m, hm, rfl⟩
  exact List.ne_nil_of_mem hfinal

/-- A table state that realises the spec's missed-decomposition scenario —
but only by holding six copies of 1s, which the four-copies validation
rejects. -/
def c3bad : Tilesets :=
  ⟨⟨.none, [], .east, .east⟩, false, tS 9,
    [tS 1, tS 1, tS 1, tS 1, tS 1, tS 1, tS 9],
    [], [], [], [], []⟩

/-- C3 (counterexample): no table state passing the four-copies validation
admits a standard pair/triplet/run partition of its concealed tiles plus
winning tile while the decomposer's enumeration returns zero
decompositions — the claimed missed hand does not exist among legal
hands. -/
theorem no_missed_legal_decomposition :
    ¬∃ ts : Tilesets, ts.checkNumSameTiles = true ∧
      hasWinningDecomposition (ts.hand ++ [ts.last]) ∧
      AgariTilesets.enumerate ts = [] := by
  rintro ⟨ts, h1, h2, h3⟩
  exact enumerate_complete ts h1 h2 h3

/-- C3 (amended): the pair-candidate/triplet-bitmask/greedy-run enumeration
is complete for every table state passing the four-copies validation: a
concealed hand plus winning tile admitting a pair/triplet/run partition
always yields at least one decomposition; zero decompositions despite a
valid partition can occur only for illegal multisets with more than four
copies of a tile, as witnessed by six 1s plus a 9s pair. -/
theorem enumeration_completeness_boundary :
    (∀ ts : Tilesets, ts.checkNumSameTiles = true →
      hasWinningDecomposition (ts.hand ++ [ts.last]) →
      AgariTilesets.enumerate ts ≠ []) ∧
    (hasWinningDecomposition (c3bad.hand ++ [c3bad.last]) ∧
      c3bad.checkNumSameTiles = false ∧
      AgariTilesets.enumerate c3bad = []) := by
  refine ⟨fun ts h1 h2 => enumerate_complete ts h1 h2, ?_, ?_, ?_⟩
  · exact ⟨[tS 9, tS 9], [[tS 1, tS 1, tS 1], [tS 1, tS 1, tS 1]],
      by decide, by decide, by decide⟩
  · decide
  · decide

theorem enumeration_completeness_boundary_witness :
    c2ts.checkNumSameTiles = true ∧ AgariTilesets.enumerate c2ts ≠ [] :=
  ⟨by decide, enumeration_completeness_boundary.1 c2ts (by decide)
    ⟨[Tile.zipai .east, Tile.zipai .east],
      [[tM 1, tM 1, tM 1], [tM 9, tM 9, tM 9],
        [tS 1, tS 2, tS 3], [tS 4, tS 5, tS 6]],
      by decide, by decide, by decide⟩⟩
